import Mathlib

/-!
# Transaction authorization core of `libraries/chain/protocol/transaction.cpp`

A shallow embedding of the sign-state engine (`sign_state`), the top-level verifier
(`verify_authority`), signature-key recovery (`get_signature_keys`), the wallet query
(`get_required_signatures`) and the greedy minimizer (`minimize_required_signatures`),
followed by theorems about them.

Conventions of the embedding

* `flat_set<T>` / `std::set<T>` are lists kept sorted and duplicate free by `flat_set_insert`;
  `find(x) != end()` is list membership.
* `flat_map<public_key_type,bool>` is a list of pairs kept sorted by key by `flat_map_set`
  (the embedding of `m[k] = v`).
* `uint32_t total_weight` is a `Nat` reduced modulo `2^32` after every `+=`.
* Member functions that mutate the `sign_state` return the new state next to their result.
* A thrown exception is the `Except.error` of the exception's kind.
-/

namespace Graphene

/-! ## Identifiers, authorities, operations -/

/-- Public keys, ordered as the keys of `flat_set` / `flat_map`. -/
abbrev public_key_type := Nat

/-- Account identifiers (object instance numbers). -/
abbrev account_id_type := Nat

/-- Compact recoverable signatures, treated as opaque values. -/
abbrev signature_type := Nat

/-- The 256-bit digest, treated as an opaque value. -/
abbrev digest_type := Nat

/-- Modelled from the spec: the authority record (its declaration is in a header outside this
file). A threshold, and two maps from key / account id to weight, each held in the iteration
order of the map. -/
structure authority where
  weight_threshold : Nat
  key_auths : List (public_key_type × Nat)
  account_auths : List (account_id_type × Nat)
deriving DecidableEq, Repr

/-- Modelled from the spec: the compile-time constants of the chain configuration header
(distinguished committee and temporary account ids, default signature-check depth). They are
taken as parameters. -/
structure chain_config where
  GRAPHENE_COMMITTEE_ACCOUNT : account_id_type
  GRAPHENE_TEMP_ACCOUNT : account_id_type
  GRAPHENE_MAX_SIG_CHECK_DEPTH : Nat
deriving DecidableEq, Repr

/-- Modelled from the spec: an operation, seen only through its required-authority summary
(the operation variants live outside this file): the account ids whose active authority it
requires, those whose owner authority it requires, and its inline ad-hoc authorities. -/
structure operation where
  required_active : List account_id_type
  required_owner : List account_id_type
  other : List authority
deriving DecidableEq, Repr

/-- The exception kinds raised by the functions of this file. `FC_ASSERT` failures are told
apart by their message. -/
inductive error where
  | invalid_committee_approval
  | tx_missing_active_auth (id : account_id_type)
  | tx_missing_owner_auth
  | tx_missing_other_auth
  | unnecessary_signatures
  | duplicate_signature
deriving DecidableEq, Repr

/-- The three kinds caught by the minimizer's probe. -/
def error.is_missing_auth : error → Bool
  | .tx_missing_active_auth _ => true
  | .tx_missing_owner_auth => true
  | .tx_missing_other_auth => true
  | _ => false

/-! ## Containers -/

/-- The embedding of `flat_set::insert`: ordered insertion that keeps an element already present. -/
def flat_set_insert (x : Nat) : List Nat → List Nat
  | [] => [x]
  | y :: ys =>
    if x < y then x :: y :: ys
    else if x = y then y :: ys
    else y :: flat_set_insert x ys

/-- The embedding of `flat_set::erase(key)`. -/
def flat_set_erase (x : Nat) (l : List Nat) : List Nat :=
  l.filter (fun y => y ≠ x)

/-- The embedding of `flat_map::find`: the value stored under `k`, if any. -/
def flat_map_find (k : public_key_type) : List (public_key_type × Bool) → Option Bool
  | [] => none
  | (k1, v) :: rest => if k = k1 then some v else flat_map_find k rest

/-- The embedding of `m[k] = v`: assign under an existing key or insert in key order. -/
def flat_map_set (k : public_key_type) (v : Bool) :
    List (public_key_type × Bool) → List (public_key_type × Bool)
  | [] => [(k, v)]
  | (k1, v1) :: rest =>
    if k < k1 then (k, v) :: (k1, v1) :: rest
    else if k = k1 then (k, v) :: rest
    else (k1, v1) :: flat_map_set k v rest

/-- The embedding of `uint32_t total_weight; total_weight += w`. -/
def add_weight (total_weight w : Nat) : Nat :=
  (total_weight + w) % 2 ^ 32

/-! ## The sign-state engine -/

/-- The mutable members of `sign_state`. The callback `get_active` is a constant reference and
is passed to the member functions instead of being stored. -/
structure sign_state where
  available_keys : List public_key_type
  provided_signatures : List (public_key_type × Bool)
  approved_by : List account_id_type
  max_recursion : Nat
deriving DecidableEq, Repr

/-- The constructor `sign_state(sigs, a, keys)`. -/
def sign_state.init (cfg : chain_config) (sigs : List public_key_type)
    (keys : List public_key_type) : sign_state :=
  { available_keys := keys
    provided_signatures := sigs.foldl (fun m key => flat_map_set key false m) []
    approved_by := flat_set_insert cfg.GRAPHENE_TEMP_ACCOUNT []
    max_recursion := cfg.GRAPHENE_MAX_SIG_CHECK_DEPTH }

/-- The member `signed_by(k)`. -/
def sign_state.signed_by (s : sign_state) (k : public_key_type) : Bool × sign_state :=
  match flat_map_find k s.provided_signatures with
  | none =>
    if k ∈ s.available_keys then
      (true, { s with provided_signatures := flat_map_set k true s.provided_signatures })
    else (false, s)
  | some _ => (true, { s with provided_signatures := flat_map_set k true s.provided_signatures })

/-- The first loop of `check_authority(au, depth)`, over `key_auths`. The first component is
`some true` when the loop returned `true` from the function, `none` when it ran to its end;
the second is `total_weight`. -/
def check_keys (threshold : Nat) :
    List (public_key_type × Nat) → Nat → sign_state → Option Bool × Nat × sign_state
  | [], total_weight, s => (none, total_weight, s)
  | (k, w) :: rest, total_weight, s =>
    match s.signed_by k with
    | (true, s1) =>
      if add_weight total_weight w ≥ threshold then (some true, add_weight total_weight w, s1)
      else check_keys threshold rest (add_weight total_weight w) s1
    | (false, s1) => check_keys threshold rest total_weight s1

/-- The second loop of `check_authority(au, depth)`, over `account_auths`, together with the
final `return total_weight >= auth.weight_threshold`. The recursive call
`check_authority(get_active(a), depth+1)` is the argument `recurse`. -/
def check_accounts (recurse : Option authority → sign_state → Bool × sign_state)
    (get_active : account_id_type → Option authority) (threshold depth : Nat) :
    List (account_id_type × Nat) → Nat → sign_state → Bool × sign_state
  | [], total_weight, s => (decide (total_weight ≥ threshold), s)
  | (a, w) :: rest, total_weight, s =>
    if a ∉ s.approved_by then
      if depth = s.max_recursion then (false, s)
      else
        match recurse (get_active a) s with
        | (true, s1) =>
          let s2 := { s1 with approved_by := flat_set_insert a s1.approved_by }
          if add_weight total_weight w ≥ threshold then (true, s2)
          else check_accounts recurse get_active threshold depth rest (add_weight total_weight w) s2
        | (false, s1) => check_accounts recurse get_active threshold depth rest total_weight s1
    else
      if add_weight total_weight w ≥ threshold then (true, s)
      else check_accounts recurse get_active threshold depth rest (add_weight total_weight w) s

/-- The member `check_authority(const authority* au, uint32_t depth)`, by recursion on a number
of levels `fuel` that may still be entered. With no level left the answer is `false`; this is
never reached from `check_authority` below when `depth ≤ max_recursion`. -/
def check_authority_fuel (get_active : account_id_type → Option authority) :
    Nat → Option authority → Nat → sign_state → Bool × sign_state
  | 0, _, _, s => (false, s)
  | _ + 1, none, _, s => (false, s)
  | fuel + 1, some auth, depth, s =>
    match check_keys auth.weight_threshold auth.key_auths 0 s with
    | (some b, _, s1) => (b, s1)
    | (none, total_weight, s1) =>
      check_accounts (fun au1 s2 => check_authority_fuel get_active fuel au1 (depth + 1) s2)
        get_active auth.weight_threshold depth auth.account_auths total_weight s1

/-- The member `check_authority(au, depth)`. Every level entered at a depth below
`max_recursion` recurses at `depth + 1` and a level at `depth == max_recursion` does not
recurse, so `max_recursion - depth + 1` levels suffice. -/
def sign_state.check_authority (s : sign_state)
    (get_active : account_id_type → Option authority) (au : Option authority)
    (depth : Nat) : Bool × sign_state :=
  check_authority_fuel get_active (s.max_recursion - depth + 1) au depth s

/-- The member `check_authority(account_id_type id)`. -/
def sign_state.check_authority_id (s : sign_state)
    (get_active : account_id_type → Option authority) (id : account_id_type) :
    Bool × sign_state :=
  if id ∈ s.approved_by then (true, s)
  else s.check_authority get_active (get_active id) 0

/-- The member `remove_unused_signatures()`. -/
def sign_state.remove_unused_signatures (s : sign_state) : Bool × sign_state :=
  let remove_sigs := (s.provided_signatures.filter (fun sig => !sig.2)).map Prod.fst
  (decide (remove_sigs.length ≠ 0),
    { s with provided_signatures :=
        remove_sigs.foldl (fun m sig => m.filter (fun e => e.1 ≠ sig)) s.provided_signatures })

/-! ## Top-level verification -/

/-- Modelled from the spec: the hook `operation_get_required_authorities(op, active, owner,
other)` (defined with the operations, outside this file) adds the operation's summary to the
three accumulators. -/
def operation_get_required_authorities (op : operation)
    (acc : List account_id_type × List account_id_type × List authority) :
    List account_id_type × List account_id_type × List authority :=
  (op.required_active.foldl (fun set id => flat_set_insert id set) acc.1,
   op.required_owner.foldl (fun set id => flat_set_insert id set) acc.2.1,
   acc.2.2 ++ op.other)

/-- The loop `for( const auto& op : ops ) operation_get_required_authorities(...)`. -/
def get_required_authorities (ops : List operation) :
    List account_id_type × List account_id_type × List authority :=
  ops.foldl (fun acc op => operation_get_required_authorities op acc) ([], [], [])

/-- The loop over `other` in `verify_authority`. -/
def verify_other (get_active : account_id_type → Option authority) :
    List authority → sign_state → Except error sign_state
  | [], s => .ok s
  | auth :: rest, s =>
    match s.check_authority get_active (some auth) 0 with
    | (true, s1) => verify_other get_active rest s1
    | (false, _) => .error .tx_missing_other_auth

/-- The loop over `required_active` in `verify_authority`. -/
def verify_active (get_active get_owner : account_id_type → Option authority) :
    List account_id_type → sign_state → Except error sign_state
  | [], s => .ok s
  | id :: rest, s =>
    match s.check_authority_id get_active id with
    | (true, s1) => verify_active get_active get_owner rest s1
    | (false, s1) =>
      match s1.check_authority get_active (get_owner id) 0 with
      | (true, s2) => verify_active get_active get_owner rest s2
      | (false, _) => .error (.tx_missing_active_auth id)

/-- The loop over `required_owner` in `verify_authority`. -/
def verify_owner (get_active get_owner : account_id_type → Option authority)
    (owner_approvals : List account_id_type) :
    List account_id_type → sign_state → Except error sign_state
  | [], s => .ok s
  | id :: rest, s =>
    if id ∈ owner_approvals then verify_owner get_active get_owner owner_approvals rest s
    else
      match s.check_authority get_active (get_owner id) 0 with
      | (true, s1) => verify_owner get_active get_owner owner_approvals rest s1
      | (false, _) => .error .tx_missing_other_auth

/-- The sign-state of `verify_authority` after its constructor, the assignment of
`max_recursion` and the two loops that insert the caller's approvals. -/
def verify_state (cfg : chain_config) (sigs : List public_key_type) (max_recursion_depth : Nat)
    (active_aprovals owner_approvals : List account_id_type) : sign_state :=
  let s := { sign_state.init cfg sigs [] with max_recursion := max_recursion_depth }
  let s := { s with approved_by := active_aprovals.foldl (fun set id => flat_set_insert id set) s.approved_by }
  { s with approved_by := owner_approvals.foldl (fun set id => flat_set_insert id set) s.approved_by }

/-- The body of `verify_authority` up to, and without, the final
`FC_ASSERT( !s.remove_unused_signatures() )`: the sign-state in which that assertion is
evaluated, or the exception thrown before it. -/
def verify_authority_checks (cfg : chain_config) (ops : List operation)
    (sigs : List public_key_type) (get_active get_owner : account_id_type → Option authority)
    (max_recursion_depth : Nat) (allow_committe : Bool)
    (active_aprovals owner_approvals : List account_id_type) : Except error sign_state :=
  let required := get_required_authorities ops
  if !allow_committe ∧ cfg.GRAPHENE_COMMITTEE_ACCOUNT ∈ required.1 then
    .error .invalid_committee_approval
  else
    match verify_other get_active required.2.2
        (verify_state cfg sigs max_recursion_depth active_aprovals owner_approvals) with
    | .error e => .error e
    | .ok s1 =>
      match verify_active get_active get_owner required.1 s1 with
      | .error e => .error e
      | .ok s2 => verify_owner get_active get_owner owner_approvals required.2.1 s2

/-- The free function `verify_authority`. -/
def verify_authority (cfg : chain_config) (ops : List operation)
    (sigs : List public_key_type) (get_active get_owner : account_id_type → Option authority)
    (max_recursion_depth : Nat) (allow_committe : Bool)
    (active_aprovals owner_approvals : List account_id_type) : Except error Unit :=
  match verify_authority_checks cfg ops sigs get_active get_owner max_recursion_depth
      allow_committe active_aprovals owner_approvals with
  | .error e => .error e
  | .ok s =>
    if s.remove_unused_signatures.1 then .error .unnecessary_signatures else .ok ()

/-! ## Signed transactions -/

/-- The header fields and operations of `transaction`. -/
structure transaction where
  ref_block_num : Nat
  ref_block_prefix : Nat
  expiration : Nat
  operations : List operation
  extensions : List Nat
deriving DecidableEq, Repr

/-- A `signed_transaction`: a transaction and its signatures in order. -/
structure signed_transaction extends transaction where
  signatures : List signature_type
deriving DecidableEq, Repr

/-! ### Header fields, digest and identifier -/

/-- Modelled from the spec: a block identifier (declared outside this file), read through
its 32-bit words `_hash[0]`, `_hash[1]`, ... -/
structure block_id_type where
  _hash : Nat → Nat

/-- The transaction identifier, a 160-bit value. Like the digest it is the number whose
base-256 digits are its bytes in memory order: byte `i` of `x` is `x / 256 ^ i % 256`. -/
abbrev transaction_id_type := Nat

/-- Modelled from the spec: `sizeof(transaction_id_type)`, 160 bits. -/
def sizeof_transaction_id_type : Nat := 20

/-- Modelled from the spec: `sizeof(digest_type)`, 256 bits. -/
def sizeof_digest_type : Nat := 32

/-- The byte `i`, in memory order, of a fixed-size value. -/
def byte_at (x i : Nat) : Nat :=
  x / 256 ^ i % 256

/-- The embedding of `memcpy(dst, src, n)` on fixed-size values: the first `n` bytes come from
`src`, the others stay those of `dst`. -/
def memcpy (dst src n : Nat) : Nat :=
  src % 256 ^ n + dst / 256 ^ n * 256 ^ n

/-- The library function `fc::endian_reverse_u32`: the four bytes of a 32-bit word in reverse
order. -/
def endian_reverse_u32 (x : Nat) : Nat :=
  x / 2 ^ 24 % 256 + x / 2 ^ 16 % 256 * 2 ^ 8 + x / 2 ^ 8 % 256 * 2 ^ 16 + x % 256 * 2 ^ 24

/-- The member `transaction::digest`: the hash of the canonical encoding. The encoder
`fc::raw::pack` and the hash of `digest_type::encoder` are the parameters `pack` and `hash`. -/
def transaction.digest (pack : transaction → List Nat) (hash : List Nat → digest_type)
    (t : transaction) : digest_type :=
  hash (pack t)

/-- The member `transaction::id`: the same hash, of which
`min(sizeof(result), sizeof(hash))` bytes are copied into a zero-initialised identifier. -/
def transaction.id (pack : transaction → List Nat) (hash : List Nat → digest_type)
    (t : transaction) : transaction_id_type :=
  memcpy 0 (hash (pack t)) (min sizeof_transaction_id_type sizeof_digest_type)

/-- The member `transaction::set_expiration`. -/
def transaction.set_expiration (t : transaction) (expiration_time : Nat) : transaction :=
  { t with expiration := expiration_time }

/-- The member `transaction::set_reference_block`. The three statements are kept in order:
the assignment to the 16-bit `ref_block_num` truncates, the conditional assignment of 0 to
`ref_block_prefix` is followed by the unconditional assignment of `_hash[1]`. -/
def transaction.set_reference_block (t : transaction) (reference_block : block_id_type) :
    transaction :=
  let t1 := { t with ref_block_num := endian_reverse_u32 (reference_block._hash 0) % 2 ^ 16 }
  let t2 := if t1.ref_block_num = 0 then { t1 with ref_block_prefix := 0 } else t1
  { t2 with ref_block_prefix := reference_block._hash 1 }

/-! ### Signatures -/

/-- The loop of `get_signature_keys` over the signatures left to recover. -/
def get_signature_keys_loop (recover : signature_type → digest_type → public_key_type)
    (d : digest_type) : List signature_type → List public_key_type →
    Except error (List public_key_type)
  | [], result => .ok result
  | sig :: rest, result =>
    if recover sig d ∈ result then .error .duplicate_signature
    else get_signature_keys_loop recover d rest (flat_set_insert (recover sig d) result)

/-- The member `signed_transaction::get_signature_keys`. Key recovery `public_key(sig, d)` and
the digest are the parameters `recover` and `digest`. -/
def signed_transaction.get_signature_keys (trx : signed_transaction)
    (recover : signature_type → digest_type → public_key_type)
    (digest : transaction → digest_type) : Except error (List public_key_type) :=
  get_signature_keys_loop recover (digest trx.totransaction) trx.signatures []

/-- The three probing loops of `get_required_signatures`, whose results are discarded. -/
def required_signatures_state (get_active get_owner : account_id_type → Option authority)
    (required : List account_id_type × List account_id_type × List authority)
    (s : sign_state) : sign_state :=
  let s1 := required.2.2.foldl (fun st auth => (st.check_authority get_active (some auth) 0).2) s
  let s2 := required.2.1.foldl (fun st owner => (st.check_authority get_active (get_owner owner) 0).2) s1
  required.1.foldl (fun st active => (st.check_authority_id get_active active).2) s2

/-- The member `signed_transaction::get_required_signatures`. -/
def signed_transaction.get_required_signatures (trx : signed_transaction) (cfg : chain_config)
    (recover : signature_type → digest_type → public_key_type)
    (digest : transaction → digest_type)
    (available_keys : List public_key_type)
    (get_active get_owner : account_id_type → Option authority)
    (max_recursion_depth : Nat) : Except error (List public_key_type) :=
  match trx.get_signature_keys recover digest with
  | .error e => .error e
  | .ok sigs =>
    let s := { sign_state.init cfg sigs available_keys with max_recursion := max_recursion_depth }
    let s := required_signatures_state get_active get_owner
      (get_required_authorities trx.operations) s
    let s := s.remove_unused_signatures.2
    .ok ((s.provided_signatures.filter (fun provided_sig => provided_sig.1 ∈ available_keys)).foldl
      (fun result provided_sig => flat_set_insert provided_sig.1 result) [])

/-- The loop of `minimize_required_signatures` over the keys of `s` left to try; `result` is
the current candidate set. A probe's exception other than the three caught kinds leaves the
function. The probe uses the declared defaults of `verify_authority` for the arguments it
omits: no approvals, and the committee flag `allow_committe`, a parameter here because the
declaration is outside this file. -/
def minimize_loop (cfg : chain_config) (ops : List operation)
    (get_active get_owner : account_id_type → Option authority) (max_recursion : Nat)
    (allow_committe : Bool) :
    List public_key_type → List public_key_type → Except error (List public_key_type)
  | [], result => .ok result
  | k :: rest, result =>
    match verify_authority cfg ops (flat_set_erase k result) get_active get_owner max_recursion
        allow_committe [] [] with
    | .ok _ =>
      minimize_loop cfg ops get_active get_owner max_recursion allow_committe rest
        (flat_set_erase k result)
    | .error e =>
      if e.is_missing_auth then
        minimize_loop cfg ops get_active get_owner max_recursion allow_committe rest
          (flat_set_insert k (flat_set_erase k result))
      else .error e

/-- The member `signed_transaction::minimize_required_signatures`. -/
def signed_transaction.minimize_required_signatures (trx : signed_transaction)
    (cfg : chain_config) (recover : signature_type → digest_type → public_key_type)
    (digest : transaction → digest_type) (allow_committe : Bool)
    (available_keys : List public_key_type)
    (get_active get_owner : account_id_type → Option authority)
    (max_recursion : Nat) : Except error (List public_key_type) :=
  match trx.get_required_signatures cfg recover digest available_keys get_active get_owner
      max_recursion with
  | .error e => .error e
  | .ok s =>
    minimize_loop cfg trx.operations get_active get_owner max_recursion allow_committe s s

/-! ## Definitions used in the statements: acceptable keys, weighted satisfaction, the
recursion cap, invariants, and the concrete inputs of the examples -/

/-- A key that `signed_by` accepts: it has an entry in `provided_signatures` or is one of the
`available_keys`. -/
def sign_state.signable (s : sign_state) (k : public_key_type) : Prop :=
  (flat_map_find k s.provided_signatures).isSome = true ∨ k ∈ s.available_keys

instance (s : sign_state) (k : public_key_type) : Decidable (s.signable k) := by
  unfold sign_state.signable
  infer_instance

/-- The chain configuration used in the concrete examples: committee account 0, temporary
account 4, default depth 2. -/
def example_config : chain_config :=
  { GRAPHENE_COMMITTEE_ACCOUNT := 0, GRAPHENE_TEMP_ACCOUNT := 4, GRAPHENE_MAX_SIG_CHECK_DEPTH := 2 }

/-- An authority with threshold 0 and the single account entry `7 : 1`. -/
def zero_threshold_authority : authority :=
  { weight_threshold := 0, key_auths := [], account_auths := [(7, 1)] }

/-- Active authorities of the chain `10 → 11 → 12`, the last one holding key 1. -/
def chain_active : account_id_type → Option authority
  | 10 => some { weight_threshold := 1, key_auths := [], account_auths := [(11, 1)] }
  | 11 => some { weight_threshold := 1, key_auths := [], account_auths := [(12, 1)] }
  | 12 => some { weight_threshold := 1, key_auths := [(1, 1)], account_auths := [] }
  | _ => none

/-- Active authorities in which the committee account 0 holds key 1 directly. -/
def committee_active : account_id_type → Option authority
  | 0 => some { weight_threshold := 1, key_auths := [(1, 1)], account_auths := [] }
  | _ => none

/-- The sum of the weights of the entries of `l` whose key is in `sigs`. -/
def signed_weight (sigs : List public_key_type) (l : List (public_key_type × Nat)) : Nat :=
  ((l.filter (fun kw => kw.1 ∈ sigs)).map Prod.snd).sum

/-- Account 10 with active authority `{1, {key 1 : 1}}`. -/
def owner_example_active : account_id_type → Option authority
  | 10 => some { weight_threshold := 1, key_auths := [(1, 1)], account_auths := [] }
  | _ => none

/-- Account 10 with owner authority `{2, {key 1 : 1, key 2 : 1}}`. -/
def owner_example_owner : account_id_type → Option authority
  | 10 => some { weight_threshold := 2, key_auths := [(1, 1), (2, 1)], account_auths := [] }
  | _ => none

/-- Account 10 with the zero-threshold owner authority `{0, {}, {account 7 : 1}}`. -/
def owner_example_zero : account_id_type → Option authority
  | 10 => some zero_threshold_authority
  | _ => none

/-- An unsigned transaction with one operation that requires the active authority of
account 10. -/
def example_trx : signed_transaction :=
  { ref_block_num := 0, ref_block_prefix := 0, expiration := 0,
    operations := [{ required_active := [10], required_owner := [], other := [] }],
    extensions := [], signatures := [] }

/-- The sum of the weights of the entries of `l` whose account satisfies `p`. -/
def account_weight (p : account_id_type → Bool) (l : List (account_id_type × Nat)) : Nat :=
  ((l.filter (fun aw => p aw.1)).map Prod.snd).sum

/-- Satisfaction of an authority, after the data model of the specification ("an authority is
satisfied iff the sum of weights of contributors (keys whose signature is present or
recoverable; accounts whose active authority is itself satisfied, transitively) reaches
`weight_threshold`"): the authority `au` is satisfied by the keys `keys`, counting the accounts
of `approved` and, through at most `n` levels of account entries, the accounts whose active
authority is satisfied. -/
def satisfied (get_active : account_id_type → Option authority) (keys : List public_key_type)
    (approved : List account_id_type) : Nat → authority → Bool
  | 0, au =>
    decide (au.weight_threshold ≤ signed_weight keys au.key_auths +
      account_weight (fun a => decide (a ∈ approved)) au.account_auths)
  | n + 1, au =>
    decide (au.weight_threshold ≤ signed_weight keys au.key_auths +
      account_weight (fun a => decide (a ∈ approved) ||
        (match get_active a with
          | some au1 => satisfied get_active keys approved n au1
          | none => false)) au.account_auths)

/-- The account `a` counts as approved: it is in `approved`, or its active authority is
satisfied through at most `n` levels. -/
def account_approved (get_active : account_id_type → Option authority)
    (keys : List public_key_type) (approved : List account_id_type) (n : Nat)
    (a : account_id_type) : Bool :=
  decide (a ∈ approved) ||
    (match get_active a with
      | some au1 => satisfied get_active keys approved n au1
      | none => false)

/-- The optional authority `au` is present and satisfied. -/
def satisfied_opt (get_active : account_id_type → Option authority)
    (keys : List public_key_type) (approved : List account_id_type) (n : Nat) :
    Option authority → Bool
  | some au => satisfied get_active keys approved n au
  | none => false

/-- The authority nests account entries at most `n` levels deep (so that a check entered with
`n` levels left never meets an account entry at `depth == max_recursion`), and on every level
the weights of an authority total less than `2^32` (so that `total_weight` never wraps). -/
def within_cap (get_active : account_id_type → Option authority) : Nat → authority → Bool
  | 0, au =>
    decide ((au.key_auths.map Prod.snd).sum + (au.account_auths.map Prod.snd).sum < 2 ^ 32) &&
      au.account_auths.isEmpty
  | n + 1, au =>
    decide ((au.key_auths.map Prod.snd).sum + (au.account_auths.map Prod.snd).sum < 2 ^ 32) &&
      au.account_auths.all (fun aw =>
        match get_active aw.1 with
        | some au1 => within_cap get_active n au1
        | none => true)

/-- The optional authority, when present, is within the cap. -/
def within_cap_opt (get_active : account_id_type → Option authority) (n : Nat) :
    Option authority → Bool
  | some au => within_cap get_active n au
  | none => true

/-- The invariant of a sign-state during a run over authorities within the cap: the cap is
`M`, the accepted keys are those of `keys`, and `approved_by` holds the initially approved
accounts `approved` and otherwise only accounts whose active authority is satisfied. -/
def engine_inv (get_active : account_id_type → Option authority) (keys : List public_key_type)
    (approved : List account_id_type) (M : Nat) (s : sign_state) : Prop :=
  s.max_recursion = M ∧ (∀ k, s.signable k ↔ k ∈ keys) ∧ (∀ a ∈ approved, a ∈ s.approved_by) ∧
  ∀ a ∈ s.approved_by, a ∈ approved ∨ ∃ au1 m, get_active a = some au1 ∧
    within_cap get_active m au1 = true ∧ satisfied get_active keys approved m au1 = true

/-- Every authority that `verify_authority` checks at depth 0 for the operations `ops` (the
ad-hoc authorities, the active and owner authorities of the required-active accounts, the owner
authorities of the required-owner accounts) is within the cap of `M` levels. -/
def requirements_within_cap (get_active get_owner : account_id_type → Option authority)
    (M : Nat) (ops : List operation) : Bool :=
  ops.all (fun op =>
    op.other.all (fun au => within_cap get_active M au) &&
    op.required_active.all (fun id =>
      within_cap_opt get_active M (get_active id) &&
        within_cap_opt get_active M (get_owner id)) &&
    op.required_owner.all (fun id => within_cap_opt get_active M (get_owner id)))

/-- The keys `keys` satisfy the requirements of the operations `ops`: every ad-hoc authority;
for every required-active account its approval or active authority or, when `fallback` is set,
its owner authority; for every required-owner account its owner approval or owner
authority. -/
def requirements_satisfied (get_active get_owner : account_id_type → Option authority)
    (keys : List public_key_type) (approved owner_approvals : List account_id_type)
    (fallback : Bool) (M : Nat) (ops : List operation) : Bool :=
  ops.all (fun op =>
    op.other.all (fun au => satisfied get_active keys approved M au) &&
    op.required_active.all (fun id =>
      account_approved get_active keys approved M id ||
        (fallback && satisfied_opt get_active keys approved M (get_owner id))) &&
    op.required_owner.all (fun id =>
      decide (id ∈ owner_approvals) || satisfied_opt get_active keys approved M (get_owner id)))

/-- The accounts approved at the start of `verify_authority`: the temporary account and the
caller's approvals. -/
def verify_approved (cfg : chain_config) (active_aprovals owner_approvals : List account_id_type) :
    List account_id_type :=
  (verify_state cfg [] 0 active_aprovals owner_approvals).approved_by

/-- Active authorities for the monotonicity counterexample, with `max_recursion = 1`:
account 10 is `{1, {key 2 : 1}, {account 20 : 1}}`, account 20 is `{1, {key 1 : 1}}`,
account 11 is `{1, {account 30 : 1}}` and account 30 is `{1, {account 20 : 1}}`. -/
def cache_example_active : account_id_type → Option authority
  | 10 => some { weight_threshold := 1, key_auths := [(2, 1)], account_auths := [(20, 1)] }
  | 20 => some { weight_threshold := 1, key_auths := [(1, 1)], account_auths := [] }
  | 11 => some { weight_threshold := 1, key_auths := [], account_auths := [(30, 1)] }
  | 30 => some { weight_threshold := 1, key_auths := [], account_auths := [(20, 1)] }
  | _ => none

/-- Active authorities for the minimality counterexample, with `max_recursion = 1`: account 10
is `{1, {key 2 : 1}, {account 20 : 1}}`, account 20 is `{0}` (no key needed), account 11 is
`{1, {account 30 : 1}}` and account 30 is `{1, {key 1 : 1}, {account 20 : 1}}`. -/
def minimal_example_active : account_id_type → Option authority
  | 10 => some { weight_threshold := 1, key_auths := [(2, 1)], account_auths := [(20, 1)] }
  | 20 => some { weight_threshold := 0, key_auths := [], account_auths := [] }
  | 11 => some { weight_threshold := 1, key_auths := [], account_auths := [(30, 1)] }
  | 30 => some { weight_threshold := 1, key_auths := [(1, 1)], account_auths := [(20, 1)] }
  | _ => none

/-- An unsigned transaction with one operation that requires the active authorities of
accounts 10 and 11. -/
def example_trx_two : signed_transaction :=
  { ref_block_num := 0, ref_block_prefix := 0, expiration := 0,
    operations := [{ required_active := [10, 11], required_owner := [], other := [] }],
    extensions := [], signatures := [] }

/-- The keys whose used flag is set. -/
def used_keys (s : sign_state) : List public_key_type :=
  (s.provided_signatures.filter (fun e => e.2)).map Prod.fst

/-- Every account of `approved_by` outside the initially approved ones has an active authority
that the keys marked used satisfy. -/
def used_inv (get_active : account_id_type → Option authority)
    (approved : List account_id_type) (s : sign_state) : Prop :=
  ∀ a ∈ s.approved_by, a ∈ approved ∨ ∃ au1 m, get_active a = some au1 ∧
    within_cap get_active m au1 = true ∧
    satisfied get_active (used_keys s) approved m au1 = true

/-- The invariants of the probing run of `get_required_signatures`. -/
def probe_inv (get_active : account_id_type → Option authority)
    (available : List public_key_type) (approved : List account_id_type) (M : Nat)
    (s : sign_state) : Prop :=
  engine_inv get_active available approved M s ∧ used_inv get_active approved s

/-- Every entry of `provided_signatures` carries a set used flag. -/
def all_used (s : sign_state) : Prop :=
  ∀ e ∈ s.provided_signatures, e.2 = true

/-- Account 10 with owner authority `{1, {key 1 : 1}}`. -/
def owner_only_example : account_id_type → Option authority
  | 10 => some { weight_threshold := 1, key_auths := [(1, 1)], account_auths := [] }
  | _ => none

/-- A block identifier whose first word is 0 and whose other words are 1. -/
def zero_number_block : block_id_type :=
  { _hash := fun i => if i = 0 then 0 else 1 }

/-- The authority `{2, {key 1 : 1, key 2 : 1, key 3 : 2}}` of the weight-threshold scenario. -/
def threshold_example : authority :=
  { weight_threshold := 2, key_auths := [(1, 1), (2, 1), (3, 2)], account_auths := [] }

/-- Account 10 is required by owner authority only. -/
def owner_required_ops : List operation :=
  [{ required_active := [], required_owner := [10], other := [] }]

/-- Active authorities for the propagation example, with `max_recursion = 1`: account 9 is
`{1, {key 1 : 1}}`, account 10 is `{1, {key 2 : 1}, {account 20 : 1}}`, account 20 is
`{1, {key 1 : 1}}`, account 11 is `{1, {account 30 : 1, account 40 : 1}}`, account 30 is
`{1, {account 20 : 1}}` and account 40 is `{1, {key 3 : 1}}`. -/
def propagation_example_active : account_id_type → Option authority
  | 9 => some { weight_threshold := 1, key_auths := [(1, 1)], account_auths := [] }
  | 10 => some { weight_threshold := 1, key_auths := [(2, 1)], account_auths := [(20, 1)] }
  | 20 => some { weight_threshold := 1, key_auths := [(1, 1)], account_auths := [] }
  | 11 => some { weight_threshold := 1, key_auths := [], account_auths := [(30, 1), (40, 1)] }
  | 30 => some { weight_threshold := 1, key_auths := [], account_auths := [(20, 1)] }
  | 40 => some { weight_threshold := 1, key_auths := [(3, 1)], account_auths := [] }
  | _ => none

/-- An unsigned transaction with one operation that requires the active authorities of
accounts 9, 10 and 11. -/
def example_trx_three : signed_transaction :=
  { ref_block_num := 0, ref_block_prefix := 0, expiration := 0,
    operations := [{ required_active := [9, 10, 11], required_owner := [], other := [] }],
    extensions := [], signatures := [] }

/-- The authority `{1, {}, {account 7 : 1, account 4 : 1}}`: an entry for an account that is
not approved, followed by an entry for the temporary account 4. -/
def unapproved_first_authority : authority :=
  { weight_threshold := 1, key_auths := [], account_auths := [(7, 1), (4, 1)] }

/-- The authority `{1, {}, {account 4 : 1, account 7 : 1}}`: the entry for the temporary
account 4 comes first. -/
def approved_first_authority : authority :=
  { weight_threshold := 1, key_auths := [], account_auths := [(4, 1), (7, 1)] }

/-- The sign-states reachable from `s` by any sequence of calls of `signed_by`,
`check_authority` (of either kind) and `remove_unused_signatures`. -/
inductive sign_state.reaches (get_active : account_id_type → Option authority) :
    sign_state → sign_state → Prop where
  | start (s : sign_state) : sign_state.reaches get_active s s
  | signed_by {s s1 : sign_state} (k : public_key_type) :
    sign_state.reaches get_active s s1 → sign_state.reaches get_active s (s1.signed_by k).2
  | check_authority {s s1 : sign_state} (au : Option authority) (depth : Nat) :
    sign_state.reaches get_active s s1 →
    sign_state.reaches get_active s (s1.check_authority get_active au depth).2
  | check_authority_id {s s1 : sign_state} (id : account_id_type) :
    sign_state.reaches get_active s s1 →
    sign_state.reaches get_active s (s1.check_authority_id get_active id).2
  | remove_unused_signatures {s s1 : sign_state} :
    sign_state.reaches get_active s s1 →
    sign_state.reaches get_active s s1.remove_unused_signatures.2

/-- The account loop of `check_authority`, as `check_accounts`, for a recursive call that may
run out of levels (`none`) and that reports the depths at which `check_authority` was entered;
`log` collects these depths. -/
def check_accounts_steps
    (recurse : Option authority → sign_state → Option (Bool × sign_state × List Nat))
    (get_active : account_id_type → Option authority) (threshold depth : Nat) :
    List (account_id_type × Nat) → Nat → sign_state → List Nat →
    Option (Bool × sign_state × List Nat)
  | [], total_weight, s, log => some (decide (total_weight ≥ threshold), s, log)
  | (a, w) :: rest, total_weight, s, log =>
    if a ∉ s.approved_by then
      if depth = s.max_recursion then some (false, s, log)
      else
        match recurse (get_active a) s with
        | none => none
        | some (true, s1, log1) =>
          let s2 := { s1 with approved_by := flat_set_insert a s1.approved_by }
          if add_weight total_weight w ≥ threshold then some (true, s2, log ++ log1)
          else check_accounts_steps recurse get_active threshold depth rest
            (add_weight total_weight w) s2 (log ++ log1)
        | some (false, s1, log1) =>
          check_accounts_steps recurse get_active threshold depth rest total_weight s1
            (log ++ log1)
    else
      if add_weight total_weight w ≥ threshold then some (true, s, log)
      else check_accounts_steps recurse get_active threshold depth rest
        (add_weight total_weight w) s log

/-- The member `check_authority(au, depth)` run with `fuel` levels, instrumented: the result
is `none` when the levels run out, and otherwise the answer, the new state and the list of the
depths at which `check_authority` was entered. -/
def check_authority_steps (get_active : account_id_type → Option authority) :
    Nat → Option authority → Nat → sign_state → Option (Bool × sign_state × List Nat)
  | 0, _, _, _ => none
  | _ + 1, none, depth, s => some (false, s, [depth])
  | fuel + 1, some auth, depth, s =>
    match check_keys auth.weight_threshold auth.key_auths 0 s with
    | (some b, _, s1) => some (b, s1, [depth])
    | (none, total_weight, s1) =>
      check_accounts_steps
        (fun au1 s2 => check_authority_steps get_active fuel au1 (depth + 1) s2)
        get_active auth.weight_threshold depth auth.account_auths total_weight s1 [depth]

/-- An account whose active authority `{1, {}, {account 10 : 1}}` names the account itself. -/
def cyclic_active : account_id_type → Option authority
  | 10 => some { weight_threshold := 1, key_auths := [], account_auths := [(10, 1)] }
  | _ => none

/-! # Theorems -/

theorem mem_flat_set_insert (x y : Nat) (l : List Nat) :
    y ∈ flat_set_insert x l ↔ y = x ∨ y ∈ l := by
  induction l with
  | nil => simp [flat_set_insert]
  | cons z zs ih =>
    unfold flat_set_insert
    split
    · simp
    · split
      · subst_vars; simp
      · simp [ih]; tauto

theorem mem_foldl_flat_set_insert (xs : List Nat) (l : List Nat) (y : Nat) :
    y ∈ xs.foldl (fun set id => flat_set_insert id set) l ↔ y ∈ xs ∨ y ∈ l := by
  induction xs generalizing l with
  | nil => simp
  | cons x xs ih => simp [ih, mem_flat_set_insert]; tauto

theorem flat_map_find_set (k k1 : public_key_type) (v : Bool) (m : List (public_key_type × Bool)) :
    flat_map_find k (flat_map_set k1 v m) = if k = k1 then some v else flat_map_find k m := by
  induction m with
  | nil => simp [flat_map_set, flat_map_find]
  | cons e rest ih =>
    obtain ⟨k2, v2⟩ := e
    unfold flat_map_set
    split
    · simp [flat_map_find]
    · split
      · subst_vars
        simp only [flat_map_find]
        split <;> simp_all
      · simp only [flat_map_find, ih]
        split <;> split <;> simp_all

theorem check_keys_preserves (P : sign_state → Prop) (Q : public_key_type → Prop)
    (hk : ∀ s k, Q k → P s → P (s.signed_by k).2) (threshold : Nat) :
    ∀ (l : List (public_key_type × Nat)) (tw : Nat) (s : sign_state),
      (∀ kw ∈ l, Q kw.1) → P s → P (check_keys threshold l tw s).2.2 := by
  intro l
  induction l with
  | nil => intro tw s _ h; simpa [check_keys] using h
  | cons e rest ih =>
    intro tw s hQ h
    obtain ⟨k, w⟩ := e
    have h1 := hk s k (hQ (k, w) (by simp)) h
    have hQ1 : ∀ kw ∈ rest, Q kw.1 := fun kw hkw => hQ kw (by simp [hkw])
    cases hs : s.signed_by k with
    | mk b s1 =>
      rw [hs] at h1
      cases b
      · simpa [check_keys, hs] using ih tw s1 hQ1 h1
      · simp only [check_keys, hs]
        split
        · exact h1
        · exact ih _ s1 hQ1 h1

theorem check_accounts_preserves (P : sign_state → Prop)
    (ha : ∀ s a, P s → P { s with approved_by := flat_set_insert a s.approved_by })
    (recurse : Option authority → sign_state → Bool × sign_state)
    (get_active : account_id_type → Option authority)
    (hr : ∀ a s, P s → P (recurse (get_active a) s).2) (threshold depth : Nat) :
    ∀ (l : List (account_id_type × Nat)) (tw : Nat) (s : sign_state),
      P s → P (check_accounts recurse get_active threshold depth l tw s).2 := by
  intro l
  induction l with
  | nil => intro tw s h; simpa [check_accounts] using h
  | cons e rest ih =>
    intro tw s h
    obtain ⟨a, w⟩ := e
    unfold check_accounts
    split
    · split
      · exact h
      · have h1 := hr a s h
        cases hs : recurse (get_active a) s with
        | mk b s1 =>
          rw [hs] at h1
          cases b
          · exact ih _ _ h1
          · simp only
            split
            · exact ha _ _ h1
            · exact ih _ _ (ha _ _ h1)
    · split
      · exact h
      · exact ih _ _ h

theorem check_authority_fuel_preserves (P : sign_state → Prop) (Q : public_key_type → Prop)
    (hk : ∀ s k, Q k → P s → P (s.signed_by k).2)
    (ha : ∀ s a, P s → P { s with approved_by := flat_set_insert a s.approved_by })
    (get_active : account_id_type → Option authority)
    (hQ : ∀ a au, get_active a = some au → ∀ kw ∈ au.key_auths, Q kw.1) :
    ∀ (fuel : Nat) (au : Option authority) (depth : Nat) (s : sign_state),
      (∀ auth, au = some auth → ∀ kw ∈ auth.key_auths, Q kw.1) →
      P s → P (check_authority_fuel get_active fuel au depth s).2 := by
  intro fuel
  induction fuel with
  | zero => intro au depth s _ h; simpa [check_authority_fuel] using h
  | succ fuel ih =>
    intro au depth s hau h
    cases au with
    | none => simpa [check_authority_fuel] using h
    | some auth =>
      have h1 := check_keys_preserves P Q hk auth.weight_threshold auth.key_auths 0 s
        (hau auth rfl) h
      unfold check_authority_fuel
      cases hs : check_keys auth.weight_threshold auth.key_auths 0 s with
      | mk r rest =>
        obtain ⟨tw, s1⟩ := rest
        rw [hs] at h1
        cases r with
        | some b => exact h1
        | none =>
          simp only
          apply check_accounts_preserves P ha
          · intro a s2 h2
            exact ih (get_active a) (depth + 1) s2 (fun auth1 h3 => hQ a auth1 h3) h2
          · exact h1

/-! ## The accumulated requirements -/

theorem foldl_required_authorities (ops : List operation)
    (acc : List account_id_type × List account_id_type × List authority) :
    (∀ id, id ∈ (ops.foldl (fun acc op => operation_get_required_authorities op acc) acc).1 ↔
      (∃ op ∈ ops, id ∈ op.required_active) ∨ id ∈ acc.1) ∧
    (∀ id, id ∈ (ops.foldl (fun acc op => operation_get_required_authorities op acc) acc).2.1 ↔
      (∃ op ∈ ops, id ∈ op.required_owner) ∨ id ∈ acc.2.1) ∧
    (∀ au, au ∈ (ops.foldl (fun acc op => operation_get_required_authorities op acc) acc).2.2 ↔
      (∃ op ∈ ops, au ∈ op.other) ∨ au ∈ acc.2.2) := by
  induction ops generalizing acc with
  | nil => simp
  | cons op ops ih =>
    obtain ⟨h1, h2, h3⟩ := ih (operation_get_required_authorities op acc)
    simp only [List.foldl_cons]
    refine ⟨fun id => ?_, fun id => ?_, fun au => ?_⟩
    · rw [h1]
      simp only [operation_get_required_authorities, mem_foldl_flat_set_insert, List.mem_cons,
        exists_eq_or_imp]
      generalize (∃ a ∈ ops, id ∈ a.required_active) = E
      tauto
    · rw [h2]
      simp only [operation_get_required_authorities, mem_foldl_flat_set_insert, List.mem_cons,
        exists_eq_or_imp]
      generalize (∃ a ∈ ops, id ∈ a.required_owner) = E
      tauto
    · rw [h3]
      simp only [operation_get_required_authorities, List.mem_append, List.mem_cons,
        exists_eq_or_imp]
      generalize (∃ a ∈ ops, au ∈ a.other) = E
      tauto

theorem mem_required_active (ops : List operation) (id : account_id_type) :
    id ∈ (get_required_authorities ops).1 ↔ ∃ op ∈ ops, id ∈ op.required_active := by
  simpa [get_required_authorities] using (foldl_required_authorities ops ([], [], [])).1 id

theorem mem_required_owner (ops : List operation) (id : account_id_type) :
    id ∈ (get_required_authorities ops).2.1 ↔ ∃ op ∈ ops, id ∈ op.required_owner := by
  simpa [get_required_authorities] using (foldl_required_authorities ops ([], [], [])).2.1 id

theorem mem_required_other (ops : List operation) (au : authority) :
    au ∈ (get_required_authorities ops).2.2 ↔ ∃ op ∈ ops, au ∈ op.other := by
  simpa [get_required_authorities] using (foldl_required_authorities ops ([], [], [])).2.2 au

/-! ## Which exceptions the loops of `verify_authority` raise -/

theorem verify_other_error (get_active : account_id_type → Option authority)
    (l : List authority) (s : sign_state) (e : error)
    (h : verify_other get_active l s = .error e) : e = .tx_missing_other_auth := by
  induction l generalizing s with
  | nil => simp [verify_other] at h
  | cons auth rest ih =>
    unfold verify_other at h
    split at h
    · exact ih _ h
    · cases h; rfl

theorem verify_active_error (get_active get_owner : account_id_type → Option authority)
    (l : List account_id_type) (s : sign_state) (e : error)
    (h : verify_active get_active get_owner l s = .error e) :
    ∃ id ∈ l, e = .tx_missing_active_auth id := by
  induction l generalizing s with
  | nil => simp [verify_active] at h
  | cons id rest ih =>
    unfold verify_active at h
    split at h
    · obtain ⟨i, hi, he⟩ := ih _ h
      exact ⟨i, by simp [hi], he⟩
    · split at h
      · obtain ⟨i, hi, he⟩ := ih _ h
        exact ⟨i, by simp [hi], he⟩
      · cases h
        exact ⟨id, by simp, rfl⟩

theorem verify_owner_error (get_active get_owner : account_id_type → Option authority)
    (owner_approvals l : List account_id_type) (s : sign_state) (e : error)
    (h : verify_owner get_active get_owner owner_approvals l s = .error e) :
    e = .tx_missing_other_auth := by
  induction l generalizing s with
  | nil => simp [verify_owner] at h
  | cons id rest ih =>
    unfold verify_owner at h
    split at h
    · exact ih _ h
    · split at h
      · exact ih _ h
      · cases h; rfl

/-- The exceptions of `verify_authority`: the committee gate raises
`invalid_committee_approval` exactly when it is closed and the committee account is required;
past the gate only the missing-authority kinds and `unnecessary_signatures` are raised. -/
theorem verify_authority_checks_error (cfg : chain_config) (ops : List operation)
    (sigs : List public_key_type) (get_active get_owner : account_id_type → Option authority)
    (max_recursion_depth : Nat) (allow_committe : Bool)
    (active_aprovals owner_approvals : List account_id_type) (e : error)
    (h : verify_authority_checks cfg ops sigs get_active get_owner max_recursion_depth
      allow_committe active_aprovals owner_approvals = .error e) :
    (e = .invalid_committee_approval ∧ allow_committe = false ∧
      cfg.GRAPHENE_COMMITTEE_ACCOUNT ∈ (get_required_authorities ops).1) ∨
    (¬(allow_committe = false ∧ cfg.GRAPHENE_COMMITTEE_ACCOUNT ∈ (get_required_authorities ops).1) ∧
      (e = .tx_missing_other_auth ∨
        ∃ id ∈ (get_required_authorities ops).1, e = .tx_missing_active_auth id)) := by
  unfold verify_authority_checks at h
  simp only at h
  split at h
  · rename_i hg
    cases h
    left
    simpa using hg
  · rename_i hg
    right
    refine ⟨by simpa using hg, ?_⟩
    split at h
    · cases h
      left
      exact verify_other_error _ _ _ _ (by assumption)
    · split at h
      · cases h
        right
        exact verify_active_error _ _ _ _ _ (by assumption)
      · left
        exact verify_owner_error _ _ _ _ _ _ h

/-- C7. Committee gate: `verify_authority` fails with `invalid committee approval` exactly when
the committee flag is false and the committee account id is in the required-active set
accumulated from the operations (some operation requires its active authority); this holds
whatever the signer keys, the callbacks, the recursion cap and the pre-approval sets are, and
with the flag true that error is never raised. -/
theorem committee_gate (cfg : chain_config) (ops : List operation)
    (sigs : List public_key_type) (get_active get_owner : account_id_type → Option authority)
    (max_recursion_depth : Nat) (allow_committe : Bool)
    (active_aprovals owner_approvals : List account_id_type) :
    verify_authority cfg ops sigs get_active get_owner max_recursion_depth allow_committe
        active_aprovals owner_approvals = .error .invalid_committee_approval ↔
      (allow_committe = false ∧
        ∃ op ∈ ops, cfg.GRAPHENE_COMMITTEE_ACCOUNT ∈ op.required_active) := by
  rw [← mem_required_active]
  constructor
  · intro h
    unfold verify_authority at h
    split at h
    · rename_i e he
      cases h
      rcases verify_authority_checks_error _ _ _ _ _ _ _ _ _ _ he with ⟨_, h1, h2⟩ | ⟨_, h1 | ⟨_, _, h1⟩⟩
      · exact ⟨h1, h2⟩
      · cases h1
      · cases h1
    · split at h <;> cases h
  · rintro ⟨h1, h2⟩
    simp [verify_authority, verify_authority_checks, h1, h2]

/-! ## Signature-key recovery -/

theorem flat_set_insert_length (x : Nat) (l : List Nat) (h : x ∉ l) :
    (flat_set_insert x l).length = l.length + 1 := by
  induction l with
  | nil => simp [flat_set_insert]
  | cons y ys ih =>
    simp only [List.mem_cons, not_or] at h
    unfold flat_set_insert
    split
    · simp
    · split
      · exact absurd (by assumption) h.1
      · simp [ih h.2]

theorem flat_set_insert_sorted (x : Nat) (l : List Nat) (h : l.Sorted (· < ·)) :
    (flat_set_insert x l).Sorted (· < ·) := by
  induction l with
  | nil => simp [flat_set_insert]
  | cons y ys ih =>
    unfold flat_set_insert
    have hy := List.sorted_cons.mp h
    split
    · rename_i hxy
      refine List.sorted_cons.mpr ⟨?_, h⟩
      intro b hb
      rcases List.mem_cons.mp hb with rfl | hb
      · exact hxy
      · exact lt_trans hxy (hy.1 b hb)
    · split
      · exact h
      · rename_i h1 h2
        refine List.sorted_cons.mpr ⟨?_, ih hy.2⟩
        intro b hb
        rcases (mem_flat_set_insert x b ys).mp hb with rfl | hb
        · omega
        · exact hy.1 b hb

theorem get_signature_keys_loop_spec
    (recover : signature_type → digest_type → public_key_type) (d : digest_type)
    (sigs : List signature_type) (result : List public_key_type)
    (hs : result.Sorted (· < ·)) :
    (get_signature_keys_loop recover d sigs result = .error .duplicate_signature ↔
      ¬((sigs.map (fun sig => recover sig d)).Nodup ∧
        ∀ sig ∈ sigs, recover sig d ∉ result)) ∧
    ((sigs.map (fun sig => recover sig d)).Nodup → (∀ sig ∈ sigs, recover sig d ∉ result) →
      ∃ keys, get_signature_keys_loop recover d sigs result = .ok keys ∧
        (∀ k, k ∈ keys ↔ (∃ sig ∈ sigs, recover sig d = k) ∨ k ∈ result) ∧
        keys.length = sigs.length + result.length ∧ keys.Sorted (· < ·)) := by
  induction sigs generalizing result with
  | nil => simp [get_signature_keys_loop, hs]
  | cons sig rest ih =>
    unfold get_signature_keys_loop
    by_cases hm : recover sig d ∈ result
    · simp [hm]
    · obtain ⟨ih1, ih2⟩ := ih (flat_set_insert (recover sig d) result)
        (flat_set_insert_sorted _ _ hs)
      simp only [hm, if_false]
      constructor
      · rw [ih1]
        simp only [List.map_cons, List.nodup_cons, List.mem_map, List.mem_cons,
          mem_flat_set_insert, not_or, forall_eq_or_imp, hm, not_false_eq_true, true_and]
        constructor
        · intro h hc
          apply h
          refine ⟨hc.1.2, fun s hs1 => ⟨fun he => hc.1.1 ⟨s, hs1, he⟩, hc.2 s hs1⟩⟩
        · intro h hc
          apply h
          refine ⟨⟨?_, hc.1⟩, fun s hs1 => (hc.2 s hs1).2⟩
          rintro ⟨s, hs1, he⟩
          exact (hc.2 s hs1).1 he
      · intro hnd hnot
        simp only [List.map_cons, List.nodup_cons, List.mem_map, not_exists, not_and] at hnd
        obtain ⟨keys, hk, hmem, hlen, hsorted⟩ := ih2 hnd.2 (by
          intro s hs1 hc
          rcases (mem_flat_set_insert _ _ _).mp hc with he | hc
          · exact hnd.1 s hs1 he
          · exact hnot s (by simp [hs1]) hc)
        refine ⟨keys, hk, ?_, ?_, hsorted⟩
        · intro k
          rw [hmem k, mem_flat_set_insert]
          simp only [List.mem_cons, exists_eq_or_imp]
          generalize (∃ a ∈ rest, recover a d = k) = E
          constructor
          · rintro (h | h | h)
            · exact Or.inl (Or.inr h)
            · exact Or.inl (Or.inl h.symm)
            · exact Or.inr h
          · rintro ((h | h) | h)
            · exact Or.inr (Or.inl h.symm)
            · exact Or.inl h
            · exact Or.inr (Or.inr h)
        · rw [hlen, flat_set_insert_length _ _ hm]
          simp
          omega

/-- C8. Duplicate-signature rejection: with recovery a function `recover sig digest`,
`get_signature_keys` fails with `Duplicate Signature detected` if and only if two signatures at
distinct positions `i < j` of the signature sequence recover to the same public key under the
transaction digest; otherwise it returns the (sorted, duplicate-free) set holding exactly the
recovered keys, with as many elements as there are signatures. -/
theorem get_signature_keys_duplicate (trx : signed_transaction)
    (recover : signature_type → digest_type → public_key_type)
    (digest : transaction → digest_type) :
    (trx.get_signature_keys recover digest = .error .duplicate_signature ↔
      ∃ i j, i < j ∧ j < trx.signatures.length ∧
        (trx.signatures[i]?).map (fun sig => recover sig (digest trx.totransaction)) =
          (trx.signatures[j]?).map (fun sig => recover sig (digest trx.totransaction))) ∧
    ((¬∃ i j, i < j ∧ j < trx.signatures.length ∧
        (trx.signatures[i]?).map (fun sig => recover sig (digest trx.totransaction)) =
          (trx.signatures[j]?).map (fun sig => recover sig (digest trx.totransaction))) →
      ∃ keys, trx.get_signature_keys recover digest = .ok keys ∧
        (∀ k, k ∈ keys ↔ ∃ sig ∈ trx.signatures, recover sig (digest trx.totransaction) = k) ∧
        keys.length = trx.signatures.length ∧ keys.Sorted (· < ·)) := by
  have hnd : (trx.signatures.map (fun sig => recover sig (digest trx.totransaction))).Nodup ↔
      ¬∃ i j, i < j ∧ j < trx.signatures.length ∧
        (trx.signatures[i]?).map (fun sig => recover sig (digest trx.totransaction)) =
          (trx.signatures[j]?).map (fun sig => recover sig (digest trx.totransaction)) := by
    rw [List.nodup_iff_getElem?_ne_getElem?]
    simp only [List.getElem?_map, List.length_map, not_exists, not_and]
  obtain ⟨h1, h2⟩ := get_signature_keys_loop_spec recover (digest trx.totransaction)
    trx.signatures [] (by simp)
  unfold signed_transaction.get_signature_keys
  constructor
  · rw [h1]
    simp only [List.not_mem_nil, not_false_eq_true, implies_true, and_true]
    rw [hnd, not_not]
  · intro h
    obtain ⟨keys, hk, hmem, hlen, hsorted⟩ := h2 (hnd.mpr h) (by simp)
    exact ⟨keys, hk, by simpa using hmem, by simpa using hlen, hsorted⟩

/-! ## Facts about `signed_by` and the frame of `check_authority` -/

theorem signed_by_eq (s : sign_state) (k : public_key_type) :
    s.signed_by k =
      if s.signable k then
        (true, { s with provided_signatures := flat_map_set k true s.provided_signatures })
      else (false, s) := by
  unfold sign_state.signed_by sign_state.signable
  split
  · rename_i h
    by_cases hk : k ∈ s.available_keys <;> simp [h, hk]
  · rename_i h
    simp [h]

theorem signed_by_true (s : sign_state) (k : public_key_type) (h : s.signable k) :
    s.signed_by k =
      (true, { s with provided_signatures := flat_map_set k true s.provided_signatures }) := by
  rw [signed_by_eq, if_pos h]

theorem signed_by_false (s : sign_state) (k : public_key_type) (h : ¬s.signable k) :
    s.signed_by k = (false, s) := by
  rw [signed_by_eq, if_neg h]

theorem signable_signed_by (s : sign_state) (k k1 : public_key_type) :
    (s.signed_by k).2.signable k1 ↔ s.signable k1 := by
  rw [signed_by_eq]
  split
  · rename_i h
    unfold sign_state.signable at h ⊢
    simp only [flat_map_find_set]
    split
    · subst_vars
      simp only [Option.isSome_some, true_or, true_iff]
      exact h
    · exact Iff.rfl
  · exact Iff.rfl

/-- The frame of `check_authority`: `max_recursion` and `available_keys` are not written, and
the keys that `signed_by` accepts stay the same. -/
theorem check_authority_fuel_frame (get_active : account_id_type → Option authority)
    (fuel : Nat) (au : Option authority) (depth : Nat) (s : sign_state) :
    (check_authority_fuel get_active fuel au depth s).2.max_recursion = s.max_recursion ∧
    (check_authority_fuel get_active fuel au depth s).2.available_keys = s.available_keys ∧
    ∀ k, (check_authority_fuel get_active fuel au depth s).2.signable k ↔ s.signable k := by
  refine check_authority_fuel_preserves
    (fun s1 => s1.max_recursion = s.max_recursion ∧ s1.available_keys = s.available_keys ∧
      ∀ k, s1.signable k ↔ s.signable k) (fun _ => True) ?_ ?_ get_active ?_ fuel au depth s ?_ ?_
  · rintro s1 k - ⟨h1, h2, h3⟩
    refine ⟨?_, ?_, fun k1 => ?_⟩
    · rw [signed_by_eq]; split <;> simp [h1]
    · rw [signed_by_eq]; split <;> simp [h2]
    · rw [signable_signed_by, h3]
  · rintro s1 a ⟨h1, h2, h3⟩
    exact ⟨h1, h2, h3⟩
  · intros; trivial
  · intros; trivial
  · exact ⟨rfl, rfl, fun _ => Iff.rfl⟩

theorem check_keys_frame (threshold : Nat) (l : List (public_key_type × Nat)) (tw : Nat)
    (s : sign_state) :
    (check_keys threshold l tw s).2.2.max_recursion = s.max_recursion ∧
    (check_keys threshold l tw s).2.2.available_keys = s.available_keys ∧
    (check_keys threshold l tw s).2.2.approved_by = s.approved_by ∧
    ∀ k, (check_keys threshold l tw s).2.2.signable k ↔ s.signable k := by
  refine check_keys_preserves
    (fun s1 => s1.max_recursion = s.max_recursion ∧ s1.available_keys = s.available_keys ∧
      s1.approved_by = s.approved_by ∧
      ∀ k, s1.signable k ↔ s.signable k) (fun _ => True) ?_ threshold l tw s ?_ ?_
  · rintro s1 k - ⟨h1, h2, h3, h4⟩
    refine ⟨?_, ?_, ?_, fun k1 => ?_⟩
    · rw [signed_by_eq]; split <;> simp [h1]
    · rw [signed_by_eq]; split <;> simp [h2]
    · rw [signed_by_eq]; split <;> simp [h3]
    · rw [signable_signed_by, h4]
  · intros; trivial
  · exact ⟨rfl, rfl, rfl, fun _ => Iff.rfl⟩

/-- With no acceptable key in the list the key loop runs to its end and changes nothing. -/
theorem check_keys_none (threshold : Nat) (l : List (public_key_type × Nat)) (tw : Nat)
    (s : sign_state) (h : ∀ kw ∈ l, ¬s.signable kw.1) :
    check_keys threshold l tw s = (none, tw, s) := by
  induction l with
  | nil => simp [check_keys]
  | cons e rest ih =>
    obtain ⟨k, w⟩ := e
    simp only [check_keys, signed_by_false s k (h (k, w) (by simp))]
    exact ih (fun kw hkw => h kw (by simp [hkw]))

/-! ## Zero-threshold authorities -/

theorem check_keys_zero (l : List (public_key_type × Nat)) (tw : Nat) (s : sign_state)
    (h : ∃ kw ∈ l, s.signable kw.1) : (check_keys 0 l tw s).1 = some true := by
  induction l generalizing tw with
  | nil => simp at h
  | cons e rest ih =>
    obtain ⟨k, w⟩ := e
    by_cases hk : s.signable k
    · simp [check_keys, signed_by_true s k hk]
    · simp only [check_keys, signed_by_false s k hk]
      apply ih
      obtain ⟨kw, hkw, hs⟩ := h
      rcases List.mem_cons.mp hkw with rfl | hkw
      · exact absurd hs hk
      · exact ⟨kw, hkw, hs⟩

theorem check_accounts_zero (recurse : Option authority → sign_state → Bool × sign_state)
    (get_active : account_id_type → Option authority) (depth : Nat)
    (hr : ∀ au s, (recurse au s).2.max_recursion = s.max_recursion)
    (l : List (account_id_type × Nat)) (tw : Nat) (s : sign_state)
    (hd : depth ≠ s.max_recursion) :
    (check_accounts recurse get_active 0 depth l tw s).1 = true := by
  induction l generalizing tw s with
  | nil => simp [check_accounts]
  | cons e rest ih =>
    obtain ⟨a, w⟩ := e
    unfold check_accounts
    simp only [ge_iff_le, Nat.zero_le, if_true, hd, if_false]
    split
    · have h1 := hr (get_active a) s
      cases hs : recurse (get_active a) s with
      | mk b s1 =>
        rw [hs] at h1
        cases b
        · exact ih _ _ (by rw [h1]; exact hd)
        · rfl
    · rfl

/-- C10 (as amended). A present authority with `weight_threshold = 0`, checked at a depth not
above `max_recursion`, is reported unsatisfied in exactly one situation: the depth equals
`max_recursion`, no key of `key_auths` is accepted by `signed_by`, and `account_auths` starts
with an account that is not in `approved_by`. In every other situation (in particular at every
depth below `max_recursion`) `check_authority` returns true. -/
theorem zero_threshold_check_authority (get_active : account_id_type → Option authority)
    (auth : authority) (s : sign_state) (depth : Nat)
    (h0 : auth.weight_threshold = 0) (_hd : depth ≤ s.max_recursion) :
    (s.check_authority get_active (some auth) depth).1 = false ↔
      (depth = s.max_recursion ∧ (∀ kw ∈ auth.key_auths, ¬s.signable kw.1) ∧
        ∃ a w rest, auth.account_auths = (a, w) :: rest ∧ a ∉ s.approved_by) := by
  unfold sign_state.check_authority check_authority_fuel
  rw [h0]
  by_cases hk : ∃ kw ∈ auth.key_auths, s.signable kw.1
  · have h1 := check_keys_zero auth.key_auths 0 s hk
    cases hc : check_keys 0 auth.key_auths 0 s with
    | mk r rest =>
      rw [hc] at h1
      simp only at h1
      subst h1
      simp only [Bool.true_eq_false, false_iff, not_and]
      intro _ h2
      obtain ⟨kw, hkw, hs⟩ := hk
      exact absurd hs (h2 kw hkw)
  · simp only [not_exists, not_and] at hk
    rw [check_keys_none 0 auth.key_auths 0 s hk]
    simp only
    by_cases hm : depth = s.max_recursion
    · cases ha : auth.account_auths with
      | nil => simp [check_accounts]
      | cons e rest =>
        obtain ⟨a, w⟩ := e
        unfold check_accounts
        by_cases hap : a ∈ s.approved_by
        · simp [hap]
        · simp only [hap, not_false_eq_true, if_true, hm, true_and]
          simp only [true_iff]
          exact ⟨hk, a, w, rest, rfl, hap⟩
    · rw [check_accounts_zero _ _ _ (fun au s1 => (check_authority_fuel_frame _ _ _ _ _).1)
        _ _ _ hm]
      simp [hm]

/-- C10 fails as stated: with `max_recursion = 0`, no signatures and only the temporary account
approved, `check_authority` at depth 0 returns false on a zero-threshold authority whose
account entry is not approved. -/
theorem zero_threshold_counterexample :
    ({ sign_state.init example_config [] [] with max_recursion := 0 }.check_authority
      (fun _ => none) (some zero_threshold_authority) 0).1 = false := by
  rfl

theorem zero_threshold_check_authority_witness :
    zero_threshold_authority.weight_threshold = 0 ∧
    0 ≤ (sign_state.init example_config [] []).max_recursion ∧
    (((sign_state.init example_config [] []).check_authority (fun _ => none)
        (some zero_threshold_authority) 0).1 = false ↔
      (0 = (sign_state.init example_config [] []).max_recursion ∧
        (∀ kw ∈ zero_threshold_authority.key_auths,
          ¬(sign_state.init example_config [] []).signable kw.1) ∧
        ∃ a w rest, zero_threshold_authority.account_auths = (a, w) :: rest ∧
          a ∉ (sign_state.init example_config [] []).approved_by)) :=
  ⟨rfl, by decide, zero_threshold_check_authority (fun _ => none) zero_threshold_authority
    (sign_state.init example_config [] []) 0 rfl (by decide)⟩

/-! ## The recursion cap on a chain of accounts -/

theorem verify_state_fields (cfg : chain_config) (sigs : List public_key_type)
    (max_recursion_depth : Nat) (active_aprovals owner_approvals : List account_id_type) :
    (verify_state cfg sigs max_recursion_depth active_aprovals owner_approvals).max_recursion =
      max_recursion_depth ∧
    (verify_state cfg sigs max_recursion_depth active_aprovals owner_approvals).available_keys =
      [] ∧
    (verify_state cfg sigs max_recursion_depth active_aprovals owner_approvals).provided_signatures =
      sigs.foldl (fun m key => flat_map_set key false m) [] ∧
    ∀ id, id ∈ (verify_state cfg sigs max_recursion_depth active_aprovals
        owner_approvals).approved_by ↔
      id = cfg.GRAPHENE_TEMP_ACCOUNT ∨ id ∈ active_aprovals ∨ id ∈ owner_approvals := by
  refine ⟨rfl, rfl, rfl, fun id => ?_⟩
  simp only [verify_state, sign_state.init, mem_foldl_flat_set_insert, mem_flat_set_insert,
    List.not_mem_nil, or_false]
  tauto

theorem chain_check_authority (get_active : account_id_type → Option authority)
    (A : Nat → account_id_type) (n : Nat) (K : public_key_type) (M : Nat)
    (hchain : ∀ i < n, get_active (A i) =
      some { weight_threshold := 1, key_auths := [], account_auths := [(A (i + 1), 1)] })
    (hlast : get_active (A n) =
      some { weight_threshold := 1, key_auths := [(K, 1)], account_auths := [] })
    (j : Nat) (hj : j ≤ n) :
    ∀ (d : Nat) (s : sign_state), s.max_recursion = M → d ≤ M →
      (∀ t ≤ n, A t ∉ s.approved_by) → (∃ b, s.provided_signatures = [(K, b)]) →
      (j ≤ M - d → ∃ s1, check_authority_fuel get_active (M - d + 1) (get_active (A (n - j))) d s =
          (true, s1) ∧ s1.provided_signatures = [(K, true)]) ∧
      (¬j ≤ M - d → check_authority_fuel get_active (M - d + 1) (get_active (A (n - j))) d s =
          (false, s)) := by
  induction j with
  | zero =>
    intro d s _ _ _ hp
    obtain ⟨b, hb⟩ := hp
    have hsig : s.signable K := by
      left
      simp [hb, flat_map_find]
    refine ⟨fun _ => ?_, fun h => absurd (Nat.zero_le _) h⟩
    refine ⟨{ s with provided_signatures := flat_map_set K true s.provided_signatures }, ?_, ?_⟩
    · simp [hlast, check_authority_fuel, check_keys, signed_by_true s K hsig, add_weight]
    · simp [hb, flat_map_set]
  | succ j ih =>
    intro d s hM hd happ hp
    have hi : n - (j + 1) < n := by omega
    have hnext : n - (j + 1) + 1 = n - j := by omega
    rw [hchain _ hi, hnext]
    have hnot : A (n - j) ∉ s.approved_by := happ _ (by omega)
    unfold check_authority_fuel
    simp only [check_keys, check_accounts, hnot, not_false_eq_true, if_true]
    by_cases hdM : d = M
    · subst hdM
      simp [hM]
    · have hlt : d < M := by omega
      have hfuel : M - d = M - (d + 1) + 1 := by omega
      obtain ⟨ih1, ih2⟩ := ih (by omega) (d + 1) s hM (by omega) happ hp
      rw [← hfuel] at ih1 ih2
      have hne : ¬d = s.max_recursion := by rw [hM]; exact hdM
      simp only [hne, if_false]
      by_cases hle : j ≤ M - (d + 1)
      · obtain ⟨s1, h1, h2⟩ := ih1 hle
        refine ⟨fun _ => ?_, fun h => absurd (by omega) h⟩
        rw [h1]
        exact ⟨{ s1 with approved_by := flat_set_insert (A (n - j)) s1.approved_by },
          by simp [add_weight], h2⟩
      · refine ⟨fun h => absurd (by omega) hle, fun _ => ?_⟩
        rw [ih2 hle]
        simp

/-- C6 (as amended). Recursion cap on account chains: for a chain `A 0, ..., A n` of
non-temporary, not pre-approved accounts in which the active authority of `A i` (`i < n`) is
`{threshold 1, account_auths {A (i+1) : 1}}` and that of `A n` is
`{threshold 1, key_auths {K : 1}}`, with absent owner authorities, operations requiring only
the active authority of `A 0`, signer keys `{K}`, and the committee gate open for `A 0` (the
committee flag is true or `A 0` is not the committee account): `verify_authority` succeeds if
and only if `n ≤ max_recursion`, and otherwise fails with `tx missing active auth` for `A 0`. -/
theorem recursion_cap_chain (cfg : chain_config) (ops : List operation)
    (get_active get_owner : account_id_type → Option authority)
    (A : Nat → account_id_type) (n : Nat) (K : public_key_type) (max_recursion_depth : Nat)
    (allow_committe : Bool) (active_aprovals owner_approvals : List account_id_type)
    (hreq : get_required_authorities ops = ([A 0], [], []))
    (hchain : ∀ i < n, get_active (A i) =
      some { weight_threshold := 1, key_auths := [], account_auths := [(A (i + 1), 1)] })
    (hlast : get_active (A n) =
      some { weight_threshold := 1, key_auths := [(K, 1)], account_auths := [] })
    (howner : ∀ i ≤ n, get_owner (A i) = none)
    (htemp : ∀ i ≤ n, A i ≠ cfg.GRAPHENE_TEMP_ACCOUNT)
    (hpre : ∀ i ≤ n, A i ∉ active_aprovals ∧ A i ∉ owner_approvals)
    (hgate : allow_committe = true ∨ A 0 ≠ cfg.GRAPHENE_COMMITTEE_ACCOUNT) :
    (verify_authority cfg ops [K] get_active get_owner max_recursion_depth allow_committe
        active_aprovals owner_approvals = .ok () ↔ n ≤ max_recursion_depth) ∧
    (¬n ≤ max_recursion_depth →
      verify_authority cfg ops [K] get_active get_owner max_recursion_depth allow_committe
        active_aprovals owner_approvals = .error (.tx_missing_active_auth (A 0))) := by
  obtain ⟨hs1, _, hs3, hs4⟩ := verify_state_fields cfg [K] max_recursion_depth active_aprovals
    owner_approvals
  have happ : ∀ t ≤ n, A t ∉ (verify_state cfg [K] max_recursion_depth active_aprovals
      owner_approvals).approved_by := by
    intro t ht
    rw [hs4]
    have := hpre t ht
    have := htemp t ht
    tauto
  obtain ⟨h1, h2⟩ := chain_check_authority get_active A n K max_recursion_depth hchain hlast
    n le_rfl 0 _ hs1 (Nat.zero_le _) happ ⟨false, by rw [hs3]; rfl⟩
  simp only [Nat.sub_self, Nat.sub_zero] at h1 h2
  have hg : ¬(allow_committe = false ∧ cfg.GRAPHENE_COMMITTEE_ACCOUNT = A 0) := by
    rintro ⟨hf, hc⟩
    rcases hgate with h | h
    · simp [h] at hf
    · exact h hc.symm
  have hnot0 := happ 0 (Nat.zero_le _)
  by_cases hle : n ≤ max_recursion_depth
  · obtain ⟨s1, hc, hp⟩ := h1 hle
    have hv : verify_authority cfg ops [K] get_active get_owner max_recursion_depth
        allow_committe active_aprovals owner_approvals = .ok () := by
      simp [verify_authority, verify_authority_checks, hreq, hg, verify_other,
        verify_active, sign_state.check_authority_id, hnot0, sign_state.check_authority, hs1,
        hc, verify_owner, sign_state.remove_unused_signatures, hp]
    exact ⟨⟨fun _ => hle, fun _ => hv⟩, fun h => absurd hle h⟩
  · have hc := h2 hle
    have hfalse : ∀ s : sign_state, check_authority_fuel get_active (max_recursion_depth + 1)
        none 0 s = (false, s) := fun s => by simp [check_authority_fuel]
    have hv : verify_authority cfg ops [K] get_active get_owner max_recursion_depth
        allow_committe active_aprovals owner_approvals =
        .error (.tx_missing_active_auth (A 0)) := by
      simp [verify_authority, verify_authority_checks, hreq, hg, verify_other,
        verify_active, sign_state.check_authority_id, hnot0, sign_state.check_authority, hs1,
        hc, howner 0 (Nat.zero_le _), hfalse]
    refine ⟨⟨fun h => ?_, fun h => absurd h hle⟩, fun _ => hv⟩
    rw [hv] at h
    cases h

/-- C6 fails as stated: the chain of length `n = 0` made of the committee account (which is
neither the temporary account nor pre-approved), whose active authority is
`{threshold 1, key_auths {1 : 1}}`, with signer keys `{1}` and `max_recursion = 2`, does not
verify when the committee flag is false although `n ≤ max_recursion`. -/
theorem recursion_cap_chain_counterexample :
    get_required_authorities [{ required_active := [0], required_owner := [], other := [] }] =
      ([0], [], []) ∧
    committee_active 0 =
      some { weight_threshold := 1, key_auths := [(1, 1)], account_auths := [] } ∧
    (0 : account_id_type) ≠ example_config.GRAPHENE_TEMP_ACCOUNT ∧
    0 ≤ 2 ∧
    verify_authority example_config
      [{ required_active := [0], required_owner := [], other := [] }] [1]
      committee_active (fun _ => none) 2 false [] [] = .error .invalid_committee_approval := by
  refine ⟨rfl, rfl, by decide, by decide, rfl⟩

theorem recursion_cap_chain_witness :
    verify_authority example_config
      [{ required_active := [10], required_owner := [], other := [] }] [1]
      chain_active (fun _ => none) 1 false [] [] = .error (.tx_missing_active_auth 10) ∧
    (verify_authority example_config
      [{ required_active := [10], required_owner := [], other := [] }] [1]
      chain_active (fun _ => none) 2 false [] [] = .ok () ↔ 2 ≤ 2) :=
  ⟨(recursion_cap_chain example_config
      [{ required_active := [10], required_owner := [], other := [] }]
      chain_active (fun _ => none) (fun i => 10 + i) 2 1 1 false [] [] rfl
      (by intro i hi; interval_cases i <;> rfl) rfl (fun _ _ => rfl)
      (by intro i hi; interval_cases i <;> decide) (by simp) (Or.inr (by decide))).2 (by decide),
   (recursion_cap_chain example_config
      [{ required_active := [10], required_owner := [], other := [] }]
      chain_active (fun _ => none) (fun i => 10 + i) 2 1 2 false [] [] rfl
      (by intro i hi; interval_cases i <;> rfl) rfl (fun _ _ => rfl)
      (by intro i hi; interval_cases i <;> decide) (by simp) (Or.inr (by decide))).1⟩

/-! ## Invariants carried through the loops of `verify_authority` -/

theorem flat_map_find_init (k : public_key_type) (sigs : List public_key_type)
    (m : List (public_key_type × Bool)) :
    flat_map_find k (sigs.foldl (fun m key => flat_map_set key false m) m) =
      if k ∈ sigs then some false else flat_map_find k m := by
  induction sigs generalizing m with
  | nil => simp
  | cons x xs ih =>
    simp only [List.foldl_cons, ih, flat_map_find_set, List.mem_cons]
    by_cases h1 : k ∈ xs
    · simp [h1]
    · by_cases h2 : k = x <;> simp [h1, h2]

theorem flat_map_find_mem (k : public_key_type) (v : Bool) (m : List (public_key_type × Bool))
    (h : flat_map_find k m = some v) : (k, v) ∈ m := by
  induction m with
  | nil => simp [flat_map_find] at h
  | cons e rest ih =>
    obtain ⟨k1, v1⟩ := e
    simp only [flat_map_find] at h
    split at h
    · cases h
      subst_vars
      simp
    · exact List.mem_cons_of_mem _ (ih h)

theorem flat_map_find_false_mem (k : public_key_type) (m : List (public_key_type × Bool))
    (h : flat_map_find k m = some false) : ∃ e ∈ m, e.2 = false :=
  ⟨(k, false), flat_map_find_mem k false m h, rfl⟩

theorem remove_unused_signatures_fst (s : sign_state) :
    s.remove_unused_signatures.1 = true ↔ ∃ e ∈ s.provided_signatures, e.2 = false := by
  simp only [sign_state.remove_unused_signatures, ne_eq, List.length_eq_zero, List.map_eq_nil_iff,
    decide_eq_true_eq, List.filter_eq_nil_iff, Bool.not_eq_true', not_forall, Classical.not_imp,
    Bool.not_eq_false, exists_prop]
  constructor
  · rintro ⟨e, he, h⟩
    exact ⟨e, he, by simpa using h⟩
  · rintro ⟨e, he, h⟩
    exact ⟨e, he, by simpa using h⟩

theorem check_authority_none (s : sign_state)
    (get_active : account_id_type → Option authority) (depth : Nat) :
    s.check_authority get_active none depth = (false, s) := by
  simp [sign_state.check_authority, check_authority_fuel]

theorem verify_other_preserves (P : sign_state → Prop) (R : authority → Prop)
    (get_active : account_id_type → Option authority)
    (hP : ∀ auth s, R auth → P s → P (s.check_authority get_active (some auth) 0).2)
    (l : List authority) (hl : ∀ au ∈ l, R au) (s s1 : sign_state)
    (h : verify_other get_active l s = .ok s1) (hs : P s) : P s1 := by
  induction l generalizing s with
  | nil =>
    simp only [verify_other, Except.ok.injEq] at h
    exact h ▸ hs
  | cons auth rest ih =>
    unfold verify_other at h
    have h1 := hP auth s (hl auth (by simp)) hs
    split at h
    · rename_i s2 hc
      rw [hc] at h1
      exact ih (fun au hau => hl au (by simp [hau])) s2 h h1
    · cases h

theorem verify_active_preserves (P : sign_state → Prop) (R : authority → Prop)
    (get_active get_owner : account_id_type → Option authority)
    (hP : ∀ auth s, R auth → P s → P (s.check_authority get_active (some auth) 0).2)
    (l : List account_id_type)
    (hl : ∀ id ∈ l, ∀ auth, get_active id = some auth ∨ get_owner id = some auth → R auth)
    (s s1 : sign_state)
    (h : verify_active get_active get_owner l s = .ok s1) (hs : P s) : P s1 := by
  have hopt : ∀ (au : Option authority) (s : sign_state), (∀ auth, au = some auth → R auth) →
      P s → P (s.check_authority get_active au 0).2 := by
    intro au s hau hs
    cases au with
    | none => rw [check_authority_none]; exact hs
    | some auth => exact hP auth s (hau auth rfl) hs
  induction l generalizing s with
  | nil =>
    simp only [verify_active, Except.ok.injEq] at h
    exact h ▸ hs
  | cons id rest ih =>
    unfold verify_active at h
    have hrest : ∀ id ∈ rest, ∀ auth, get_active id = some auth ∨ get_owner id = some auth →
        R auth := fun i hi => hl i (by simp [hi])
    have h1 : P (s.check_authority_id get_active id).2 := by
      unfold sign_state.check_authority_id
      split
      · exact hs
      · exact hopt _ s (fun auth ha => hl id (by simp) auth (Or.inl ha)) hs
    split at h
    · rename_i s2 hc
      rw [hc] at h1
      exact ih hrest s2 h h1
    · rename_i s2 hc
      rw [hc] at h1
      have h2 := hopt (get_owner id) s2 (fun auth ha => hl id (by simp) auth (Or.inr ha)) h1
      split at h
      · rename_i s3 hc2
        rw [hc2] at h2
        exact ih hrest s3 h h2
      · cases h

theorem verify_owner_preserves (P : sign_state → Prop) (R : authority → Prop)
    (get_active get_owner : account_id_type → Option authority)
    (owner_approvals : List account_id_type)
    (hP : ∀ auth s, R auth → P s → P (s.check_authority get_active (some auth) 0).2)
    (l : List account_id_type)
    (hl : ∀ id ∈ l, ∀ auth, get_owner id = some auth → R auth)
    (s s1 : sign_state)
    (h : verify_owner get_active get_owner owner_approvals l s = .ok s1) (hs : P s) : P s1 := by
  induction l generalizing s with
  | nil =>
    simp only [verify_owner, Except.ok.injEq] at h
    exact h ▸ hs
  | cons id rest ih =>
    unfold verify_owner at h
    have hrest : ∀ id ∈ rest, ∀ auth, get_owner id = some auth → R auth :=
      fun i hi => hl i (by simp [hi])
    split at h
    · exact ih hrest s h hs
    · have h1 : P (s.check_authority get_active (get_owner id) 0).2 := by
        cases ho : get_owner id with
        | none => rw [check_authority_none]; exact hs
        | some auth => exact hP auth s (hl id (by simp) auth ho) hs
      split at h
      · rename_i s2 hc
        rw [hc] at h1
        exact ih hrest s2 h h1
      · cases h

/-- A property of the sign-state that every `check_authority` call on a consulted authority
keeps (an ad-hoc authority of the operations, or an authority returned by a callback) holds in
the state in which the final assertion of `verify_authority` is evaluated. -/
theorem verify_authority_checks_preserves (P : sign_state → Prop) (R : authority → Prop)
    (cfg : chain_config) (ops : List operation)
    (sigs : List public_key_type) (get_active get_owner : account_id_type → Option authority)
    (max_recursion_depth : Nat) (allow_committe : Bool)
    (active_aprovals owner_approvals : List account_id_type)
    (hP : ∀ auth s, R auth → P s → P (s.check_authority get_active (some auth) 0).2)
    (hother : ∀ op ∈ ops, ∀ au ∈ op.other, R au)
    (hcb : ∀ id auth, get_active id = some auth ∨ get_owner id = some auth → R auth)
    (s : sign_state)
    (h : verify_authority_checks cfg ops sigs get_active get_owner max_recursion_depth
      allow_committe active_aprovals owner_approvals = .ok s)
    (h0 : P (verify_state cfg sigs max_recursion_depth active_aprovals owner_approvals)) :
    P s := by
  unfold verify_authority_checks at h
  simp only at h
  split at h
  · cases h
  · split at h
    · cases h
    · rename_i s1 h1
      have hs1 := verify_other_preserves P R get_active hP _
        (fun au hau => by
          obtain ⟨op, hop, hm⟩ := (mem_required_other ops au).mp hau
          exact hother op hop au hm) _ _ h1 h0
      split at h
      · cases h
      · rename_i s2 h2
        have hs2 := verify_active_preserves P R get_active get_owner hP _
          (fun id _ auth ha => hcb id auth ha) _ _ h2 hs1
        exact verify_owner_preserves P R get_active get_owner owner_approvals hP _
          (fun id _ auth ha => hcb id auth (Or.inr ha)) _ _ h hs2

/-- C4. No unnecessary signatures: whenever `verify_authority` succeeds, every key of `sigs`
has its used flag set in the final sign-state (the flag is set only by `signed_by`); and if
`sigs` contains a key that occurs in the `key_auths` of no ad-hoc authority of the operations
and of no authority returned by `get_active` or `get_owner`, then `verify_authority` fails,
with `Unnecessary signatures detected` whenever all authority checks pass. -/
theorem no_unnecessary_signatures (cfg : chain_config) (ops : List operation)
    (sigs : List public_key_type) (get_active get_owner : account_id_type → Option authority)
    (max_recursion_depth : Nat) (allow_committe : Bool)
    (active_aprovals owner_approvals : List account_id_type) :
    (verify_authority cfg ops sigs get_active get_owner max_recursion_depth allow_committe
        active_aprovals owner_approvals = .ok () →
      ∃ s, verify_authority_checks cfg ops sigs get_active get_owner max_recursion_depth
          allow_committe active_aprovals owner_approvals = .ok s ∧
        ∀ k ∈ sigs, flat_map_find k s.provided_signatures = some true) ∧
    (∀ k ∈ sigs,
      (∀ op ∈ ops, ∀ au ∈ op.other, ∀ kw ∈ au.key_auths, kw.1 ≠ k) →
      (∀ id au, get_active id = some au ∨ get_owner id = some au →
        ∀ kw ∈ au.key_auths, kw.1 ≠ k) →
      verify_authority cfg ops sigs get_active get_owner max_recursion_depth allow_committe
          active_aprovals owner_approvals ≠ .ok () ∧
        ∀ s, verify_authority_checks cfg ops sigs get_active get_owner max_recursion_depth
            allow_committe active_aprovals owner_approvals = .ok s →
          verify_authority cfg ops sigs get_active get_owner max_recursion_depth allow_committe
            active_aprovals owner_approvals = .error .unnecessary_signatures) := by
  obtain ⟨_, hs2, hs3, _⟩ := verify_state_fields cfg sigs max_recursion_depth active_aprovals
    owner_approvals
  constructor
  · intro h
    unfold verify_authority at h
    split at h
    · cases h
    · rename_i s hc
      refine ⟨s, hc, fun k hk => ?_⟩
      split at h
      · cases h
      · rename_i hr
        have hall : ∀ e ∈ s.provided_signatures, e.2 = true := by
          intro e he
          by_contra hne
          exact hr ((remove_unused_signatures_fst s).mpr ⟨e, he, by simpa using hne⟩)
        have hinv := verify_authority_checks_preserves
          (fun s1 => s1.available_keys = [] ∧ s1.signable k) (fun _ => True)
          cfg ops sigs get_active get_owner max_recursion_depth allow_committe active_aprovals
          owner_approvals
          (fun auth s1 _ hp => by
            obtain ⟨f1, f2, f3⟩ := check_authority_fuel_frame get_active
              (s1.max_recursion - 0 + 1) (some auth) 0 s1
            exact ⟨by rw [sign_state.check_authority, f2, hp.1],
              by rw [sign_state.check_authority, f3]; exact hp.2⟩)
          (fun _ _ _ _ => trivial) (fun _ _ _ => trivial) s hc
          ⟨hs2, Or.inl (by rw [hs3, flat_map_find_init]; simp [hk])⟩
        rcases hinv.2 with hsome | hav
        · cases hf : flat_map_find k s.provided_signatures with
          | none => simp [hf] at hsome
          | some v =>
            have := hall _ (flat_map_find_mem k v _ hf)
            simp only at this
            rw [this]
        · rw [hinv.1] at hav
          simp at hav
  · intro k hk hother hcb
    have hkey : ∀ s, verify_authority_checks cfg ops sigs get_active get_owner
        max_recursion_depth allow_committe active_aprovals owner_approvals = .ok s →
        verify_authority cfg ops sigs get_active get_owner max_recursion_depth allow_committe
          active_aprovals owner_approvals = .error .unnecessary_signatures := by
      intro s hc
      have hinv := verify_authority_checks_preserves
        (fun s1 => flat_map_find k s1.provided_signatures = some false)
        (fun au => ∀ kw ∈ au.key_auths, kw.1 ≠ k)
        cfg ops sigs get_active get_owner max_recursion_depth allow_committe active_aprovals
        owner_approvals
        (fun auth s1 hR hp => by
          refine check_authority_fuel_preserves
            (fun s2 => flat_map_find k s2.provided_signatures = some false) (fun k1 => k1 ≠ k)
            ?_ ?_ get_active (fun a au ha => hcb a au (Or.inl ha)) _ (some auth) 0 s1 ?_ hp
          · intro s2 k1 hk1 hp2
            rw [signed_by_eq]
            split
            · simp only [flat_map_find_set]
              rw [if_neg (Ne.symm hk1)]
              exact hp2
            · exact hp2
          · intro s2 a hp2
            exact hp2
          · intro auth1 h1
            cases h1
            exact hR)
        hother hcb s hc (by
          show flat_map_find k _ = some false
          rw [hs3, flat_map_find_init]
          simp [hk])
      unfold verify_authority
      rw [hc]
      simp only
      rw [if_pos ((remove_unused_signatures_fst s).mpr (flat_map_find_false_mem k _ hinv))]
    refine ⟨fun h => ?_, hkey⟩
    unfold verify_authority at h
    split at h
    · cases h
    · rename_i s hc
      have := hkey s hc
      unfold verify_authority at this
      rw [hc] at this
      simp only at this
      rw [this] at h
      cases h

/-! ## The used flags of `provided_signatures` -/

theorem flat_map_set_keys (k : public_key_type) (v : Bool) (m : List (public_key_type × Bool))
    (x : public_key_type) :
    x ∈ (flat_map_set k v m).map Prod.fst ↔ x = k ∨ x ∈ m.map Prod.fst := by
  induction m with
  | nil => simp [flat_map_set]
  | cons e rest ih =>
    obtain ⟨k1, v1⟩ := e
    unfold flat_map_set
    split
    · simp
    · split
      · subst_vars; simp
      · simp only [List.map_cons, List.mem_cons, ih]
        tauto

theorem flat_map_set_sorted (k : public_key_type) (v : Bool) (m : List (public_key_type × Bool))
    (h : (m.map Prod.fst).Sorted (· < ·)) :
    ((flat_map_set k v m).map Prod.fst).Sorted (· < ·) := by
  induction m with
  | nil => simp [flat_map_set]
  | cons e rest ih =>
    obtain ⟨k1, v1⟩ := e
    simp only [List.map_cons] at h
    have hy := List.sorted_cons.mp h
    unfold flat_map_set
    split
    · rename_i hlt
      simp only [List.map_cons]
      refine List.sorted_cons.mpr ⟨?_, h⟩
      intro b hb
      rcases List.mem_cons.mp hb with rfl | hb
      · exact hlt
      · exact lt_trans hlt (hy.1 b hb)
    · split
      · subst_vars
        simpa using h
      · rename_i h1 h2
        simp only [List.map_cons]
        refine List.sorted_cons.mpr ⟨?_, ih hy.2⟩
        intro b hb
        rcases (flat_map_set_keys k v rest b).mp hb with rfl | hb
        · exact Nat.lt_of_le_of_ne (Nat.not_lt.mp h1) (fun h => h2 h.symm)
        · exact hy.1 b hb

theorem flat_map_find_of_mem (m : List (public_key_type × Bool))
    (h : (m.map Prod.fst).Sorted (· < ·)) (e : public_key_type × Bool) (he : e ∈ m) :
    flat_map_find e.1 m = some e.2 := by
  induction m with
  | nil => simp at he
  | cons e1 rest ih =>
    obtain ⟨k1, v1⟩ := e1
    simp only [List.map_cons] at h
    have hy := List.sorted_cons.mp h
    rcases List.mem_cons.mp he with rfl | he
    · simp [flat_map_find]
    · have hlt : k1 < e.1 := hy.1 e.1 (List.mem_map_of_mem _ he)
      simp only [flat_map_find]
      rw [if_neg (Nat.ne_of_gt hlt)]
      exact ih hy.2 he

theorem init_sorted (sigs : List public_key_type) (m : List (public_key_type × Bool))
    (h : (m.map Prod.fst).Sorted (· < ·)) :
    ((sigs.foldl (fun m key => flat_map_set key false m) m).map Prod.fst).Sorted (· < ·) := by
  induction sigs generalizing m with
  | nil => simpa using h
  | cons x xs ih => exact ih _ (flat_map_set_sorted x false m h)

theorem signed_by_sorted (s : sign_state) (k : public_key_type)
    (h : (s.provided_signatures.map Prod.fst).Sorted (· < ·)) :
    ((s.signed_by k).2.provided_signatures.map Prod.fst).Sorted (· < ·) := by
  rw [signed_by_eq]
  split
  · exact flat_map_set_sorted k true _ h
  · exact h

theorem signed_by_used (s : sign_state) (k k1 : public_key_type)
    (h : flat_map_find k1 s.provided_signatures = some true) :
    flat_map_find k1 (s.signed_by k).2.provided_signatures = some true := by
  rw [signed_by_eq]
  split
  · simp only [flat_map_find_set]
    split
    · rfl
    · exact h
  · exact h

/-- With sorted keys, nothing is removed by `remove_unused_signatures` exactly when no key is
stored with a false flag. -/
theorem remove_unused_signatures_false (s : sign_state)
    (h : (s.provided_signatures.map Prod.fst).Sorted (· < ·)) :
    s.remove_unused_signatures.1 = false ↔
      ∀ k, flat_map_find k s.provided_signatures ≠ some false := by
  rw [← Bool.not_eq_true, remove_unused_signatures_fst]
  constructor
  · intro hn k hk
    exact hn (flat_map_find_false_mem k _ hk)
  · rintro hn ⟨e, he, hf⟩
    have := flat_map_find_of_mem _ h e he
    rw [hf] at this
    exact hn e.1 this

/-- The state invariants that every `check_authority` call keeps: sorted keys, unchanged
`available_keys`, `max_recursion` and acceptable keys, and used flags that stay set. -/
theorem check_authority_invariants (get_active : account_id_type → Option authority)
    (au : Option authority) (depth : Nat) (s : sign_state) :
    ((s.provided_signatures.map Prod.fst).Sorted (· < ·) →
      (((s.check_authority get_active au depth).2.provided_signatures.map Prod.fst).Sorted
        (· < ·))) ∧
    (∀ k, flat_map_find k s.provided_signatures = some true →
      flat_map_find k (s.check_authority get_active au depth).2.provided_signatures =
        some true) ∧
    (s.check_authority get_active au depth).2.max_recursion = s.max_recursion ∧
    (s.check_authority get_active au depth).2.available_keys = s.available_keys ∧
    ∀ k, (s.check_authority get_active au depth).2.signable k ↔ s.signable k := by
  refine ⟨fun h => ?_, fun k h => ?_, check_authority_fuel_frame _ _ _ _ _⟩
  · exact check_authority_fuel_preserves
      (fun s1 => (s1.provided_signatures.map Prod.fst).Sorted (· < ·)) (fun _ => True)
      (fun s1 k _ h1 => signed_by_sorted s1 k h1) (fun _ _ h1 => h1) get_active
      (fun _ _ _ _ _ => trivial) _ au depth s (fun _ _ _ _ => trivial) h
  · exact check_authority_fuel_preserves
      (fun s1 => flat_map_find k s1.provided_signatures = some true) (fun _ => True)
      (fun s1 k1 _ h1 => signed_by_used s1 k1 k h1) (fun _ _ h1 => h1) get_active
      (fun _ _ _ _ _ => trivial) _ au depth s (fun _ _ _ _ => trivial) h

/-! ## Owner authority accepted for a required active authority -/

theorem signed_weight_cons (sigs : List public_key_type) (k : public_key_type) (w : Nat)
    (l : List (public_key_type × Nat)) :
    signed_weight sigs ((k, w) :: l) =
      if k ∈ sigs then w + signed_weight sigs l else signed_weight sigs l := by
  unfold signed_weight
  by_cases h : k ∈ sigs <;> simp [List.filter_cons, h]

theorem add_weight_eq (tw w : Nat) (h : tw + w < 2 ^ 32) : add_weight tw w = tw + w :=
  Nat.mod_eq_of_lt h

/-- When the accepted keys are those of `sigs` and their weights in `l` reach a threshold not
yet reached, without overflowing the 32-bit total, the key loop returns true. -/
theorem check_keys_reaches (sigs : List public_key_type) (threshold : Nat)
    (l : List (public_key_type × Nat)) (tw : Nat) (s : sign_state)
    (hs : ∀ k, s.signable k ↔ k ∈ sigs)
    (hno : tw + signed_weight sigs l < 2 ^ 32)
    (hsum : threshold ≤ tw + signed_weight sigs l) (hlt : tw < threshold) :
    (check_keys threshold l tw s).1 = some true := by
  induction l generalizing tw s with
  | nil =>
    simp [signed_weight] at hsum
    omega
  | cons e rest ih =>
    obtain ⟨k, w⟩ := e
    rw [signed_weight_cons] at hno hsum
    by_cases hk : k ∈ sigs
    · rw [if_pos hk] at hno hsum
      have hsk : s.signable k := (hs k).mpr hk
      simp only [check_keys, signed_by_true s k hsk]
      rw [add_weight_eq tw w (by omega)]
      split
      · rfl
      · rename_i hlt1
        refine ih (tw + w) _ (fun k1 => ?_) (by omega) (by omega) (by omega)
        rw [← hs k1]
        have := signable_signed_by s k k1
        rw [signed_by_true s k hsk] at this
        exact this
    · rw [if_neg hk] at hno hsum
      simp only [check_keys, signed_by_false s k (fun h => hk ((hs k).mp h))]
      exact ih tw s hs hno hsum hlt

theorem check_authority_of_keys (get_active : account_id_type → Option authority)
    (auth : authority) (depth : Nat) (s : sign_state)
    (h : (check_keys auth.weight_threshold auth.key_auths 0 s).1 = some true) :
    s.check_authority get_active (some auth) depth =
      (true, (check_keys auth.weight_threshold auth.key_auths 0 s).2.2) := by
  unfold sign_state.check_authority check_authority_fuel
  cases hc : check_keys auth.weight_threshold auth.key_auths 0 s with
  | mk r rest =>
    rw [hc] at h
    simp only at h
    subst h
    rfl

/-- A key of `sigs` that the key loop reaches before the threshold is met gets its used flag
set. -/
theorem check_keys_marks (sigs : List public_key_type) (threshold : Nat)
    (k : public_key_type) (w : Nat) (post : List (public_key_type × Nat)) (hk : k ∈ sigs)
    (pre : List (public_key_type × Nat)) (tw : Nat) (s : sign_state)
    (hs : ∀ k, s.signable k ↔ k ∈ sigs)
    (hno : tw + signed_weight sigs (pre ++ (k, w) :: post) < 2 ^ 32)
    (hpre : tw + signed_weight sigs pre < threshold) :
    flat_map_find k (check_keys threshold (pre ++ (k, w) :: post) tw s).2.2.provided_signatures =
      some true := by
  have hstep : ∀ (k1 : public_key_type) (s : sign_state), (∀ k, s.signable k ↔ k ∈ sigs) →
      k1 ∈ sigs → ∀ k2,
        ({ s with provided_signatures := flat_map_set k1 true s.provided_signatures } :
          sign_state).signable k2 ↔ k2 ∈ sigs := by
    intro k1 s hs hk1 k2
    rw [← hs k2]
    have := signable_signed_by s k1 k2
    rw [signed_by_true s k1 ((hs k1).mpr hk1)] at this
    exact this
  induction pre generalizing tw s with
  | nil =>
    simp only [List.nil_append, check_keys, signed_by_true s k ((hs k).mpr hk)]
    have hset : flat_map_find k
        ({ s with provided_signatures := flat_map_set k true s.provided_signatures } :
          sign_state).provided_signatures = some true := by
      simp [flat_map_find_set]
    split
    · exact hset
    · exact check_keys_preserves
        (fun s1 => flat_map_find k s1.provided_signatures = some true) (fun _ => True)
        (fun s1 k1 _ h1 => signed_by_used s1 k1 k h1) threshold post _ _
        (fun _ _ => trivial) hset
  | cons e pre1 ih =>
    obtain ⟨k1, w1⟩ := e
    simp only [List.cons_append] at hno ⊢
    rw [signed_weight_cons] at hno hpre
    by_cases hk1 : k1 ∈ sigs
    · rw [if_pos hk1] at hno hpre
      simp only [check_keys, signed_by_true s k1 ((hs k1).mpr hk1)]
      rw [add_weight_eq tw w1 (by omega)]
      rw [if_neg (by omega)]
      exact ih (tw + w1) _ (hstep k1 s hs hk1) (by omega) (by omega)
    · rw [if_neg hk1] at hno hpre
      simp only [check_keys, signed_by_false s k1 (fun h => hk1 ((hs k1).mp h))]
      exact ih tw s hs hno hpre

theorem check_authority_id_invariants (get_active : account_id_type → Option authority)
    (id : account_id_type) (s : sign_state) :
    ((s.provided_signatures.map Prod.fst).Sorted (· < ·) →
      (((s.check_authority_id get_active id).2.provided_signatures.map Prod.fst).Sorted
        (· < ·))) ∧
    (∀ k, flat_map_find k s.provided_signatures = some true →
      flat_map_find k (s.check_authority_id get_active id).2.provided_signatures =
        some true) ∧
    (s.check_authority_id get_active id).2.max_recursion = s.max_recursion ∧
    (s.check_authority_id get_active id).2.available_keys = s.available_keys ∧
    ∀ k, (s.check_authority_id get_active id).2.signable k ↔ s.signable k := by
  unfold sign_state.check_authority_id
  split
  · exact ⟨fun h => h, fun _ h => h, rfl, rfl, fun _ => Iff.rfl⟩
  · exact check_authority_invariants get_active _ 0 s

theorem verify_state_signable (cfg : chain_config) (sigs : List public_key_type)
    (max_recursion_depth : Nat) (active_aprovals owner_approvals : List account_id_type)
    (k : public_key_type) :
    (verify_state cfg sigs max_recursion_depth active_aprovals owner_approvals).signable k ↔
      k ∈ sigs := by
  obtain ⟨_, h2, h3, _⟩ := verify_state_fields cfg sigs max_recursion_depth active_aprovals
    owner_approvals
  unfold sign_state.signable
  rw [h2, h3, flat_map_find_init]
  by_cases hk : k ∈ sigs <;> simp [hk, flat_map_find]

theorem verify_active_owner_accepted (sigs : List public_key_type)
    (get_active get_owner : account_id_type → Option authority) (id : account_id_type)
    (ow : authority) (how : get_owner id = some ow)
    (hpos : 0 < ow.weight_threshold)
    (hsum : ow.weight_threshold ≤ signed_weight sigs ow.key_auths)
    (hno : signed_weight sigs ow.key_auths < 2 ^ 32)
    (l : List account_id_type) (s : sign_state) (hs : ∀ k, s.signable k ↔ k ∈ sigs) :
    verify_active get_active get_owner l s ≠ .error (.tx_missing_active_auth id) := by
  induction l generalizing s with
  | nil => simp [verify_active]
  | cons id1 rest ih =>
    unfold verify_active
    have h1 : ∀ k, (s.check_authority_id get_active id1).2.signable k ↔ k ∈ sigs := fun k => by
      rw [(check_authority_id_invariants get_active id1 s).2.2.2.2 k, hs k]
    split
    · rename_i s1 hc
      rw [hc] at h1
      exact ih s1 h1
    · rename_i s1 hc
      rw [hc] at h1
      have h2 : ∀ k, (s1.check_authority get_active (get_owner id1) 0).2.signable k ↔
          k ∈ sigs := fun k => by
        rw [(check_authority_invariants get_active _ 0 s1).2.2.2.2 k, h1 k]
      split
      · rename_i s2 hc2
        rw [hc2] at h2
        exact ih s2 h2
      · rename_i s2 hc2
        intro he
        injection he with he
        injection he with he
        subst he
        rw [how, check_authority_of_keys get_active ow 0 s1
          (check_keys_reaches sigs _ _ 0 s1 h1 (by omega) (by omega) hpos)] at hc2
        cases hc2

/-- C5 (as amended). Owner accepted for active. Let `id` be an account (required or not) whose
owner authority `get_owner id` has a positive threshold that the weights of its keys in `sigs`
reach, their sum staying below `2^32`. Then `verify_authority` does not fail with
`tx missing active auth` for `id`, whatever `get_active id` is. When moreover `id` is the only
required authority, the committee gate is open for `id`, the check of `id` against its active
authority fails, and every key of `sigs` is consulted by the owner check (it stands in the
owner's `key_auths` at a position before which the threshold is not yet reached), then
`verify_authority` succeeds. -/
theorem owner_accepted_for_active (cfg : chain_config) (ops : List operation)
    (sigs : List public_key_type) (get_active get_owner : account_id_type → Option authority)
    (max_recursion_depth : Nat) (allow_committe : Bool)
    (active_aprovals owner_approvals : List account_id_type)
    (id : account_id_type) (ow : authority)
    (how : get_owner id = some ow)
    (hpos : 0 < ow.weight_threshold)
    (hsum : ow.weight_threshold ≤ signed_weight sigs ow.key_auths)
    (hno : signed_weight sigs ow.key_auths < 2 ^ 32) :
    verify_authority cfg ops sigs get_active get_owner max_recursion_depth allow_committe
        active_aprovals owner_approvals ≠ .error (.tx_missing_active_auth id) ∧
    (get_required_authorities ops = ([id], [], []) →
      (allow_committe = true ∨ id ≠ cfg.GRAPHENE_COMMITTEE_ACCOUNT) →
      ((verify_state cfg sigs max_recursion_depth active_aprovals
        owner_approvals).check_authority_id get_active id).1 = false →
      (∀ k ∈ sigs, ∃ pre w post, ow.key_auths = pre ++ (k, w) :: post ∧
        signed_weight sigs pre < ow.weight_threshold) →
      verify_authority cfg ops sigs get_active get_owner max_recursion_depth allow_committe
        active_aprovals owner_approvals = .ok ()) := by
  have hsig := verify_state_signable cfg sigs max_recursion_depth active_aprovals owner_approvals
  constructor
  · intro h
    unfold verify_authority at h
    split at h
    · rename_i e he
      cases h
      unfold verify_authority_checks at he
      simp only at he
      split at he
      · cases he
      · split at he
        · rename_i e1 h1
          cases he
          cases verify_other_error _ _ _ _ h1
        · rename_i s1 h1
          have hs1 := verify_other_preserves (fun s => ∀ k, s.signable k ↔ k ∈ sigs)
            (fun _ => True) get_active
            (fun auth s _ hp k => by
              rw [(check_authority_invariants get_active _ 0 s).2.2.2.2 k, hp k])
            _ (fun _ _ => trivial) _ _ h1 hsig
          split at he
          · rename_i e2 h2
            cases he
            exact verify_active_owner_accepted sigs get_active get_owner id ow how hpos hsum
              hno _ s1 hs1 h2
          · cases verify_owner_error _ _ _ _ _ _ he
    · split at h <;> cases h
  · intro hreq hgate hact hcons
    obtain ⟨hf1, hf2, hf3, _⟩ := verify_state_fields cfg sigs max_recursion_depth
      active_aprovals owner_approvals
    have hg : ¬(allow_committe = false ∧ cfg.GRAPHENE_COMMITTEE_ACCOUNT = id) := by
      rintro ⟨hf, hc⟩
      rcases hgate with h | h
      · simp [h] at hf
      · exact h hc.symm
    obtain ⟨i1, _, _, i4, i5⟩ := check_authority_id_invariants get_active id
      (verify_state cfg sigs max_recursion_depth active_aprovals owner_approvals)
    have hsorted0 := i1 (by rw [hf3]; exact init_sorted sigs [] (by simp))
    cases hc : (verify_state cfg sigs max_recursion_depth active_aprovals
        owner_approvals).check_authority_id get_active id with
    | mk b s1 =>
      rw [hc] at hact hsorted0 i4 i5
      simp only at hact hsorted0 i4 i5
      subst hact
      have hs1 : ∀ k, s1.signable k ↔ k ∈ sigs := fun k => by rw [i5 k, hsig k]
      have hreach := check_keys_reaches sigs ow.weight_threshold ow.key_auths 0 s1 hs1
        (by omega) (by omega) hpos
      have hc2 := check_authority_of_keys get_active ow 0 s1 hreach
      obtain ⟨j1, _, _, j4, j5⟩ := check_authority_invariants get_active (some ow) 0 s1
      rw [hc2] at j1 j4 j5
      simp only at j1 j4 j5
      have hfinal : ∀ k, flat_map_find k
          (check_keys ow.weight_threshold ow.key_auths 0 s1).2.2.provided_signatures ≠
            some false := by
        intro k hk
        have hsk : (check_keys ow.weight_threshold ow.key_auths 0 s1).2.2.signable k :=
          Or.inl (by rw [hk]; rfl)
        have hks : k ∈ sigs := (hs1 k).mp ((j5 k).mp hsk)
        obtain ⟨pre, w, post, hl, hpre⟩ := hcons k hks
        have := check_keys_marks sigs ow.weight_threshold k w post hks pre 0 s1 hs1
          (by rw [← hl]; omega) (by omega)
        rw [← hl, hk] at this
        cases this
      have hrem := (remove_unused_signatures_false _ (j1 hsorted0)).mpr hfinal
      simp [verify_authority, verify_authority_checks, hreq, hg, verify_other, verify_active,
        hc, how, hc2, verify_owner, hrem]

/-- C5 fails as stated, in both parts. First input: account 10 is the only required authority,
its owner authority `{2, {1:1, 2:1}}` is satisfied by `sigs = {1, 2}` and consults exactly
these keys, but its active authority `{1, {1:1}}` is satisfied first, the owner authority is
never consulted and key 2 stays unused: `verify_authority` fails. Second input: the owner
authority has threshold 0, which the (empty) sum of its signed key weights reaches, but with
`max_recursion = 0` its check stops at the unapproved account entry and `verify_authority`
fails with `tx missing active auth` for account 10. -/
theorem owner_accepted_counterexample :
    (2 ≤ signed_weight [1, 2] [(1, 1), (2, 1)] ∧
      verify_authority example_config
        [{ required_active := [10], required_owner := [], other := [] }] [1, 2]
        owner_example_active owner_example_owner 2 false [] [] =
          .error .unnecessary_signatures) ∧
    (zero_threshold_authority.weight_threshold ≤
        signed_weight [] zero_threshold_authority.key_auths ∧
      verify_authority example_config
        [{ required_active := [10], required_owner := [], other := [] }] []
        (fun _ => none) owner_example_zero 0 false [] [] =
          .error (.tx_missing_active_auth 10)) := by
  refine ⟨⟨by decide, rfl⟩, ⟨by decide, rfl⟩⟩

theorem owner_accepted_for_active_witness :
    verify_authority example_config
        [{ required_active := [10], required_owner := [], other := [] }] [1, 2]
        (fun _ => none) owner_example_owner 2 false [] [] ≠
          .error (.tx_missing_active_auth 10) ∧
    verify_authority example_config
        [{ required_active := [10], required_owner := [], other := [] }] [1, 2]
        (fun _ => none) owner_example_owner 2 false [] [] = .ok () :=
  ⟨(owner_accepted_for_active example_config
      [{ required_active := [10], required_owner := [], other := [] }] [1, 2]
      (fun _ => none) owner_example_owner 2 false [] [] 10
      { weight_threshold := 2, key_auths := [(1, 1), (2, 1)], account_auths := [] }
      rfl (by decide) (by decide) (by decide)).1,
   (owner_accepted_for_active example_config
      [{ required_active := [10], required_owner := [], other := [] }] [1, 2]
      (fun _ => none) owner_example_owner 2 false [] [] 10
      { weight_threshold := 2, key_auths := [(1, 1), (2, 1)], account_auths := [] }
      rfl (by decide) (by decide) (by decide)).2 rfl (Or.inr (by decide)) rfl
      (by
        intro k hk
        simp only [List.mem_cons, List.mem_singleton, List.not_mem_nil, or_false] at hk
        rcases hk with rfl | rfl
        · exact ⟨[], 1, [(2, 1)], rfl, by decide⟩
        · exact ⟨[(1, 1)], 1, [], rfl, by decide⟩)⟩

/-! ## The minimizer -/

theorem flat_set_erase_sorted (k : Nat) (l : List Nat) (h : l.Sorted (· < ·)) :
    (flat_set_erase k l).Sorted (· < ·) :=
  List.Pairwise.filter _ h

theorem mem_flat_set_erase (k x : Nat) (l : List Nat) :
    x ∈ flat_set_erase k l ↔ x ∈ l ∧ x ≠ k := by
  simp [flat_set_erase]

/-- Erasing a member of a sorted set and inserting it again gives the set back. -/
theorem flat_set_insert_erase (k : Nat) (l : List Nat) (h : l.Sorted (· < ·)) (hk : k ∈ l) :
    flat_set_insert k (flat_set_erase k l) = l := by
  induction l with
  | nil => simp at hk
  | cons y ys ih =>
    have hy := List.sorted_cons.mp h
    by_cases hyk : y = k
    · subst hyk
      have hfilter : flat_set_erase y ys = ys := by
        unfold flat_set_erase
        rw [List.filter_eq_self]
        intro a ha
        have := hy.1 a ha
        simp only [ne_eq, decide_not, Bool.not_eq_eq_eq_not, Bool.not_true, decide_eq_false_iff_not]
        omega
      have : flat_set_erase y (y :: ys) = ys := by
        rw [← hfilter]
        simp [flat_set_erase]
      rw [this]
      cases ys with
      | nil => simp [flat_set_insert]
      | cons z zs =>
        have := hy.1 z (by simp)
        simp [flat_set_insert, this]
    · have hmem : k ∈ ys := by
        rcases List.mem_cons.mp hk with h1 | h1
        · exact absurd h1.symm hyk
        · exact h1
      have hlt := hy.1 k hmem
      have : flat_set_erase k (y :: ys) = y :: flat_set_erase k ys := by
        simp [flat_set_erase, hyk]
      rw [this]
      unfold flat_set_insert
      rw [if_neg (by omega), if_neg (by omega), ih hy.2 hmem]

theorem foldl_flat_set_insert_sorted {α : Type} (f : α → Nat) (xs : List α) (l : List Nat)
    (h : l.Sorted (· < ·)) :
    (xs.foldl (fun result x => flat_set_insert (f x) result) l).Sorted (· < ·) := by
  induction xs generalizing l with
  | nil => simpa using h
  | cons x xs ih => exact ih _ (flat_set_insert_sorted _ _ h)

/-- The set returned by `get_required_signatures` is sorted (hence duplicate free). -/
theorem get_required_signatures_sorted (trx : signed_transaction) (cfg : chain_config)
    (recover : signature_type → digest_type → public_key_type)
    (digest : transaction → digest_type) (available_keys : List public_key_type)
    (get_active get_owner : account_id_type → Option authority) (max_recursion_depth : Nat)
    (s : List public_key_type)
    (h : trx.get_required_signatures cfg recover digest available_keys get_active get_owner
      max_recursion_depth = .ok s) : s.Sorted (· < ·) := by
  unfold signed_transaction.get_required_signatures at h
  split at h
  · cases h
  · simp only [Except.ok.injEq] at h
    rw [← h]
    exact foldl_flat_set_insert_sorted _ _ _ (by simp)

/-- The invariant of the minimizer's loop: the candidate set stays sorted and contains the
keys still to be tried; a kept key leaves the candidate set as it was; and once the candidate
set passes `verify_authority` (at the start, or after a committed removal) the returned set
passes it. -/
theorem minimize_loop_sound (cfg : chain_config) (ops : List operation)
    (get_active get_owner : account_id_type → Option authority) (max_recursion : Nat)
    (allow_committe : Bool) (rest result R : List public_key_type)
    (hsorted : result.Sorted (· < ·)) (hsub : ∀ k ∈ rest, k ∈ result) (hnd : rest.Nodup)
    (h : minimize_loop cfg ops get_active get_owner max_recursion allow_committe rest result =
      .ok R) :
    (verify_authority cfg ops result get_active get_owner max_recursion allow_committe [] [] =
        .ok () ∨ ∃ k ∈ result, k ∉ R) →
      verify_authority cfg ops R get_active get_owner max_recursion allow_committe [] [] =
        .ok () := by
  induction rest generalizing result with
  | nil =>
    simp only [minimize_loop, Except.ok.injEq] at h
    subst h
    rintro (h1 | ⟨k, hk, hn⟩)
    · exact h1
    · exact absurd hk hn
  | cons k rest ih =>
    have hnd1 := List.nodup_cons.mp hnd
    unfold minimize_loop at h
    split at h
    · rename_i hv
      intro _
      refine ih (flat_set_erase k result) (flat_set_erase_sorted k result hsorted)
        (fun x hx => (mem_flat_set_erase k x result).mpr
          ⟨hsub x (by simp [hx]), fun he => hnd1.1 (he ▸ hx)⟩) hnd1.2 h (Or.inl ?_)
      cases hu : verify_authority cfg ops (flat_set_erase k result) get_active get_owner
        max_recursion allow_committe [] [] with
      | error e => rw [hu] at hv; cases hv
      | ok u => rfl
    · split at h
      · rw [flat_set_insert_erase k result hsorted (hsub k (by simp))] at h
        exact ih result hsorted (fun x hx => hsub x (by simp [hx])) hnd1.2 h
      · cases h

/-- C2 (as amended). Minimizer soundness: when `minimize_required_signatures` returns a set
`R`, and either the starting set returned by `get_required_signatures` passes
`verify_authority` or some key of the starting set was removed (is not in `R`), then
`verify_authority` on `R` with no pre-approvals succeeds. -/
theorem minimize_required_signatures_sound (trx : signed_transaction) (cfg : chain_config)
    (recover : signature_type → digest_type → public_key_type)
    (digest : transaction → digest_type) (allow_committe : Bool)
    (available_keys : List public_key_type)
    (get_active get_owner : account_id_type → Option authority) (max_recursion : Nat)
    (S R : List public_key_type)
    (hS : trx.get_required_signatures cfg recover digest available_keys get_active get_owner
      max_recursion = .ok S)
    (hR : trx.minimize_required_signatures cfg recover digest allow_committe available_keys
      get_active get_owner max_recursion = .ok R)
    (h : verify_authority cfg trx.operations S get_active get_owner max_recursion
        allow_committe [] [] = .ok () ∨ ∃ k ∈ S, k ∉ R) :
    verify_authority cfg trx.operations R get_active get_owner max_recursion allow_committe
      [] [] = .ok () := by
  have hsorted := get_required_signatures_sorted trx cfg recover digest available_keys
    get_active get_owner max_recursion S hS
  unfold signed_transaction.minimize_required_signatures at hR
  rw [hS] at hR
  exact minimize_loop_sound cfg trx.operations get_active get_owner max_recursion
    allow_committe S S R hsorted (fun _ hk => hk) hsorted.nodup hR h

/-- C2 fails as stated: with no available key the minimizer returns the empty set for a
transaction that requires the active authority `{1, {key 1 : 1}}` of account 10, and the empty
set does not pass `verify_authority`. -/
theorem minimize_sound_counterexample :
    example_trx.minimize_required_signatures example_config (fun sig _ => sig) (fun _ => 0)
      false [] owner_example_active (fun _ => none) 2 = .ok [] ∧
    verify_authority example_config example_trx.operations [] owner_example_active
      (fun _ => none) 2 false [] [] = .error (.tx_missing_active_auth 10) := by
  exact ⟨rfl, rfl⟩

theorem minimize_required_signatures_sound_witness :
    verify_authority example_config example_trx.operations [1] owner_example_active
      (fun _ => none) 2 false [] [] = .ok () :=
  minimize_required_signatures_sound example_trx example_config (fun sig _ => sig)
    (fun _ => 0) false [1] owner_example_active (fun _ => none) 2 [1] [1] rfl rfl (Or.inl rfl)

/-! ## Weighted satisfaction: monotonicity and independence of the number of levels -/

theorem satisfied_succ (get_active : account_id_type → Option authority)
    (keys : List public_key_type) (approved : List account_id_type) (n : Nat) (au : authority) :
    satisfied get_active keys approved (n + 1) au =
      decide (au.weight_threshold ≤ signed_weight keys au.key_auths +
        account_weight (account_approved get_active keys approved n) au.account_auths) := rfl

theorem within_cap_total (get_active : account_id_type → Option authority) (n : Nat)
    (au : authority) (h : within_cap get_active n au = true) :
    (au.key_auths.map Prod.snd).sum + (au.account_auths.map Prod.snd).sum < 2 ^ 32 := by
  cases n <;> simp only [within_cap, Bool.and_eq_true, decide_eq_true_eq] at h <;> exact h.1

theorem within_cap_succ_mem (get_active : account_id_type → Option authority) (n : Nat)
    (au : authority) (h : within_cap get_active (n + 1) au = true)
    (aw : account_id_type × Nat) (haw : aw ∈ au.account_auths) :
    within_cap_opt get_active n (get_active aw.1) = true := by
  simp only [within_cap, Bool.and_eq_true, List.all_eq_true] at h
  have := h.2 aw haw
  unfold within_cap_opt
  split <;> simp_all

theorem account_weight_congr (p q : account_id_type → Bool) (l : List (account_id_type × Nat))
    (h : ∀ aw ∈ l, p aw.1 = q aw.1) : account_weight p l = account_weight q l := by
  unfold account_weight
  congr 2
  exact List.filter_congr (fun aw haw => h aw haw)

theorem account_weight_cons (p : account_id_type → Bool) (a : account_id_type) (w : Nat)
    (l : List (account_id_type × Nat)) :
    account_weight p ((a, w) :: l) =
      if p a = true then w + account_weight p l else account_weight p l := by
  unfold account_weight
  by_cases h : p a = true <;> simp [List.filter_cons, h]

theorem account_weight_mono (p q : account_id_type → Bool) (l : List (account_id_type × Nat))
    (h : ∀ aw ∈ l, p aw.1 = true → q aw.1 = true) : account_weight p l ≤ account_weight q l := by
  induction l with
  | nil => simp [account_weight]
  | cons e rest ih =>
    obtain ⟨a, w⟩ := e
    have ih1 := ih (fun aw haw => h aw (by simp [haw]))
    rw [account_weight_cons, account_weight_cons]
    by_cases hp : p a = true
    · rw [if_pos hp, if_pos (h (a, w) (by simp) hp)]
      omega
    · rw [if_neg hp]
      split <;> omega

theorem account_weight_le_total (p : account_id_type → Bool)
    (l : List (account_id_type × Nat)) : account_weight p l ≤ (l.map Prod.snd).sum := by
  induction l with
  | nil => simp [account_weight]
  | cons e rest ih =>
    obtain ⟨a, w⟩ := e
    rw [account_weight_cons]
    simp only [List.map_cons, List.sum_cons]
    split <;> omega

theorem signed_weight_mono (keys keys1 : List public_key_type)
    (l : List (public_key_type × Nat)) (h : ∀ kw ∈ l, kw.1 ∈ keys → kw.1 ∈ keys1) :
    signed_weight keys l ≤ signed_weight keys1 l := by
  induction l with
  | nil => simp [signed_weight]
  | cons e rest ih =>
    obtain ⟨k, w⟩ := e
    have ih1 := ih (fun kw hkw => h kw (by simp [hkw]))
    rw [signed_weight_cons, signed_weight_cons]
    by_cases hp : k ∈ keys
    · rw [if_pos hp, if_pos (h (k, w) (by simp) hp)]
      omega
    · rw [if_neg hp]
      split <;> omega

theorem signed_weight_le_total (keys : List public_key_type)
    (l : List (public_key_type × Nat)) : signed_weight keys l ≤ (l.map Prod.snd).sum := by
  induction l with
  | nil => simp [signed_weight]
  | cons e rest ih =>
    obtain ⟨k, w⟩ := e
    rw [signed_weight_cons]
    simp only [List.map_cons, List.sum_cons]
    split <;> omega

/-- Satisfaction is monotone in the set of keys. -/
theorem satisfied_mono (get_active : account_id_type → Option authority)
    (keys keys1 : List public_key_type) (approved : List account_id_type)
    (hk : ∀ k ∈ keys, k ∈ keys1) (n : Nat) (au : authority)
    (h : satisfied get_active keys approved n au = true) :
    satisfied get_active keys1 approved n au = true := by
  induction n generalizing au with
  | zero =>
    simp only [satisfied, decide_eq_true_eq] at h ⊢
    have := signed_weight_mono keys keys1 au.key_auths (fun kw _ hkw => hk _ hkw)
    omega
  | succ n ih =>
    rw [satisfied_succ, decide_eq_true_eq] at h ⊢
    have h1 := signed_weight_mono keys keys1 au.key_auths (fun kw _ hkw => hk _ hkw)
    have h2 := account_weight_mono (account_approved get_active keys approved n)
      (account_approved get_active keys1 approved n) au.account_auths (by
        intro aw _ hp
        unfold account_approved at hp ⊢
        rw [Bool.or_eq_true] at hp ⊢
        rcases hp with hp | hp
        · exact Or.inl hp
        · right
          split at hp
          · exact ih _ hp
          · cases hp)
    omega

theorem account_approved_mono (get_active : account_id_type → Option authority)
    (keys keys1 : List public_key_type) (approved : List account_id_type)
    (hk : ∀ k ∈ keys, k ∈ keys1) (n : Nat) (a : account_id_type)
    (h : account_approved get_active keys approved n a = true) :
    account_approved get_active keys1 approved n a = true := by
  unfold account_approved at h ⊢
  rw [Bool.or_eq_true] at h ⊢
  rcases h with h | h
  · exact Or.inl h
  · right
    split at h
    · exact satisfied_mono get_active keys keys1 approved hk n _ h
    · cases h

theorem satisfied_opt_mono (get_active : account_id_type → Option authority)
    (keys keys1 : List public_key_type) (approved : List account_id_type)
    (hk : ∀ k ∈ keys, k ∈ keys1) (n : Nat) (au : Option authority)
    (h : satisfied_opt get_active keys approved n au = true) :
    satisfied_opt get_active keys1 approved n au = true := by
  cases au with
  | none => exact h
  | some au => exact satisfied_mono get_active keys keys1 approved hk n au h

/-- For an authority within the cap of `n` levels, one more level changes nothing. -/
theorem satisfied_succ_of_within_cap (get_active : account_id_type → Option authority)
    (keys : List public_key_type) (approved : List account_id_type) (n : Nat) (au : authority)
    (h : within_cap get_active n au = true) :
    satisfied get_active keys approved (n + 1) au = satisfied get_active keys approved n au := by
  induction n generalizing au with
  | zero =>
    simp only [within_cap, Bool.and_eq_true, List.isEmpty_iff] at h
    simp [satisfied, h.2, account_weight]
  | succ n ih =>
    rw [satisfied_succ, satisfied_succ]
    congr 3
    apply account_weight_congr
    intro aw haw
    have hc := within_cap_succ_mem get_active n au h aw haw
    unfold account_approved
    congr 1
    unfold within_cap_opt at hc
    split
    · rename_i au1 hg
      rw [hg] at hc
      exact ih au1 hc
    · rfl

theorem within_cap_succ (get_active : account_id_type → Option authority) (n : Nat)
    (au : authority) (h : within_cap get_active n au = true) :
    within_cap get_active (n + 1) au = true := by
  induction n generalizing au with
  | zero =>
    simp only [within_cap, Bool.and_eq_true, List.isEmpty_iff] at h
    simp only [within_cap, Bool.and_eq_true, List.all_eq_true]
    exact ⟨h.1, by simp [h.2]⟩
  | succ n ih =>
    have ht := within_cap_total get_active _ au h
    simp only [within_cap, Bool.and_eq_true, List.all_eq_true, decide_eq_true_eq]
    refine ⟨ht, fun aw haw => ?_⟩
    have hc := within_cap_succ_mem get_active n au h aw haw
    unfold within_cap_opt at hc
    split
    · rename_i au1 hg
      rw [hg] at hc
      exact ih au1 hc
    · rfl

/-- Satisfaction of an authority within the cap does not depend on the number of levels
allowed, once they suffice. -/
theorem satisfied_of_within_cap (get_active : account_id_type → Option authority)
    (keys : List public_key_type) (approved : List account_id_type) (n m : Nat)
    (au : authority) (hn : within_cap get_active n au = true)
    (hm : within_cap get_active m au = true) :
    satisfied get_active keys approved n au = satisfied get_active keys approved m au := by
  have key : ∀ (a : Nat) (d : Nat), within_cap get_active a au = true →
      satisfied get_active keys approved (a + d) au = satisfied get_active keys approved a au ∧
      within_cap get_active (a + d) au = true := by
    intro a d ha
    induction d with
    | zero => exact ⟨rfl, ha⟩
    | succ d ih =>
      rw [← Nat.add_assoc]
      exact ⟨by rw [satisfied_succ_of_within_cap _ _ _ _ _ ih.2, ih.1],
        within_cap_succ _ _ _ ih.2⟩
  rcases Nat.le_total n m with hle | hle
  · obtain ⟨d, rfl⟩ := Nat.exists_eq_add_of_le hle
    exact ((key n d hn).1).symm
  · obtain ⟨d, rfl⟩ := Nat.exists_eq_add_of_le hle
    exact (key m d hm).1

/-! ## `check_authority` decides satisfaction for authorities within the cap -/

theorem check_keys_sem (keys : List public_key_type) (threshold : Nat)
    (l : List (public_key_type × Nat)) (tw : Nat) (s : sign_state)
    (hs : ∀ k, s.signable k ↔ k ∈ keys) (hno : tw + signed_weight keys l < 2 ^ 32) :
    ((check_keys threshold l tw s).1 = some true ∧ threshold ≤ tw + signed_weight keys l) ∨
    ((check_keys threshold l tw s).1 = none ∧
      (check_keys threshold l tw s).2.1 = tw + signed_weight keys l) := by
  induction l generalizing tw s with
  | nil => simp [check_keys, signed_weight]
  | cons e rest ih =>
    obtain ⟨k, w⟩ := e
    rw [signed_weight_cons] at hno ⊢
    by_cases hk : k ∈ keys
    · rw [if_pos hk] at hno ⊢
      have hsk : s.signable k := (hs k).mpr hk
      simp only [check_keys, signed_by_true s k hsk]
      rw [add_weight_eq tw w (by omega)]
      split
      · left
        exact ⟨rfl, by omega⟩
      · have := ih (tw + w)
          { s with provided_signatures := flat_map_set k true s.provided_signatures }
          (fun k1 => by
            rw [← hs k1]
            have := signable_signed_by s k k1
            rw [signed_by_true s k hsk] at this
            exact this) (by omega)
        rw [Nat.add_assoc] at this
        exact this
    · rw [if_neg hk] at hno ⊢
      simp only [check_keys, signed_by_false s k (fun h => hk ((hs k).mp h))]
      exact ih tw s hs hno

theorem account_approved_of_inv (get_active : account_id_type → Option authority)
    (keys : List public_key_type) (approved : List account_id_type) (M n : Nat)
    (s : sign_state) (hinv : engine_inv get_active keys approved M s) (a : account_id_type)
    (ha : a ∈ s.approved_by) (hcap : within_cap_opt get_active n (get_active a) = true) :
    account_approved get_active keys approved n a = true := by
  obtain ⟨_, _, _, h4⟩ := hinv
  unfold account_approved
  rw [Bool.or_eq_true]
  rcases h4 a ha with h | ⟨au1, m, hg, hc, hsat⟩
  · exact Or.inl (by simpa using h)
  · right
    rw [hg] at hcap ⊢
    simp only [within_cap_opt] at hcap
    simp only
    rw [satisfied_of_within_cap get_active keys approved n m au1 hcap hc]
    exact hsat

theorem check_accounts_sem (get_active : account_id_type → Option authority)
    (keys : List public_key_type) (approved : List account_id_type) (M n : Nat)
    (recurse : Option authority → sign_state → Bool × sign_state) (threshold depth : Nat)
    (hd : depth ≠ M)
    (hrec : ∀ a s, engine_inv get_active keys approved M s →
      within_cap_opt get_active n (get_active a) = true →
      (recurse (get_active a) s).1 = satisfied_opt get_active keys approved n (get_active a) ∧
      engine_inv get_active keys approved M (recurse (get_active a) s).2)
    (l : List (account_id_type × Nat))
    (hl : ∀ aw ∈ l, within_cap_opt get_active n (get_active aw.1) = true)
    (tw : Nat) (s : sign_state) (hinv : engine_inv get_active keys approved M s)
    (hno : tw + (l.map Prod.snd).sum < 2 ^ 32) :
    (check_accounts recurse get_active threshold depth l tw s).1 =
      decide (threshold ≤ tw + account_weight (account_approved get_active keys approved n) l) ∧
    engine_inv get_active keys approved M
      (check_accounts recurse get_active threshold depth l tw s).2 := by
  induction l generalizing tw s with
  | nil => simp [check_accounts, account_weight, hinv]
  | cons e rest ih =>
    obtain ⟨a, w⟩ := e
    have hcap := hl (a, w) (by simp)
    have hl1 : ∀ aw ∈ rest, within_cap_opt get_active n (get_active aw.1) = true :=
      fun aw haw => hl aw (by simp [haw])
    simp only [List.map_cons, List.sum_cons] at hno
    have hle := account_weight_le_total (account_approved get_active keys approved n) rest
    rw [account_weight_cons]
    unfold check_accounts
    by_cases hap : a ∈ s.approved_by
    · have happ := account_approved_of_inv get_active keys approved M n s hinv a hap hcap
      simp only [hap, not_true_eq_false, if_false, happ, if_true]
      rw [add_weight_eq tw w (by omega)]
      split
      · exact ⟨by simp; omega, hinv⟩
      · have := ih hl1 (tw + w) s hinv (by omega)
        rw [Nat.add_assoc] at this
        exact this
    · have hM : ¬depth = s.max_recursion := by rw [hinv.1]; exact hd
      simp only [hap, not_false_eq_true, if_true, hM, if_false]
      obtain ⟨hr1, hr2⟩ := hrec a s hinv hcap
      have hnot0 : a ∉ approved := fun h => hap (hinv.2.2.1 a h)
      have happ : account_approved get_active keys approved n a =
          satisfied_opt get_active keys approved n (get_active a) := by
        unfold account_approved satisfied_opt
        simp only [hnot0, decide_False, Bool.false_or]
      cases hc : recurse (get_active a) s with
      | mk b s1 =>
        rw [hc] at hr1 hr2
        simp only at hr1 hr2
        rw [happ, ← hr1]
        cases b
        · simp only [Bool.false_eq_true, if_false]
          exact ih hl1 tw s1 hr2 (by omega)
        · simp only [if_true]
          have hinv2 : engine_inv get_active keys approved M
              { s1 with approved_by := flat_set_insert a s1.approved_by } := by
            obtain ⟨i1, i2, i3, i4⟩ := hr2
            refine ⟨i1, i2, fun x hx => (mem_flat_set_insert a x _).mpr (Or.inr (i3 x hx)), ?_⟩
            intro x hx
            rcases (mem_flat_set_insert a x _).mp hx with rfl | hx
            · right
              cases hg : get_active x with
              | none => rw [hg] at hr1; simp [satisfied_opt] at hr1
              | some au1 =>
                rw [hg] at hr1 hcap
                exact ⟨au1, n, rfl, hcap, hr1.symm⟩
            · exact i4 x hx
          rw [add_weight_eq tw w (by omega)]
          split
          · exact ⟨by simp; omega, hinv2⟩
          · have := ih hl1 (tw + w) _ hinv2 (by omega)
            rw [Nat.add_assoc] at this
            exact this

/-- For an authority within the cap of the `n` levels that remain at depth `d`,
`check_authority` returns whether the authority is satisfied, and keeps the invariant. -/
theorem check_authority_fuel_sem (get_active : account_id_type → Option authority)
    (keys : List public_key_type) (approved : List account_id_type) (M n : Nat)
    (au : authority) (d : Nat) (s : sign_state)
    (hinv : engine_inv get_active keys approved M s) (hd : d + n = M)
    (hcap : within_cap get_active n au = true) :
    (check_authority_fuel get_active (n + 1) (some au) d s).1 =
      satisfied get_active keys approved n au ∧
    engine_inv get_active keys approved M
      (check_authority_fuel get_active (n + 1) (some au) d s).2 := by
  induction n generalizing au d s with
  | zero =>
    have htot := within_cap_total get_active 0 au hcap
    simp only [within_cap, Bool.and_eq_true, List.isEmpty_iff] at hcap
    have hsw := signed_weight_le_total keys au.key_auths
    obtain ⟨f1, f2, f3, f4⟩ := check_keys_frame au.weight_threshold au.key_auths 0 s
    have hinv1 : engine_inv get_active keys approved M
        (check_keys au.weight_threshold au.key_auths 0 s).2.2 := by
      obtain ⟨i1, i2, i3, i4⟩ := hinv
      exact ⟨by rw [f1, i1], fun k => by rw [f4 k, i2 k], by rw [f3]; exact i3,
        by rw [f3]; exact i4⟩
    unfold check_authority_fuel
    rcases check_keys_sem keys au.weight_threshold au.key_auths 0 s hinv.2.1 (by omega) with
      ⟨h1, h2⟩ | ⟨h1, h2⟩
    · cases hc : check_keys au.weight_threshold au.key_auths 0 s with
      | mk r rest =>
        rw [hc] at h1 hinv1
        simp only at h1 hinv1
        subst h1
        refine ⟨?_, hinv1⟩
        simp [satisfied]
        omega
    · cases hc : check_keys au.weight_threshold au.key_auths 0 s with
      | mk r rest =>
        obtain ⟨tw, s1⟩ := rest
        rw [hc] at h1 h2 hinv1
        simp only at h1 h2 hinv1
        subst h1
        simp only [hcap.2, check_accounts]
        refine ⟨?_, hinv1⟩
        simp [satisfied, hcap.2, account_weight, h2]
  | succ n ih =>
    have htot := within_cap_total get_active (n + 1) au hcap
    have hsw := signed_weight_le_total keys au.key_auths
    obtain ⟨f1, f2, f3, f4⟩ := check_keys_frame au.weight_threshold au.key_auths 0 s
    have hinv1 : engine_inv get_active keys approved M
        (check_keys au.weight_threshold au.key_auths 0 s).2.2 := by
      obtain ⟨i1, i2, i3, i4⟩ := hinv
      exact ⟨by rw [f1, i1], fun k => by rw [f4 k, i2 k], by rw [f3]; exact i3,
        by rw [f3]; exact i4⟩
    unfold check_authority_fuel
    rw [satisfied_succ]
    rcases check_keys_sem keys au.weight_threshold au.key_auths 0 s hinv.2.1 (by omega) with
      ⟨h1, h2⟩ | ⟨h1, h2⟩
    · cases hc : check_keys au.weight_threshold au.key_auths 0 s with
      | mk r rest =>
        rw [hc] at h1 hinv1
        simp only at h1 hinv1
        subst h1
        refine ⟨?_, hinv1⟩
        simp
        omega
    · cases hc : check_keys au.weight_threshold au.key_auths 0 s with
      | mk r rest =>
        obtain ⟨tw, s1⟩ := rest
        rw [hc] at h1 h2 hinv1
        simp only at h1 h2 hinv1
        subst h1
        simp only
        have := check_accounts_sem get_active keys approved M n
          (fun au1 s2 => check_authority_fuel get_active (n + 1) au1 (d + 1) s2)
          au.weight_threshold d (by omega)
          (fun a s2 hi hc2 => by
            cases hg : get_active a with
            | none => simpa [check_authority_fuel, satisfied_opt] using hi
            | some au1 =>
              rw [hg] at hc2
              exact ih au1 (d + 1) s2 hi (by omega) hc2)
          au.account_auths (fun aw haw => within_cap_succ_mem get_active n au hcap aw haw)
          tw s1 hinv1 (by omega)
        rw [Nat.zero_add] at h2
        subst h2
        exact this

/-! ## The outcome of `verify_authority` for requirements within the cap -/

theorem requirements_within_cap_iff (get_active get_owner : account_id_type → Option authority)
    (M : Nat) (ops : List operation) :
    requirements_within_cap get_active get_owner M ops = true ↔
      (∀ au ∈ (get_required_authorities ops).2.2, within_cap get_active M au = true) ∧
      (∀ id ∈ (get_required_authorities ops).1,
        within_cap_opt get_active M (get_active id) = true ∧
        within_cap_opt get_active M (get_owner id) = true) ∧
      (∀ id ∈ (get_required_authorities ops).2.1,
        within_cap_opt get_active M (get_owner id) = true) := by
  simp only [requirements_within_cap, List.all_eq_true, Bool.and_eq_true, mem_required_other,
    mem_required_active, mem_required_owner]
  constructor
  · intro h
    refine ⟨?_, ?_, ?_⟩
    · rintro au ⟨op, hop, hau⟩
      exact (h op hop).1.1 au hau
    · rintro id ⟨op, hop, hid⟩
      exact (h op hop).1.2 id hid
    · rintro id ⟨op, hop, hid⟩
      exact (h op hop).2 id hid
  · rintro ⟨h1, h2, h3⟩ op hop
    exact ⟨⟨fun au hau => h1 au ⟨op, hop, hau⟩, fun id hid => h2 id ⟨op, hop, hid⟩⟩,
      fun id hid => h3 id ⟨op, hop, hid⟩⟩

theorem requirements_satisfied_iff (get_active get_owner : account_id_type → Option authority)
    (keys : List public_key_type) (approved owner_approvals : List account_id_type)
    (fallback : Bool) (M : Nat) (ops : List operation) :
    requirements_satisfied get_active get_owner keys approved owner_approvals fallback M ops =
        true ↔
      (∀ au ∈ (get_required_authorities ops).2.2,
        satisfied get_active keys approved M au = true) ∧
      (∀ id ∈ (get_required_authorities ops).1,
        account_approved get_active keys approved M id = true ∨
          (fallback = true ∧ satisfied_opt get_active keys approved M (get_owner id) = true)) ∧
      (∀ id ∈ (get_required_authorities ops).2.1,
        id ∈ owner_approvals ∨
          satisfied_opt get_active keys approved M (get_owner id) = true) := by
  simp only [requirements_satisfied, List.all_eq_true, Bool.and_eq_true, Bool.or_eq_true,
    decide_eq_true_eq, mem_required_other, mem_required_active, mem_required_owner]
  constructor
  · intro h
    refine ⟨?_, ?_, ?_⟩
    · rintro au ⟨op, hop, hau⟩
      exact (h op hop).1.1 au hau
    · rintro id ⟨op, hop, hid⟩
      exact (h op hop).1.2 id hid
    · rintro id ⟨op, hop, hid⟩
      exact (h op hop).2 id hid
  · rintro ⟨h1, h2, h3⟩ op hop
    exact ⟨⟨fun au hau => h1 au ⟨op, hop, hau⟩, fun id hid => h2 id ⟨op, hop, hid⟩⟩,
      fun id hid => h3 id ⟨op, hop, hid⟩⟩

/-- The requirements stay satisfied when keys are added. -/
theorem requirements_satisfied_mono (get_active get_owner : account_id_type → Option authority)
    (keys keys1 : List public_key_type) (approved owner_approvals : List account_id_type)
    (fallback : Bool) (M : Nat) (ops : List operation) (hk : ∀ k ∈ keys, k ∈ keys1)
    (h : requirements_satisfied get_active get_owner keys approved owner_approvals fallback M
      ops = true) :
    requirements_satisfied get_active get_owner keys1 approved owner_approvals fallback M ops =
      true := by
  rw [requirements_satisfied_iff] at h ⊢
  obtain ⟨h1, h2, h3⟩ := h
  refine ⟨fun au hau => satisfied_mono _ _ _ _ hk _ _ (h1 au hau), fun id hid => ?_,
    fun id hid => ?_⟩
  · rcases h2 id hid with h | ⟨hf, h⟩
    · exact Or.inl (account_approved_mono _ _ _ _ hk _ _ h)
    · exact Or.inr ⟨hf, satisfied_opt_mono _ _ _ _ hk _ _ h⟩
  · rcases h3 id hid with h | h
    · exact Or.inl h
    · exact Or.inr (satisfied_opt_mono _ _ _ _ hk _ _ h)

theorem check_authority_sem (get_active : account_id_type → Option authority)
    (keys : List public_key_type) (approved : List account_id_type) (M : Nat)
    (au : Option authority) (s : sign_state)
    (hinv : engine_inv get_active keys approved M s)
    (hcap : within_cap_opt get_active M au = true) :
    (s.check_authority get_active au 0).1 = satisfied_opt get_active keys approved M au ∧
    engine_inv get_active keys approved M (s.check_authority get_active au 0).2 := by
  cases au with
  | none =>
    rw [check_authority_none]
    exact ⟨rfl, hinv⟩
  | some auth =>
    unfold sign_state.check_authority
    rw [hinv.1, Nat.sub_zero]
    exact check_authority_fuel_sem get_active keys approved M M auth 0 s hinv (Nat.zero_add M)
      hcap

theorem check_authority_id_sem (get_active : account_id_type → Option authority)
    (keys : List public_key_type) (approved : List account_id_type) (M : Nat)
    (id : account_id_type) (s : sign_state)
    (hinv : engine_inv get_active keys approved M s)
    (hcap : within_cap_opt get_active M (get_active id) = true) :
    (s.check_authority_id get_active id).1 = account_approved get_active keys approved M id ∧
    engine_inv get_active keys approved M (s.check_authority_id get_active id).2 := by
  unfold sign_state.check_authority_id
  split
  · rename_i hap
    exact ⟨(account_approved_of_inv get_active keys approved M M s hinv id hap hcap).symm, hinv⟩
  · rename_i hap
    have hnot0 : id ∉ approved := fun h => hap (hinv.2.2.1 id h)
    obtain ⟨h1, h2⟩ := check_authority_sem get_active keys approved M (get_active id) s hinv hcap
    refine ⟨?_, h2⟩
    rw [h1]
    unfold account_approved satisfied_opt
    simp only [hnot0, decide_False, Bool.false_or]

theorem verify_other_sem (get_active : account_id_type → Option authority)
    (keys : List public_key_type) (approved : List account_id_type) (M : Nat)
    (l : List authority) (hl : ∀ au ∈ l, within_cap get_active M au = true) (s : sign_state)
    (hinv : engine_inv get_active keys approved M s) :
    (∀ s1, verify_other get_active l s = .ok s1 →
      engine_inv get_active keys approved M s1 ∧
        ∀ au ∈ l, satisfied get_active keys approved M au = true) ∧
    (∀ e, verify_other get_active l s = .error e →
      ∃ au ∈ l, satisfied get_active keys approved M au = false) := by
  induction l generalizing s with
  | nil =>
    refine ⟨fun s1 h => ?_, fun e h => ?_⟩
    · simp only [verify_other, Except.ok.injEq] at h
      exact ⟨h ▸ hinv, by simp⟩
    · simp [verify_other] at h
  | cons auth rest ih =>
    obtain ⟨h1, h2⟩ := check_authority_sem get_active keys approved M (some auth) s hinv
      (hl auth (by simp))
    simp only [satisfied_opt] at h1
    unfold verify_other
    cases hc : s.check_authority get_active (some auth) 0 with
    | mk b s2 =>
      rw [hc] at h1 h2
      simp only at h1 h2
      obtain ⟨ih1, ih2⟩ := ih (fun au hau => hl au (by simp [hau])) s2 h2
      cases b
      · refine ⟨fun s1 h => (by cases h), fun e _ => ⟨auth, by simp, h1.symm⟩⟩
      · refine ⟨fun s1 h => ?_, fun e h => ?_⟩
        · obtain ⟨i1, i2⟩ := ih1 s1 h
          refine ⟨i1, fun au hau => ?_⟩
          rcases List.mem_cons.mp hau with rfl | hau
          · exact h1.symm
          · exact i2 au hau
        · obtain ⟨au, hau, hs⟩ := ih2 e h
          exact ⟨au, by simp [hau], hs⟩

theorem verify_active_sem (get_active get_owner : account_id_type → Option authority)
    (keys : List public_key_type) (approved : List account_id_type) (M : Nat)
    (l : List account_id_type)
    (hl : ∀ id ∈ l, within_cap_opt get_active M (get_active id) = true ∧
      within_cap_opt get_active M (get_owner id) = true) (s : sign_state)
    (hinv : engine_inv get_active keys approved M s) :
    (∀ s1, verify_active get_active get_owner l s = .ok s1 →
      engine_inv get_active keys approved M s1 ∧
        ∀ id ∈ l, account_approved get_active keys approved M id = true ∨
          satisfied_opt get_active keys approved M (get_owner id) = true) ∧
    (∀ e, verify_active get_active get_owner l s = .error e →
      ∃ id ∈ l, account_approved get_active keys approved M id = false ∧
          satisfied_opt get_active keys approved M (get_owner id) = false) := by
  induction l generalizing s with
  | nil =>
    refine ⟨fun s1 h => ?_, fun e h => ?_⟩
    · simp only [verify_active, Except.ok.injEq] at h
      exact ⟨h ▸ hinv, by simp⟩
    · simp [verify_active] at h
  | cons id rest ih =>
    obtain ⟨h1, h2⟩ := check_authority_id_sem get_active keys approved M id s hinv
      (hl id (by simp)).1
    have hrest : ∀ id ∈ rest, within_cap_opt get_active M (get_active id) = true ∧
      within_cap_opt get_active M (get_owner id) = true := fun i hi => hl i (by simp [hi])
    unfold verify_active
    cases hc : s.check_authority_id get_active id with
    | mk b s2 =>
      rw [hc] at h1 h2
      simp only at h1 h2
      cases b
      · obtain ⟨h3, h4⟩ := check_authority_sem get_active keys approved M (get_owner id) s2 h2
          (hl id (by simp)).2
        simp only
        cases hc2 : s2.check_authority get_active (get_owner id) 0 with
        | mk b2 s3 =>
          rw [hc2] at h3 h4
          simp only at h3 h4
          obtain ⟨ih1, ih2⟩ := ih hrest s3 h4
          cases b2
          · exact ⟨fun s1 h => (by cases h), fun e _ => ⟨id, by simp, h1.symm, h3.symm⟩⟩
          · refine ⟨fun s1 h => ?_, fun e h => ?_⟩
            · obtain ⟨i1, i2⟩ := ih1 s1 h
              refine ⟨i1, fun x hx => ?_⟩
              rcases List.mem_cons.mp hx with rfl | hx
              · exact Or.inr h3.symm
              · exact i2 x hx
            · obtain ⟨x, hx, hs⟩ := ih2 e h
              exact ⟨x, by simp [hx], hs⟩
      · obtain ⟨ih1, ih2⟩ := ih hrest s2 h2
        refine ⟨fun s1 h => ?_, fun e h => ?_⟩
        · obtain ⟨i1, i2⟩ := ih1 s1 h
          refine ⟨i1, fun x hx => ?_⟩
          rcases List.mem_cons.mp hx with rfl | hx
          · exact Or.inl h1.symm
          · exact i2 x hx
        · obtain ⟨x, hx, hs⟩ := ih2 e h
          exact ⟨x, by simp [hx], hs⟩

theorem verify_owner_sem (get_active get_owner : account_id_type → Option authority)
    (keys : List public_key_type) (approved owner_approvals : List account_id_type) (M : Nat)
    (l : List account_id_type)
    (hl : ∀ id ∈ l, within_cap_opt get_active M (get_owner id) = true) (s : sign_state)
    (hinv : engine_inv get_active keys approved M s) :
    (∀ s1, verify_owner get_active get_owner owner_approvals l s = .ok s1 →
      engine_inv get_active keys approved M s1 ∧
        ∀ id ∈ l, id ∈ owner_approvals ∨
          satisfied_opt get_active keys approved M (get_owner id) = true) ∧
    (∀ e, verify_owner get_active get_owner owner_approvals l s = .error e →
      ∃ id ∈ l, id ∉ owner_approvals ∧
          satisfied_opt get_active keys approved M (get_owner id) = false) := by
  induction l generalizing s with
  | nil =>
    refine ⟨fun s1 h => ?_, fun e h => ?_⟩
    · simp only [verify_owner, Except.ok.injEq] at h
      exact ⟨h ▸ hinv, by simp⟩
    · simp [verify_owner] at h
  | cons id rest ih =>
    have hrest : ∀ id ∈ rest, within_cap_opt get_active M (get_owner id) = true :=
      fun i hi => hl i (by simp [hi])
    unfold verify_owner
    by_cases hoa : id ∈ owner_approvals
    · simp only [hoa, if_true]
      obtain ⟨ih1, ih2⟩ := ih hrest s hinv
      refine ⟨fun s1 h => ?_, fun e h => ?_⟩
      · obtain ⟨i1, i2⟩ := ih1 s1 h
        refine ⟨i1, fun x hx => ?_⟩
        rcases List.mem_cons.mp hx with rfl | hx
        · exact Or.inl hoa
        · exact i2 x hx
      · obtain ⟨x, hx, hs⟩ := ih2 e h
        exact ⟨x, by simp [hx], hs⟩
    · simp only [hoa, if_false]
      obtain ⟨h3, h4⟩ := check_authority_sem get_active keys approved M (get_owner id) s hinv
        (hl id (by simp))
      cases hc2 : s.check_authority get_active (get_owner id) 0 with
      | mk b2 s3 =>
        rw [hc2] at h3 h4
        simp only at h3 h4
        obtain ⟨ih1, ih2⟩ := ih hrest s3 h4
        cases b2
        · exact ⟨fun s1 h => (by cases h), fun e _ => ⟨id, by simp, hoa, h3.symm⟩⟩
        · refine ⟨fun s1 h => ?_, fun e h => ?_⟩
          · obtain ⟨i1, i2⟩ := ih1 s1 h
            refine ⟨i1, fun x hx => ?_⟩
            rcases List.mem_cons.mp hx with rfl | hx
            · exact Or.inr h3.symm
            · exact i2 x hx
          · obtain ⟨x, hx, hs⟩ := ih2 e h
            exact ⟨x, by simp [hx], hs⟩

theorem verify_state_inv (cfg : chain_config) (sigs : List public_key_type)
    (get_active : account_id_type → Option authority) (M : Nat)
    (active_aprovals owner_approvals : List account_id_type) :
    engine_inv get_active sigs (verify_approved cfg active_aprovals owner_approvals) M
      (verify_state cfg sigs M active_aprovals owner_approvals) :=
  ⟨rfl, verify_state_signable cfg sigs M active_aprovals owner_approvals,
    fun _ h => h, fun _ h => Or.inl h⟩

theorem verify_authority_checks_gate (cfg : chain_config) (ops : List operation)
    (sigs : List public_key_type) (get_active get_owner : account_id_type → Option authority)
    (M : Nat) (allow_committe : Bool)
    (active_aprovals owner_approvals : List account_id_type)
    (h : verify_authority_checks cfg ops sigs get_active get_owner M allow_committe
      active_aprovals owner_approvals ≠ .error .invalid_committee_approval) :
    ¬(allow_committe = false ∧
      cfg.GRAPHENE_COMMITTEE_ACCOUNT ∈ (get_required_authorities ops).1) := by
  rintro ⟨h1, h2⟩
  apply h
  simp [verify_authority_checks, h1, h2]

/-- Past the committee gate and for requirements within the cap, the checks of
`verify_authority` pass exactly when the signer keys satisfy the requirements; otherwise they
fail with a missing-authority error. -/
theorem verify_authority_checks_sem (cfg : chain_config) (ops : List operation)
    (sigs : List public_key_type) (get_active get_owner : account_id_type → Option authority)
    (M : Nat) (allow_committe : Bool)
    (active_aprovals owner_approvals : List account_id_type)
    (hgate : ¬(allow_committe = false ∧
      cfg.GRAPHENE_COMMITTEE_ACCOUNT ∈ (get_required_authorities ops).1))
    (hcap : requirements_within_cap get_active get_owner M ops = true) :
    (requirements_satisfied get_active get_owner sigs
        (verify_approved cfg active_aprovals owner_approvals) owner_approvals true M ops = true →
      ∃ s, verify_authority_checks cfg ops sigs get_active get_owner M allow_committe
        active_aprovals owner_approvals = .ok s) ∧
    (requirements_satisfied get_active get_owner sigs
        (verify_approved cfg active_aprovals owner_approvals) owner_approvals true M ops = false →
      ∃ e, verify_authority_checks cfg ops sigs get_active get_owner M allow_committe
        active_aprovals owner_approvals = .error e ∧ e.is_missing_auth = true) := by
  obtain ⟨c1, c2, c3⟩ := (requirements_within_cap_iff get_active get_owner M ops).mp hcap
  have hg : ¬((!allow_committe) = true ∧
      cfg.GRAPHENE_COMMITTEE_ACCOUNT ∈ (get_required_authorities ops).1) := by
    simpa using hgate
  have hinv0 := verify_state_inv cfg sigs get_active M active_aprovals owner_approvals
  obtain ⟨o1, o2⟩ := verify_other_sem get_active sigs
    (verify_approved cfg active_aprovals owner_approvals) M _ c1 _ hinv0
  have hsat := requirements_satisfied_iff get_active get_owner sigs
    (verify_approved cfg active_aprovals owner_approvals) owner_approvals true M ops
  unfold verify_authority_checks
  simp only
  rw [if_neg hg]
  cases h1 : verify_other get_active (get_required_authorities ops).2.2
      (verify_state cfg sigs M active_aprovals owner_approvals) with
  | error e =>
    obtain ⟨au, hau, hf⟩ := o2 e h1
    have he := verify_other_error _ _ _ _ h1
    subst he
    refine ⟨fun h => ?_, fun _ => ⟨_, rfl, rfl⟩⟩
    have := (hsat.mp h).1 au hau
    rw [hf] at this
    cases this
  | ok s1 =>
    obtain ⟨i1, sat1⟩ := o1 s1 h1
    obtain ⟨a1, a2⟩ := verify_active_sem get_active get_owner sigs
      (verify_approved cfg active_aprovals owner_approvals) M _ c2 s1 i1
    simp only
    cases h2 : verify_active get_active get_owner (get_required_authorities ops).1 s1 with
    | error e =>
      obtain ⟨id, hid, hf1, hf2⟩ := a2 e h2
      obtain ⟨id1, _, he⟩ := verify_active_error _ _ _ _ _ h2
      subst he
      refine ⟨fun h => ?_, fun _ => ⟨_, rfl, rfl⟩⟩
      rcases (hsat.mp h).2.1 id hid with h3 | ⟨_, h3⟩
      · rw [hf1] at h3
        cases h3
      · rw [hf2] at h3
        cases h3
    | ok s2 =>
      obtain ⟨i2, sat2⟩ := a1 s2 h2
      obtain ⟨w1, w2⟩ := verify_owner_sem get_active get_owner sigs
        (verify_approved cfg active_aprovals owner_approvals) owner_approvals M _ c3 s2 i2
      simp only
      cases h3 : verify_owner get_active get_owner owner_approvals
          (get_required_authorities ops).2.1 s2 with
      | error e =>
        obtain ⟨id, hid, hf1, hf2⟩ := w2 e h3
        have he := verify_owner_error _ _ _ _ _ _ h3
        subst he
        refine ⟨fun h => ?_, fun _ => ⟨_, rfl, rfl⟩⟩
        rcases (hsat.mp h).2.2 id hid with h4 | h4
        · exact absurd h4 hf1
        · rw [hf2] at h4
          cases h4
      | ok s3 =>
        obtain ⟨_, sat3⟩ := w1 s3 h3
        refine ⟨fun _ => ⟨s3, rfl⟩, fun h => ?_⟩
        have : requirements_satisfied get_active get_owner sigs
            (verify_approved cfg active_aprovals owner_approvals) owner_approvals true M ops =
            true :=
          hsat.mpr ⟨sat1, fun id hid => (sat2 id hid).imp (fun h => h) (fun h => ⟨rfl, h⟩), sat3⟩
        rw [this] at h
        cases h

theorem verify_authority_of_checks (cfg : chain_config) (ops : List operation)
    (sigs : List public_key_type) (get_active get_owner : account_id_type → Option authority)
    (M : Nat) (allow_committe : Bool)
    (active_aprovals owner_approvals : List account_id_type) :
    (∀ e, verify_authority_checks cfg ops sigs get_active get_owner M allow_committe
        active_aprovals owner_approvals = .error e →
      verify_authority cfg ops sigs get_active get_owner M allow_committe
        active_aprovals owner_approvals = .error e) ∧
    (∀ s, verify_authority_checks cfg ops sigs get_active get_owner M allow_committe
        active_aprovals owner_approvals = .ok s →
      verify_authority cfg ops sigs get_active get_owner M allow_committe
          active_aprovals owner_approvals = .ok () ∨
        verify_authority cfg ops sigs get_active get_owner M allow_committe
          active_aprovals owner_approvals = .error .unnecessary_signatures) := by
  constructor
  · intro e h
    simp [verify_authority, h]
  · intro s h
    unfold verify_authority
    rw [h]
    simp only
    split
    · exact Or.inr rfl
    · exact Or.inl rfl

/-- The outcome of `verify_authority` past the committee gate, for requirements within the
cap: a missing-authority error exactly when the signer keys do not satisfy the requirements,
and otherwise success or `unnecessary_signatures`. -/
theorem verify_authority_sem (cfg : chain_config) (ops : List operation)
    (sigs : List public_key_type) (get_active get_owner : account_id_type → Option authority)
    (M : Nat) (allow_committe : Bool)
    (active_aprovals owner_approvals : List account_id_type)
    (hgate : ¬(allow_committe = false ∧
      cfg.GRAPHENE_COMMITTEE_ACCOUNT ∈ (get_required_authorities ops).1))
    (hcap : requirements_within_cap get_active get_owner M ops = true) :
    (requirements_satisfied get_active get_owner sigs
        (verify_approved cfg active_aprovals owner_approvals) owner_approvals true M ops = true →
      verify_authority cfg ops sigs get_active get_owner M allow_committe
          active_aprovals owner_approvals = .ok () ∨
        verify_authority cfg ops sigs get_active get_owner M allow_committe
          active_aprovals owner_approvals = .error .unnecessary_signatures) ∧
    (requirements_satisfied get_active get_owner sigs
        (verify_approved cfg active_aprovals owner_approvals) owner_approvals true M ops = false →
      ∃ e, verify_authority cfg ops sigs get_active get_owner M allow_committe
        active_aprovals owner_approvals = .error e ∧ e.is_missing_auth = true) := by
  obtain ⟨h1, h2⟩ := verify_authority_checks_sem cfg ops sigs get_active get_owner M
    allow_committe active_aprovals owner_approvals hgate hcap
  obtain ⟨v1, v2⟩ := verify_authority_of_checks cfg ops sigs get_active get_owner M
    allow_committe active_aprovals owner_approvals
  constructor
  · intro h
    obtain ⟨s, hs⟩ := h1 h
    exact v2 s hs
  · intro h
    obtain ⟨e, he, hm⟩ := h2 h
    exact ⟨e, v1 e he, hm⟩

theorem verify_authority_gate (cfg : chain_config) (ops : List operation)
    (sigs : List public_key_type) (get_active get_owner : account_id_type → Option authority)
    (M : Nat) (allow_committe : Bool)
    (active_aprovals owner_approvals : List account_id_type)
    (hgate : allow_committe = false ∧
      cfg.GRAPHENE_COMMITTEE_ACCOUNT ∈ (get_required_authorities ops).1) :
    verify_authority cfg ops sigs get_active get_owner M allow_committe
      active_aprovals owner_approvals = .error .invalid_committee_approval := by
  simp [verify_authority, verify_authority_checks, hgate.1, hgate.2]

/-- C1 (as amended). Authority monotonicity: when every authority that `verify_authority`
checks at depth 0 for the operations is within the recursion cap (account entries nest at most
`max_recursion` levels deep, so no check meets an account entry at `depth == max_recursion`)
and the weights of each authority on the way total less than `2^32`, then, if
`verify_authority` succeeds on `sigs`, on `sigs ∪ {k}` it succeeds or fails with
`Unnecessary signatures detected`. -/
theorem authority_monotone (cfg : chain_config) (ops : List operation)
    (sigs : List public_key_type) (k : public_key_type)
    (get_active get_owner : account_id_type → Option authority)
    (max_recursion_depth : Nat) (allow_committe : Bool)
    (active_aprovals owner_approvals : List account_id_type)
    (hcap : requirements_within_cap get_active get_owner max_recursion_depth ops = true)
    (h : verify_authority cfg ops sigs get_active get_owner max_recursion_depth allow_committe
      active_aprovals owner_approvals = .ok ()) :
    verify_authority cfg ops (flat_set_insert k sigs) get_active get_owner max_recursion_depth
        allow_committe active_aprovals owner_approvals = .ok () ∨
    verify_authority cfg ops (flat_set_insert k sigs) get_active get_owner max_recursion_depth
        allow_committe active_aprovals owner_approvals = .error .unnecessary_signatures := by
  have hgate : ¬(allow_committe = false ∧
      cfg.GRAPHENE_COMMITTEE_ACCOUNT ∈ (get_required_authorities ops).1) := by
    intro hg
    rw [verify_authority_gate cfg ops sigs get_active get_owner max_recursion_depth
      allow_committe active_aprovals owner_approvals hg] at h
    cases h
  have hsat : requirements_satisfied get_active get_owner sigs
      (verify_approved cfg active_aprovals owner_approvals) owner_approvals true
      max_recursion_depth ops = true := by
    by_contra hn
    obtain ⟨e, he, hm⟩ := (verify_authority_sem cfg ops sigs get_active get_owner
      max_recursion_depth allow_committe active_aprovals owner_approvals hgate hcap).2
      (by simpa using hn)
    rw [h] at he
    cases he
  exact (verify_authority_sem cfg ops (flat_set_insert k sigs) get_active get_owner
    max_recursion_depth allow_committe active_aprovals owner_approvals hgate hcap).1
    (requirements_satisfied_mono get_active get_owner sigs (flat_set_insert k sigs) _ _ _ _ _
      (fun x hx => (mem_flat_set_insert k x sigs).mpr (Or.inr hx)) hsat)

/-- C1 fails as stated. Operations require the active authorities of accounts 10 and 11 and
`max_recursion = 1`. With `sigs = {1}` account 10 is approved through account 20, which enters
`approved_by`, and account 11 is then approved through account 30, whose entry for account 20
is found approved at depth 1. With `sigs = {1, 2}` account 10 is approved by key 2 before its
account entry is looked at, account 20 is not in `approved_by`, and the check of account 30
meets it at `depth == max_recursion`: `tx missing active auth`. -/
theorem authority_monotone_counterexample :
    (2 : public_key_type) ∉ [1] ∧
    verify_authority example_config
      [{ required_active := [10, 11], required_owner := [], other := [] }] [1]
      cache_example_active (fun _ => none) 1 false [] [] = .ok () ∧
    verify_authority example_config
      [{ required_active := [10, 11], required_owner := [], other := [] }]
      (flat_set_insert 2 [1])
      cache_example_active (fun _ => none) 1 false [] [] = .error (.tx_missing_active_auth 11) := by
  refine ⟨by decide, rfl, rfl⟩

theorem authority_monotone_witness :
    verify_authority example_config
      [{ required_active := [10], required_owner := [], other := [] }]
      (flat_set_insert 3 [1, 2])
      owner_example_owner (fun _ => none) 2 false [] [] = .ok () ∨
    verify_authority example_config
      [{ required_active := [10], required_owner := [], other := [] }]
      (flat_set_insert 3 [1, 2])
      owner_example_owner (fun _ => none) 2 false [] [] = .error .unnecessary_signatures :=
  authority_monotone example_config
    [{ required_active := [10], required_owner := [], other := [] }] [1, 2] 3
    owner_example_owner (fun _ => none) 2 false [] [] rfl rfl

/-! ## Minimality of the minimizer's result -/

/-- The minimizer's loop only removes keys, and every key it tried and kept was kept because a
probe without it, on a candidate set that contains the returned set, failed with a
missing-authority error. -/
theorem minimize_loop_minimal (cfg : chain_config) (ops : List operation)
    (get_active get_owner : account_id_type → Option authority) (max_recursion : Nat)
    (allow_committe : Bool) (rest result R : List public_key_type)
    (hsorted : result.Sorted (· < ·)) (hsub : ∀ k ∈ rest, k ∈ result) (hnd : rest.Nodup)
    (h : minimize_loop cfg ops get_active get_owner max_recursion allow_committe rest result =
      .ok R) :
    (∀ x ∈ R, x ∈ result) ∧
    ∀ k ∈ rest, k ∈ R → ∃ T e, (∀ x ∈ R, x ∈ T) ∧
      verify_authority cfg ops (flat_set_erase k T) get_active get_owner max_recursion
        allow_committe [] [] = .error e ∧ e.is_missing_auth = true := by
  induction rest generalizing result with
  | nil =>
    simp only [minimize_loop, Except.ok.injEq] at h
    subst h
    exact ⟨fun _ hx => hx, fun k hk => by simp at hk⟩
  | cons k rest ih =>
    have hnd1 := List.nodup_cons.mp hnd
    unfold minimize_loop at h
    split at h
    · obtain ⟨i1, i2⟩ := ih (flat_set_erase k result) (flat_set_erase_sorted k result hsorted)
        (fun x hx => (mem_flat_set_erase k x result).mpr
          ⟨hsub x (by simp [hx]), fun he => hnd1.1 (he ▸ hx)⟩) hnd1.2 h
      refine ⟨fun x hx => ((mem_flat_set_erase k x result).mp (i1 x hx)).1, ?_⟩
      intro k1 hk1 hR
      rcases List.mem_cons.mp hk1 with rfl | hk1
      · exact absurd rfl ((mem_flat_set_erase k1 k1 result).mp (i1 k1 hR)).2
      · exact i2 k1 hk1 hR
    · rename_i e hv
      split at h
      · rename_i hm
        rw [flat_set_insert_erase k result hsorted (hsub k (by simp))] at h
        obtain ⟨i1, i2⟩ := ih result hsorted (fun x hx => hsub x (by simp [hx])) hnd1.2 h
        refine ⟨i1, ?_⟩
        intro k1 hk1 hR
        rcases List.mem_cons.mp hk1 with rfl | hk1
        · exact ⟨result, e, i1, hv, hm⟩
        · exact i2 k1 hk1 hR
      · cases h

/-- C3 (as amended). Minimizer minimality: when every authority that `verify_authority` checks
at depth 0 for the transaction's operations is within the recursion cap (account entries nest
at most `max_recursion` levels deep and the weights of each authority total less than `2^32`),
then for every set `R` returned by `minimize_required_signatures` and every key `k` of `R`,
`verify_authority` on `R \ {k}` with no pre-approvals fails with a missing-authority error. -/
theorem minimize_required_signatures_minimal (trx : signed_transaction) (cfg : chain_config)
    (recover : signature_type → digest_type → public_key_type)
    (digest : transaction → digest_type) (allow_committe : Bool)
    (available_keys : List public_key_type)
    (get_active get_owner : account_id_type → Option authority) (max_recursion : Nat)
    (R : List public_key_type)
    (hcap : requirements_within_cap get_active get_owner max_recursion trx.operations = true)
    (hR : trx.minimize_required_signatures cfg recover digest allow_committe available_keys
      get_active get_owner max_recursion = .ok R) :
    ∀ k ∈ R, ∃ e, verify_authority cfg trx.operations (flat_set_erase k R) get_active
      get_owner max_recursion allow_committe [] [] = .error e ∧ e.is_missing_auth = true := by
  intro k hk
  unfold signed_transaction.minimize_required_signatures at hR
  split at hR
  · cases hR
  · rename_i S hS
    have hsorted := get_required_signatures_sorted trx cfg recover digest available_keys
      get_active get_owner max_recursion S hS
    obtain ⟨h1, h2⟩ := minimize_loop_minimal cfg trx.operations get_active get_owner
      max_recursion allow_committe S S R hsorted (fun _ hx => hx) hsorted.nodup hR
    obtain ⟨T, e, hT, hv, hm⟩ := h2 k (h1 k hk) hk
    have hgate : ¬(allow_committe = false ∧
        cfg.GRAPHENE_COMMITTEE_ACCOUNT ∈ (get_required_authorities trx.operations).1) := by
      intro hg
      rw [verify_authority_gate cfg trx.operations _ get_active get_owner max_recursion
        allow_committe [] [] hg] at hv
      cases hv
      cases hm
    have hT0 : requirements_satisfied get_active get_owner (flat_set_erase k T)
        (verify_approved cfg [] []) [] true max_recursion trx.operations = false := by
      by_contra hn
      rcases (verify_authority_sem cfg trx.operations (flat_set_erase k T) get_active get_owner
        max_recursion allow_committe [] [] hgate hcap).1 (by simpa using hn) with h3 | h3
      · rw [hv] at h3
        cases h3
      · rw [hv] at h3
        cases h3
        cases hm
    have hR0 : requirements_satisfied get_active get_owner (flat_set_erase k R)
        (verify_approved cfg [] []) [] true max_recursion trx.operations = false := by
      by_contra hn
      have := requirements_satisfied_mono get_active get_owner (flat_set_erase k R)
        (flat_set_erase k T) (verify_approved cfg [] []) [] true max_recursion trx.operations
        (fun x hx => by
          rw [mem_flat_set_erase] at hx ⊢
          exact ⟨hT x hx.1, hx.2⟩) (by simpa using hn)
      rw [hT0] at this
      cases this
    exact (verify_authority_sem cfg trx.operations (flat_set_erase k R) get_active get_owner
      max_recursion allow_committe [] [] hgate hcap).2 hR0

/-- C3 fails as stated. With available keys `{1, 2}` and `max_recursion = 1` the starting set
is `{1, 2}`. The probe without key 1 fails (`{2}` approves account 10 by key, account 20 never
enters `approved_by`, and account 30 then meets it at the cap), so key 1 is kept; the probe
without key 2 succeeds, so key 2 is removed. The result is `{1}`, yet `verify_authority`
succeeds on `{1} \ {1} = {}`. -/
theorem minimize_minimal_counterexample :
    example_trx_two.minimize_required_signatures example_config (fun sig _ => sig)
      (fun _ => 0) false [1, 2] minimal_example_active (fun _ => none) 1 = .ok [1] ∧
    verify_authority example_config example_trx_two.operations (flat_set_erase 1 [1])
      minimal_example_active (fun _ => none) 1 false [] [] = .ok () := by
  exact ⟨rfl, rfl⟩

theorem minimize_required_signatures_minimal_witness :
    ∃ e, verify_authority example_config example_trx.operations
      (flat_set_erase 1 [1]) owner_example_active (fun _ => none) 2 false [] [] = .error e ∧
      e.is_missing_auth = true :=
  minimize_required_signatures_minimal example_trx example_config (fun sig _ => sig)
    (fun _ => 0) false [1] owner_example_active (fun _ => none) 2 [1] rfl rfl 1
    (List.mem_singleton.mpr rfl)

/-! ## The keys marked used witness the satisfaction that `check_authority` reports -/

theorem mem_used_keys (s : sign_state) (k : public_key_type) :
    k ∈ used_keys s ↔ (k, true) ∈ s.provided_signatures := by
  simp only [used_keys, List.mem_map, List.mem_filter]
  constructor
  · rintro ⟨⟨k1, v⟩, ⟨hm, hv⟩, rfl⟩
    simp only at hv
    subst hv
    exact hm
  · intro h
    exact ⟨(k, true), ⟨h, rfl⟩, rfl⟩

theorem mem_flat_map_set (k : public_key_type) (v : Bool) (m : List (public_key_type × Bool))
    (e : public_key_type × Bool) (h : e ∈ flat_map_set k v m) : e = (k, v) ∨ e ∈ m := by
  induction m with
  | nil => simpa [flat_map_set] using h
  | cons e1 rest ih =>
    obtain ⟨k1, v1⟩ := e1
    unfold flat_map_set at h
    split at h
    · simpa using h
    · split at h
      · rcases List.mem_cons.mp h with h | h
        · exact Or.inl h
        · exact Or.inr (List.mem_cons_of_mem _ h)
      · rcases List.mem_cons.mp h with h | h
        · exact Or.inr (by simp [h])
        · rcases ih h with h | h
          · exact Or.inl h
          · exact Or.inr (List.mem_cons_of_mem _ h)

theorem mem_flat_map_set_self (k : public_key_type) (v : Bool)
    (m : List (public_key_type × Bool)) : (k, v) ∈ flat_map_set k v m := by
  induction m with
  | nil => simp [flat_map_set]
  | cons e1 rest ih =>
    obtain ⟨k1, v1⟩ := e1
    unfold flat_map_set
    split
    · simp
    · split
      · simp
      · exact List.mem_cons_of_mem _ ih

theorem mem_flat_map_set_of_mem (k : public_key_type) (m : List (public_key_type × Bool))
    (x : public_key_type) (h : (x, true) ∈ m) : (x, true) ∈ flat_map_set k true m := by
  induction m with
  | nil => simp at h
  | cons e1 rest ih =>
    obtain ⟨k1, v1⟩ := e1
    unfold flat_map_set
    split
    · exact List.mem_cons_of_mem _ h
    · split
      · rename_i hk
        rcases List.mem_cons.mp h with h | h
        · injection h with h1 h2
          subst h1 h2 hk
          simp
        · exact List.mem_cons_of_mem _ h
      · rcases List.mem_cons.mp h with h | h
        · simp [h]
        · exact List.mem_cons_of_mem _ (ih h)

theorem used_keys_signed_by (s : sign_state) (k x : public_key_type) (h : x ∈ used_keys s) :
    x ∈ used_keys (s.signed_by k).2 := by
  rw [mem_used_keys] at h ⊢
  rw [signed_by_eq]
  split
  · exact mem_flat_map_set_of_mem k _ x h
  · exact h

/-- The used keys only grow during `check_authority`. -/
theorem used_keys_check_authority_fuel (get_active : account_id_type → Option authority)
    (fuel : Nat) (au : Option authority) (depth : Nat) (s : sign_state) (x : public_key_type)
    (h : x ∈ used_keys s) :
    x ∈ used_keys (check_authority_fuel get_active fuel au depth s).2 :=
  check_authority_fuel_preserves (fun s1 => x ∈ used_keys s1) (fun _ => True)
    (fun s1 k _ h1 => used_keys_signed_by s1 k x h1) (fun _ _ h1 => h1) get_active
    (fun _ _ _ _ _ => trivial) fuel au depth s (fun _ _ _ _ => trivial) h

theorem used_inv_mono (get_active : account_id_type → Option authority)
    (approved : List account_id_type) (s s1 : sign_state)
    (hk : ∀ x ∈ used_keys s, x ∈ used_keys s1) (ha : s1.approved_by = s.approved_by)
    (h : used_inv get_active approved s) : used_inv get_active approved s1 := by
  intro a ha1
  rw [ha] at ha1
  rcases h a ha1 with h1 | ⟨au1, m, hg, hc, hs⟩
  · exact Or.inl h1
  · exact Or.inr ⟨au1, m, hg, hc, satisfied_mono get_active _ _ approved hk m au1 hs⟩

theorem add_weight_le (tw w : Nat) : add_weight tw w ≤ tw + w :=
  Nat.mod_le _ _

/-- The key loop: the used keys grow, `approved_by` is untouched, the total is covered by
the weights of the used keys, and a `true` answer means the total reached the threshold. -/
theorem check_keys_used (threshold : Nat) (l : List (public_key_type × Nat)) (tw : Nat)
    (s : sign_state) :
    (∀ x ∈ used_keys s, x ∈ used_keys (check_keys threshold l tw s).2.2) ∧
    (check_keys threshold l tw s).2.2.approved_by = s.approved_by ∧
    (check_keys threshold l tw s).2.1 ≤
      tw + signed_weight (used_keys (check_keys threshold l tw s).2.2) l ∧
    (∀ b, (check_keys threshold l tw s).1 = some b →
      b = true ∧ threshold ≤ (check_keys threshold l tw s).2.1) := by
  induction l generalizing tw s with
  | nil => simp [check_keys]
  | cons e rest ih =>
    obtain ⟨k, w⟩ := e
    by_cases hk : s.signable k
    · have hmem : k ∈ used_keys (s.signed_by k).2 := by
        rw [mem_used_keys, signed_by_true s k hk]
        exact mem_flat_map_set_self k true _
      have hgrow : ∀ x ∈ used_keys s, x ∈ used_keys (s.signed_by k).2 :=
        fun x hx => used_keys_signed_by s k x hx
      have happ : (s.signed_by k).2.approved_by = s.approved_by := by
        rw [signed_by_true s k hk]
      rw [signed_by_true s k hk] at hmem hgrow happ
      simp only [check_keys, signed_by_true s k hk]
      have hle := add_weight_le tw w
      split
      · rename_i hge
        refine ⟨hgrow, happ, ?_, fun b hb => ?_⟩
        · show add_weight tw w ≤ tw + signed_weight (used_keys _) ((k, w) :: rest)
          rw [signed_weight_cons, if_pos hmem]
          omega
        · simp only [Option.some.injEq] at hb
          exact ⟨hb.symm, hge⟩
      · obtain ⟨i1, i2, i3, i4⟩ := ih (add_weight tw w)
          { s with provided_signatures := flat_map_set k true s.provided_signatures }
        refine ⟨fun x hx => i1 x (hgrow x hx), by rw [i2], ?_, i4⟩
        rw [signed_weight_cons, if_pos (i1 k hmem)]
        omega
    · simp only [check_keys, signed_by_false s k hk]
      obtain ⟨i1, i2, i3, i4⟩ := ih tw s
      refine ⟨i1, i2, ?_, i4⟩
      rw [signed_weight_cons]
      split <;> omega

theorem account_approved_of_used_inv (get_active : account_id_type → Option authority)
    (approved : List account_id_type) (n : Nat) (s : sign_state)
    (hinv : used_inv get_active approved s) (a : account_id_type) (ha : a ∈ s.approved_by)
    (hcap : within_cap_opt get_active n (get_active a) = true) :
    account_approved get_active (used_keys s) approved n a = true := by
  unfold account_approved
  rw [Bool.or_eq_true]
  rcases hinv a ha with h | ⟨au1, m, hg, hc, hsat⟩
  · exact Or.inl (by simpa using h)
  · right
    rw [hg] at hcap ⊢
    simp only [within_cap_opt] at hcap
    simp only
    rw [satisfied_of_within_cap get_active _ approved n m au1 hcap hc]
    exact hsat

/-- The account loop: the invariant is kept, the used keys grow, and a `true` answer means
that the total on entry and the weights of the accounts approved through the used keys reach
the threshold. -/
theorem check_accounts_used (get_active : account_id_type → Option authority)
    (approved : List account_id_type) (n : Nat)
    (recurse : Option authority → sign_state → Bool × sign_state) (threshold depth : Nat)
    (hrec : ∀ a s, used_inv get_active approved s →
      within_cap_opt get_active n (get_active a) = true →
      used_inv get_active approved (recurse (get_active a) s).2 ∧
      (∀ x ∈ used_keys s, x ∈ used_keys (recurse (get_active a) s).2) ∧
      ((recurse (get_active a) s).1 = true →
        satisfied_opt get_active (used_keys (recurse (get_active a) s).2) approved n
          (get_active a) = true))
    (l : List (account_id_type × Nat))
    (hl : ∀ aw ∈ l, within_cap_opt get_active n (get_active aw.1) = true)
    (tw : Nat) (s : sign_state) (hinv : used_inv get_active approved s) :
    used_inv get_active approved
      (check_accounts recurse get_active threshold depth l tw s).2 ∧
    (∀ x ∈ used_keys s,
      x ∈ used_keys (check_accounts recurse get_active threshold depth l tw s).2) ∧
    ((check_accounts recurse get_active threshold depth l tw s).1 = true →
      threshold ≤ tw + account_weight (account_approved get_active
        (used_keys (check_accounts recurse get_active threshold depth l tw s).2) approved n)
        l) := by
  induction l generalizing tw s with
  | nil =>
    refine ⟨hinv, fun _ hx => hx, ?_⟩
    simp [check_accounts, account_weight]
  | cons e rest ih =>
    obtain ⟨a, w⟩ := e
    have hcap := hl (a, w) (by simp)
    have hl1 : ∀ aw ∈ rest, within_cap_opt get_active n (get_active aw.1) = true :=
      fun aw haw => hl aw (by simp [haw])
    have hle := add_weight_le tw w
    unfold check_accounts
    by_cases hap : a ∈ s.approved_by
    · have happ := account_approved_of_used_inv get_active approved n s hinv a hap hcap
      simp only [hap, not_true_eq_false, if_false]
      split
      · refine ⟨hinv, fun _ hx => hx, fun _ => ?_⟩
        rw [account_weight_cons, if_pos happ]
        omega
      · obtain ⟨i1, i2, i3⟩ := ih hl1 (add_weight tw w) s hinv
        refine ⟨i1, i2, fun h => ?_⟩
        have := i3 h
        rw [account_weight_cons, if_pos (account_approved_mono get_active _ _ approved i2 n a
          happ)]
        omega
    · simp only [hap, not_false_eq_true, if_true]
      split
      · refine ⟨hinv, fun _ hx => hx, fun h => by cases h⟩
      · obtain ⟨r1, r2, r3⟩ := hrec a s hinv hcap
        cases hc : recurse (get_active a) s with
        | mk b s1 =>
          rw [hc] at r1 r2 r3
          simp only at r1 r2 r3
          cases b
          · simp only
            obtain ⟨i1, i2, i3⟩ := ih hl1 tw s1 r1
            refine ⟨i1, fun x hx => i2 x (r2 x hx), fun h => ?_⟩
            have := i3 h
            rw [account_weight_cons]
            split <;> omega
          · simp only
            have hsat := r3 rfl
            have happ1 : account_approved get_active (used_keys s1) approved n a = true := by
              unfold account_approved
              rw [Bool.or_eq_true]
              right
              unfold satisfied_opt at hsat
              exact hsat
            have hinv2 : used_inv get_active approved
                { s1 with approved_by := flat_set_insert a s1.approved_by } := by
              intro x hx
              rcases (mem_flat_set_insert a x _).mp hx with rfl | hx
              · right
                cases hg : get_active x with
                | none => rw [hg] at hsat; simp [satisfied_opt] at hsat
                | some au1 =>
                  rw [hg] at hsat hcap
                  exact ⟨au1, n, rfl, hcap, hsat⟩
              · exact r1 x hx
            split
            · refine ⟨hinv2, r2, fun _ => ?_⟩
              show threshold ≤ tw + account_weight (account_approved get_active (used_keys s1)
                approved n) ((a, w) :: rest)
              rw [account_weight_cons, if_pos happ1]
              omega
            · obtain ⟨i1, i2, i3⟩ := ih hl1 (add_weight tw w) _ hinv2
              refine ⟨i1, fun x hx => i2 x (r2 x hx), fun h => ?_⟩
              have := i3 h
              rw [account_weight_cons, if_pos (account_approved_mono get_active _ _ approved
                i2 n a happ1)]
              omega

/-- For an authority within the cap, `check_authority` keeps the invariant, only adds used
keys, and answers `true` only if the keys marked used at its end satisfy the authority. -/
theorem check_authority_fuel_used (get_active : account_id_type → Option authority)
    (approved : List account_id_type) (n : Nat) (au : authority) (d : Nat) (s : sign_state)
    (hinv : used_inv get_active approved s) (hcap : within_cap get_active n au = true) :
    used_inv get_active approved (check_authority_fuel get_active (n + 1) (some au) d s).2 ∧
    (∀ x ∈ used_keys s,
      x ∈ used_keys (check_authority_fuel get_active (n + 1) (some au) d s).2) ∧
    ((check_authority_fuel get_active (n + 1) (some au) d s).1 = true →
      satisfied get_active
        (used_keys (check_authority_fuel get_active (n + 1) (some au) d s).2) approved n au =
        true) := by
  induction n generalizing au d s with
  | zero =>
    simp only [within_cap, Bool.and_eq_true, List.isEmpty_iff] at hcap
    obtain ⟨k1, k2, k3, k4⟩ := check_keys_used au.weight_threshold au.key_auths 0 s
    have hinv1 := used_inv_mono get_active approved s _ k1 k2 hinv
    unfold check_authority_fuel
    cases hc : check_keys au.weight_threshold au.key_auths 0 s with
    | mk r rest =>
      obtain ⟨tw, s1⟩ := rest
      rw [hc] at k1 k2 k3 k4 hinv1
      simp only at k1 k2 k3 k4 hinv1
      cases r with
      | some b =>
        obtain ⟨hb, hge⟩ := k4 b rfl
        subst hb
        refine ⟨hinv1, k1, fun _ => ?_⟩
        simp only [satisfied, decide_eq_true_eq]
        omega
      | none =>
        simp only [hcap.2, check_accounts]
        refine ⟨hinv1, k1, fun h => ?_⟩
        simp only [ge_iff_le, decide_eq_true_eq] at h
        simp only [satisfied, decide_eq_true_eq]
        omega
  | succ n ih =>
    obtain ⟨k1, k2, k3, k4⟩ := check_keys_used au.weight_threshold au.key_auths 0 s
    have hinv1 := used_inv_mono get_active approved s _ k1 k2 hinv
    unfold check_authority_fuel
    cases hc : check_keys au.weight_threshold au.key_auths 0 s with
    | mk r rest =>
      obtain ⟨tw, s1⟩ := rest
      rw [hc] at k1 k2 k3 k4 hinv1
      simp only at k1 k2 k3 k4 hinv1
      cases r with
      | some b =>
        obtain ⟨hb, hge⟩ := k4 b rfl
        subst hb
        refine ⟨hinv1, k1, fun _ => ?_⟩
        rw [satisfied_succ, decide_eq_true_eq]
        show au.weight_threshold ≤ signed_weight (used_keys s1) au.key_auths + _
        omega
      | none =>
        simp only
        obtain ⟨a1, a2, a3⟩ := check_accounts_used get_active approved n
          (fun au1 s2 => check_authority_fuel get_active (n + 1) au1 (d + 1) s2)
          au.weight_threshold d
          (fun a s2 hi hc2 => by
            cases hg : get_active a with
            | none =>
              exact ⟨by simpa [check_authority_fuel] using hi, fun _ hx => by
                simpa [check_authority_fuel] using hx, fun h => by
                simp [check_authority_fuel] at h⟩
            | some au1 =>
              rw [hg] at hc2
              exact ih au1 (d + 1) s2 hi hc2)
          au.account_auths (fun aw haw => within_cap_succ_mem get_active n au hcap aw haw)
          tw s1 hinv1
        refine ⟨a1, fun x hx => a2 x (k1 x hx), fun h => ?_⟩
        have h3 := a3 h
        rw [satisfied_succ, decide_eq_true_eq]
        have := signed_weight_mono (used_keys s1) _ au.key_auths (fun kw _ hkw => a2 _ hkw)
        omega

theorem check_authority_used (get_active : account_id_type → Option authority)
    (approved : List account_id_type) (M : Nat) (au : Option authority) (s : sign_state)
    (hM : s.max_recursion = M) (hinv : used_inv get_active approved s)
    (hcap : within_cap_opt get_active M au = true) :
    used_inv get_active approved (s.check_authority get_active au 0).2 ∧
    (∀ x ∈ used_keys s, x ∈ used_keys (s.check_authority get_active au 0).2) ∧
    ((s.check_authority get_active au 0).1 = true →
      satisfied_opt get_active (used_keys (s.check_authority get_active au 0).2) approved M au =
        true) := by
  cases au with
  | none =>
    rw [check_authority_none]
    exact ⟨hinv, fun _ hx => hx, fun h => by cases h⟩
  | some auth =>
    unfold sign_state.check_authority
    rw [hM, Nat.sub_zero]
    exact check_authority_fuel_used get_active approved M auth 0 s hinv hcap

theorem check_authority_id_used (get_active : account_id_type → Option authority)
    (approved : List account_id_type) (M : Nat) (id : account_id_type) (s : sign_state)
    (hM : s.max_recursion = M) (hinv : used_inv get_active approved s)
    (hcap : within_cap_opt get_active M (get_active id) = true) :
    used_inv get_active approved (s.check_authority_id get_active id).2 ∧
    (∀ x ∈ used_keys s, x ∈ used_keys (s.check_authority_id get_active id).2) ∧
    ((s.check_authority_id get_active id).1 = true →
      account_approved get_active (used_keys (s.check_authority_id get_active id).2) approved
        M id = true) := by
  unfold sign_state.check_authority_id
  split
  · rename_i hap
    exact ⟨hinv, fun _ hx => hx, fun _ =>
      account_approved_of_used_inv get_active approved M s hinv id hap hcap⟩
  · obtain ⟨h1, h2, h3⟩ := check_authority_used get_active approved M (get_active id) s hM hinv
      hcap
    refine ⟨h1, h2, fun h => ?_⟩
    have := h3 h
    unfold account_approved
    rw [Bool.or_eq_true]
    right
    unfold satisfied_opt at this
    exact this

theorem probe_step (get_active : account_id_type → Option authority)
    (available : List public_key_type) (approved : List account_id_type) (M : Nat)
    (au : Option authority) (s : sign_state)
    (hinv : probe_inv get_active available approved M s)
    (hcap : within_cap_opt get_active M au = true)
    (hsat : satisfied_opt get_active available approved M au = true) :
    probe_inv get_active available approved M (s.check_authority get_active au 0).2 ∧
    (∀ x ∈ used_keys s, x ∈ used_keys (s.check_authority get_active au 0).2) ∧
    satisfied_opt get_active (used_keys (s.check_authority get_active au 0).2) approved M au =
      true := by
  obtain ⟨e1, e2⟩ := check_authority_sem get_active available approved M au s hinv.1 hcap
  obtain ⟨u1, u2, u3⟩ := check_authority_used get_active approved M au s hinv.1.1 hinv.2 hcap
  exact ⟨⟨e2, u1⟩, u2, u3 (by rw [e1, hsat])⟩

theorem probe_step_id (get_active : account_id_type → Option authority)
    (available : List public_key_type) (approved : List account_id_type) (M : Nat)
    (id : account_id_type) (s : sign_state)
    (hinv : probe_inv get_active available approved M s)
    (hcap : within_cap_opt get_active M (get_active id) = true)
    (hsat : account_approved get_active available approved M id = true) :
    probe_inv get_active available approved M (s.check_authority_id get_active id).2 ∧
    (∀ x ∈ used_keys s, x ∈ used_keys (s.check_authority_id get_active id).2) ∧
    account_approved get_active (used_keys (s.check_authority_id get_active id).2) approved M
      id = true := by
  obtain ⟨e1, e2⟩ := check_authority_id_sem get_active available approved M id s hinv.1 hcap
  obtain ⟨u1, u2, u3⟩ := check_authority_id_used get_active approved M id s hinv.1.1 hinv.2 hcap
  exact ⟨⟨e2, u1⟩, u2, u3 (by rw [e1, hsat])⟩

/-- A probing loop of `get_required_signatures` over items whose authority `f item` is within
the cap and satisfied by the available keys: at its end the used keys satisfy every one of
these authorities. -/
theorem probe_loop {α : Type} (get_active : account_id_type → Option authority)
    (available : List public_key_type) (approved : List account_id_type) (M : Nat)
    (f : α → Option authority) (l : List α)
    (hl : ∀ x ∈ l, within_cap_opt get_active M (f x) = true ∧
      satisfied_opt get_active available approved M (f x) = true)
    (s : sign_state) (hinv : probe_inv get_active available approved M s) :
    probe_inv get_active available approved M
      (l.foldl (fun st x => (st.check_authority get_active (f x) 0).2) s) ∧
    (∀ k ∈ used_keys s,
      k ∈ used_keys (l.foldl (fun st x => (st.check_authority get_active (f x) 0).2) s)) ∧
    ∀ x ∈ l, satisfied_opt get_active
      (used_keys (l.foldl (fun st x => (st.check_authority get_active (f x) 0).2) s))
      approved M (f x) = true := by
  induction l generalizing s with
  | nil => exact ⟨hinv, fun _ hk => hk, by simp⟩
  | cons x rest ih =>
    obtain ⟨p1, p2, p3⟩ := probe_step get_active available approved M (f x) s hinv
      (hl x (by simp)).1 (hl x (by simp)).2
    obtain ⟨i1, i2, i3⟩ := ih (fun y hy => hl y (by simp [hy])) _ p1
    simp only [List.foldl_cons]
    refine ⟨i1, fun k hk => i2 k (p2 k hk), fun y hy => ?_⟩
    rcases List.mem_cons.mp hy with rfl | hy
    · exact satisfied_opt_mono get_active _ _ approved i2 M _ p3
    · exact i3 y hy

theorem probe_loop_id (get_active : account_id_type → Option authority)
    (available : List public_key_type) (approved : List account_id_type) (M : Nat)
    (l : List account_id_type)
    (hl : ∀ id ∈ l, within_cap_opt get_active M (get_active id) = true ∧
      account_approved get_active available approved M id = true)
    (s : sign_state) (hinv : probe_inv get_active available approved M s) :
    probe_inv get_active available approved M
      (l.foldl (fun st id => (st.check_authority_id get_active id).2) s) ∧
    (∀ k ∈ used_keys s,
      k ∈ used_keys (l.foldl (fun st id => (st.check_authority_id get_active id).2) s)) ∧
    ∀ id ∈ l, account_approved get_active
      (used_keys (l.foldl (fun st id => (st.check_authority_id get_active id).2) s))
      approved M id = true := by
  induction l generalizing s with
  | nil => exact ⟨hinv, fun _ hk => hk, by simp⟩
  | cons x rest ih =>
    obtain ⟨p1, p2, p3⟩ := probe_step_id get_active available approved M x s hinv
      (hl x (by simp)).1 (hl x (by simp)).2
    obtain ⟨i1, i2, i3⟩ := ih (fun y hy => hl y (by simp [hy])) _ p1
    simp only [List.foldl_cons]
    refine ⟨i1, fun k hk => i2 k (p2 k hk), fun y hy => ?_⟩
    rcases List.mem_cons.mp hy with rfl | hy
    · exact account_approved_mono get_active _ _ approved i2 M _ p3
    · exact i3 y hy

/-! ## `get_required_signatures` names enough keys -/

theorem flat_map_find_isSome_of_mem (m : List (public_key_type × Bool))
    (e : public_key_type × Bool) (he : e ∈ m) : (flat_map_find e.1 m).isSome = true := by
  induction m with
  | nil => simp at he
  | cons e1 rest ih =>
    obtain ⟨k1, v1⟩ := e1
    simp only [flat_map_find]
    split
    · rfl
    · rcases List.mem_cons.mp he with rfl | he
      · simp at *
      · exact ih he

theorem mem_foldl_flat_set_insert_fst (xs : List (public_key_type × Bool)) (l : List Nat)
    (y : Nat) :
    y ∈ xs.foldl (fun result e => flat_set_insert e.1 result) l ↔
      (∃ e ∈ xs, e.1 = y) ∨ y ∈ l := by
  induction xs generalizing l with
  | nil => simp
  | cons x xs ih =>
    simp only [List.foldl_cons, ih, mem_flat_set_insert, List.mem_cons, exists_eq_or_imp]
    generalize (∃ a ∈ xs, a.1 = y) = E
    constructor
    · rintro (h | h | h)
      · exact Or.inl (Or.inr h)
      · exact Or.inl (Or.inl h.symm)
      · exact Or.inr h
    · rintro ((h | h) | h)
      · exact Or.inr (Or.inl h.symm)
      · exact Or.inl h
      · exact Or.inr (Or.inr h)

theorem all_used_check_authority_fuel (get_active : account_id_type → Option authority)
    (fuel : Nat) (au : Option authority) (depth : Nat) (s : sign_state) (h : all_used s) :
    all_used (check_authority_fuel get_active fuel au depth s).2 :=
  check_authority_fuel_preserves all_used (fun _ => True)
    (fun s1 k _ h1 => by
      rw [signed_by_eq]
      split
      · intro e he
        rcases mem_flat_map_set k true _ e he with rfl | he
        · rfl
        · exact h1 e he
      · exact h1) (fun _ _ h1 => h1) get_active
    (fun _ _ _ _ _ => trivial) fuel au depth s (fun _ _ _ _ => trivial) h

theorem all_used_required_signatures_state
    (get_active get_owner : account_id_type → Option authority)
    (required : List account_id_type × List account_id_type × List authority)
    (s : sign_state) (h : all_used s) :
    all_used (required_signatures_state get_active get_owner required s) := by
  have hfold : ∀ {α : Type} (g : sign_state → α → sign_state) (l : List α) (s : sign_state),
      (∀ st x, all_used st → all_used (g st x)) → all_used s → all_used (l.foldl g s) := by
    intro α g l
    induction l with
    | nil => intro s _ hs; exact hs
    | cons x rest ih => intro s hg hs; exact ih (g s x) hg (hg s x hs)
  unfold required_signatures_state
  refine hfold _ _ _ (fun st id hst => ?_) (hfold _ _ _ (fun st id hst => ?_)
    (hfold _ _ _ (fun st auth hst => ?_) h))
  · unfold sign_state.check_authority_id
    split
    · exact hst
    · exact all_used_check_authority_fuel _ _ _ _ _ hst
  · exact all_used_check_authority_fuel _ _ _ _ _ hst
  · exact all_used_check_authority_fuel _ _ _ _ _ hst

theorem remove_unused_signatures_all_used (s : sign_state) (h : all_used s) :
    s.remove_unused_signatures.2 = s := by
  have : s.provided_signatures.filter (fun sig => !sig.2) = [] := by
    rw [List.filter_eq_nil_iff]
    intro e he
    simp [h e he]
  simp [sign_state.remove_unused_signatures, this]

/-- C9 (as amended). `get_required_signatures` names enough keys: for a transaction with no
existing signatures whose requirements are within the recursion cap (account entries nest at
most `max_recursion` levels deep, authority weights total less than `2^32`), if some subset `S`
of `available_keys` satisfies every ad-hoc authority, the owner authority of every
required-owner account and the active authority of every required-active account, then
`get_required_signatures` returns a set on which `verify_authority` does not fail with a
missing-authority error. -/
theorem get_required_signatures_enough (trx : signed_transaction) (cfg : chain_config)
    (recover : signature_type → digest_type → public_key_type)
    (digest : transaction → digest_type) (allow_committe : Bool)
    (available_keys S : List public_key_type)
    (get_active get_owner : account_id_type → Option authority) (max_recursion_depth : Nat)
    (hsig : trx.signatures = [])
    (hcap : requirements_within_cap get_active get_owner max_recursion_depth trx.operations =
      true)
    (hS : ∀ k ∈ S, k ∈ available_keys)
    (hsat : requirements_satisfied get_active get_owner S (verify_approved cfg [] []) [] false
      max_recursion_depth trx.operations = true) :
    ∃ R, trx.get_required_signatures cfg recover digest available_keys get_active get_owner
        max_recursion_depth = .ok R ∧
      ∀ e, verify_authority cfg trx.operations R get_active get_owner max_recursion_depth
        allow_committe [] [] = .error e → e.is_missing_auth = false := by
  have hkeys : trx.get_signature_keys recover digest = .ok [] := by
    simp [signed_transaction.get_signature_keys, hsig, get_signature_keys_loop]
  obtain ⟨c1, c2, c3⟩ := (requirements_within_cap_iff get_active get_owner max_recursion_depth
    trx.operations).mp hcap
  obtain ⟨q1, q2, q3⟩ := (requirements_satisfied_iff get_active get_owner available_keys
    (verify_approved cfg [] []) [] false max_recursion_depth trx.operations).mp
    (requirements_satisfied_mono get_active get_owner S available_keys _ _ _ _ _ hS hsat)
  -- the sign-state of the probing run
  have hinv0 : probe_inv get_active available_keys (verify_approved cfg [] [])
      max_recursion_depth
      { sign_state.init cfg [] available_keys with max_recursion := max_recursion_depth } := by
    refine ⟨⟨rfl, fun k => ?_, fun _ h => h, fun _ h => Or.inl h⟩, fun _ h => Or.inl h⟩
    simp [sign_state.signable, sign_state.init, flat_map_find]
  obtain ⟨p1, _, s1⟩ := probe_loop get_active available_keys (verify_approved cfg [] [])
    max_recursion_depth some (get_required_authorities trx.operations).2.2
    (fun au hau => ⟨c1 au hau, q1 au hau⟩) _ hinv0
  obtain ⟨p2, g2, s2⟩ := probe_loop get_active available_keys (verify_approved cfg [] [])
    max_recursion_depth get_owner (get_required_authorities trx.operations).2.1
    (fun id hid => ⟨c3 id hid, by
      rcases q3 id hid with h | h
      · simp at h
      · exact h⟩) _ p1
  obtain ⟨p3, g3, s3⟩ := probe_loop_id get_active available_keys (verify_approved cfg [] [])
    max_recursion_depth (get_required_authorities trx.operations).1
    (fun id hid => ⟨(c2 id hid).1, by
      rcases q2 id hid with h | ⟨h, _⟩
      · exact h
      · cases h⟩) _ p2
  have hused := all_used_required_signatures_state get_active get_owner
    (get_required_authorities trx.operations)
    { sign_state.init cfg [] available_keys with max_recursion := max_recursion_depth }
    (by intro e he; simp [sign_state.init] at he)
  have hrem := remove_unused_signatures_all_used _ hused
  unfold signed_transaction.get_required_signatures
  rw [hkeys]
  simp only
  rw [hrem]
  refine ⟨_, rfl, ?_⟩
  -- the keys marked used are among the returned keys
  have hsub : ∀ k ∈ used_keys (required_signatures_state get_active get_owner
      (get_required_authorities trx.operations)
      { sign_state.init cfg [] available_keys with max_recursion := max_recursion_depth }),
      k ∈ ((required_signatures_state get_active get_owner
        (get_required_authorities trx.operations)
        { sign_state.init cfg [] available_keys with
          max_recursion := max_recursion_depth }).provided_signatures.filter
          (fun provided_sig => provided_sig.1 ∈ available_keys)).foldl
        (fun result provided_sig => flat_set_insert provided_sig.1 result) [] := by
    intro k hk
    rw [mem_foldl_flat_set_insert_fst]
    left
    rw [mem_used_keys] at hk
    refine ⟨(k, true), List.mem_filter.mpr ⟨hk, ?_⟩, rfl⟩
    have hsome := flat_map_find_isSome_of_mem _ _ hk
    have : (required_signatures_state get_active get_owner
        (get_required_authorities trx.operations)
        { sign_state.init cfg [] available_keys with
          max_recursion := max_recursion_depth }).signable k := Or.inl hsome
    simpa using (p3.1.2.1 k).mp this
  have hfinal : requirements_satisfied get_active get_owner _ (verify_approved cfg [] []) []
      true max_recursion_depth trx.operations = true :=
    requirements_satisfied_mono get_active get_owner _ _ _ _ _ _ _ hsub
      ((requirements_satisfied_iff get_active get_owner _ (verify_approved cfg [] []) [] true
        max_recursion_depth trx.operations).mpr
        ⟨fun au hau => satisfied_opt_mono get_active _ _ _ (fun k hk => g3 k (g2 k hk)) _ _
            (s1 au hau),
          fun id hid => Or.inl (s3 id hid),
          fun id hid => Or.inr (satisfied_opt_mono get_active _ _ _ g3 _ _ (s2 id hid))⟩)
  intro e he
  by_cases hgate : allow_committe = false ∧
      cfg.GRAPHENE_COMMITTEE_ACCOUNT ∈ (get_required_authorities trx.operations).1
  · rw [verify_authority_gate cfg trx.operations _ get_active get_owner max_recursion_depth
      allow_committe [] [] hgate] at he
    cases he
    rfl
  · rcases (verify_authority_sem cfg trx.operations _ get_active get_owner max_recursion_depth
      allow_committe [] [] hgate hcap).1 hfinal with h | h
    · rw [h] at he
      cases he
    · rw [h] at he
      cases he
      rfl

/-- C9 fails as stated. For the operations requiring the active authorities of accounts 10
and 11 (authorities of `cache_example_active`, `max_recursion = 1`) the subset `{1}` of the
available keys `{1, 2}` makes `verify_authority` succeed, but `get_required_signatures` probes
with both keys accepted: account 10 is approved by key 2 before account 20 is looked at, the
check of account 11 then fails at the cap, only key 2 is marked used, and the returned set
`{2}` fails `verify_authority` with `tx missing active auth`. -/
theorem get_required_signatures_counterexample :
    (1 : public_key_type) ∈ [1, 2] ∧
    verify_authority example_config example_trx_two.operations [1] cache_example_active
      (fun _ => none) 1 false [] [] = .ok () ∧
    example_trx_two.get_required_signatures example_config (fun sig _ => sig) (fun _ => 0)
      [1, 2] cache_example_active (fun _ => none) 1 = .ok [2] ∧
    verify_authority example_config example_trx_two.operations [2] cache_example_active
      (fun _ => none) 1 false [] [] = .error (.tx_missing_active_auth 11) := by
  refine ⟨by decide, rfl, rfl, rfl⟩

theorem get_required_signatures_enough_witness :
    ∃ R, example_trx.get_required_signatures example_config (fun sig _ => sig) (fun _ => 0)
        [1] owner_example_active (fun _ => none) 2 = .ok R ∧
      ∀ e, verify_authority example_config example_trx.operations R owner_example_active
        (fun _ => none) 2 false [] [] = .error e → e.is_missing_auth = false :=
  get_required_signatures_enough example_trx example_config (fun sig _ => sig) (fun _ => 0)
    false [1] [1] owner_example_active (fun _ => none) 2 rfl rfl (fun _ h => h) rfl

/-- The probing loop of `get_required_signatures` checks a required-active account against
its active authority only, while `verify_authority` also accepts its owner authority: for
account 10 with no active authority and owner authority `{1, {key 1 : 1}}`, the key set `{1}`
verifies, yet `get_required_signatures` with key 1 available returns the empty set, which
fails with `tx missing active auth`. -/
theorem get_required_signatures_owner_fallback :
    verify_authority example_config example_trx.operations [1] (fun _ => none)
      owner_only_example 2 false [] [] = .ok () ∧
    example_trx.get_required_signatures example_config (fun sig _ => sig) (fun _ => 0)
      [1] (fun _ => none) owner_only_example 2 = .ok [] ∧
    verify_authority example_config example_trx.operations [] (fun _ => none)
      owner_only_example 2 false [] [] = .error (.tx_missing_active_auth 10) := by
  exact ⟨rfl, rfl, rfl⟩

/-! ## The levels granted by `check_authority` are never used up -/

theorem check_accounts_congr (recurse1 recurse2 : Option authority → sign_state → Bool × sign_state)
    (get_active : account_id_type → Option authority) (threshold depth M : Nat)
    (h1 : ∀ au s, s.max_recursion = M → depth ≠ M → recurse1 au s = recurse2 au s)
    (h2 : ∀ au s, (recurse2 au s).2.max_recursion = s.max_recursion)
    (l : List (account_id_type × Nat)) (tw : Nat) (s : sign_state) (hs : s.max_recursion = M) :
    check_accounts recurse1 get_active threshold depth l tw s =
      check_accounts recurse2 get_active threshold depth l tw s := by
  induction l generalizing tw s with
  | nil => simp [check_accounts]
  | cons e rest ih =>
    obtain ⟨a, w⟩ := e
    unfold check_accounts
    split
    · split
      · rfl
      · rename_i hd
        rw [h1 (get_active a) s hs (by rw [← hs]; exact hd)]
        have hm := h2 (get_active a) s
        cases hc : recurse2 (get_active a) s with
        | mk b s1 =>
          rw [hc] at hm
          simp only at hm
          cases b
          · exact ih tw s1 (by rw [hm, hs])
          · simp only
            split
            · rfl
            · exact ih _ _ (by simp [hm, hs])
    · split
      · rfl
      · exact ih _ s hs

/-- Fuel adequacy: entered at a depth `n` levels below `max_recursion`, `check_authority`
needs `n + 1` levels; any larger supply gives the same result, so the answer of
`sign_state.check_authority` at a depth not above `max_recursion` never comes from the
exhausted case. -/
theorem check_authority_fuel_adequate (get_active : account_id_type → Option authority)
    (n : Nat) (fuel : Nat) (au : Option authority) (depth : Nat) (s : sign_state)
    (hd : depth + n = s.max_recursion) (hf : n + 1 ≤ fuel) :
    check_authority_fuel get_active fuel au depth s =
      check_authority_fuel get_active (n + 1) au depth s := by
  induction n generalizing fuel au depth s with
  | zero =>
    obtain ⟨f, rfl⟩ : ∃ f, fuel = f + 1 := ⟨fuel - 1, by omega⟩
    cases au with
    | none => simp [check_authority_fuel]
    | some auth =>
      unfold check_authority_fuel
      have hm := (check_keys_frame auth.weight_threshold auth.key_auths 0 s).1
      cases hc : check_keys auth.weight_threshold auth.key_auths 0 s with
      | mk r rest =>
        obtain ⟨tw, s1⟩ := rest
        rw [hc] at hm
        simp only at hm
        cases r with
        | some b => rfl
        | none =>
          simp only
          exact check_accounts_congr _ _ get_active _ depth s.max_recursion
            (fun _ _ _ hne => absurd (by omega) hne)
            (fun au1 s2 => (check_authority_fuel_frame _ _ _ _ _).1) _ _ _ hm
  | succ n ih =>
    obtain ⟨f, rfl⟩ : ∃ f, fuel = f + 1 := ⟨fuel - 1, by omega⟩
    cases au with
    | none => simp [check_authority_fuel]
    | some auth =>
      unfold check_authority_fuel
      have hm := (check_keys_frame auth.weight_threshold auth.key_auths 0 s).1
      cases hc : check_keys auth.weight_threshold auth.key_auths 0 s with
      | mk r rest =>
        obtain ⟨tw, s1⟩ := rest
        rw [hc] at hm
        simp only at hm
        cases r with
        | some b => rfl
        | none =>
          simp only
          exact check_accounts_congr _ _ get_active _ depth s.max_recursion
            (fun au1 s2 hs2 _ => ih f au1 (depth + 1) s2 (by omega) (by omega))
            (fun au1 s2 => (check_authority_fuel_frame _ _ _ _ _).1) _ _ _ hm

/-- The wrap of the 32-bit `total_weight`, on weights far above the 16-bit weights of the
chain (which need more than 65537 key entries for the same effect): the authority
`{5, {key 1 : 4, key 2 : 2^32 - 1}}` is reported satisfied for the keys `{2}` and unsatisfied
for the keys `{1, 2}`, whose weights sum to `2^32 + 3` and wrap to 3. -/
theorem total_weight_wraps :
    ((sign_state.init example_config [2] []).check_authority (fun _ => none)
      (some { weight_threshold := 5, key_auths := [(1, 4), (2, 4294967295)],
              account_auths := [] }) 0).1 = true ∧
    ((sign_state.init example_config [1, 2] []).check_authority (fun _ => none)
      (some { weight_threshold := 5, key_auths := [(1, 4), (2, 4294967295)],
              account_auths := [] }) 0).1 = false := by
  exact ⟨rfl, rfl⟩

/-! ## Reference block, digest and identifier -/

/-- What `set_reference_block` leaves in `ref_block_prefix`: the unconditional last assignment
overwrites the conditional one, so the prefix is always the second word of the identifier. -/
theorem set_reference_block_prefix_always (t : transaction) (reference_block : block_id_type) :
    transaction.ref_block_prefix (t.set_reference_block reference_block) =
      reference_block._hash 1 := by
  unfold transaction.set_reference_block
  rfl

/-- C12. The code at the failing input: for a block identifier with first word 0 and second
word 1 the derived `ref_block_num` is 0, yet `set_reference_block` leaves `ref_block_prefix`
equal to 1, not 0. -/
theorem set_reference_block_prefix_not_zeroed :
    ((⟨0, 0, 0, [], []⟩ : transaction).set_reference_block zero_number_block).ref_block_num =
      0 ∧
    transaction.ref_block_prefix
      ((⟨0, 0, 0, [], []⟩ : transaction).set_reference_block zero_number_block) = 1 := by
  exact ⟨rfl, rfl⟩

theorem endian_reverse_u32_low16 (x : Nat) :
    endian_reverse_u32 x % 2 ^ 16 = x / 2 ^ 16 % 256 * 256 + x / 2 ^ 24 % 256 := by
  unfold endian_reverse_u32
  omega

/-- C13. Reference-block number: after `set_reference_block(id)` the field `ref_block_num` is
the low 16 bits of the byte-swapped first word of `id`, `swap32(id.word0) mod 2^16`, that is
the third byte of that word times 256 plus its fourth byte; and the operations list, the
expiration and the extensions of the transaction are unchanged. -/
theorem set_reference_block_num (t : transaction) (reference_block : block_id_type) :
    (t.set_reference_block reference_block).ref_block_num =
      endian_reverse_u32 (reference_block._hash 0) % 2 ^ 16 ∧
    (t.set_reference_block reference_block).ref_block_num =
      reference_block._hash 0 / 2 ^ 16 % 256 * 256 + reference_block._hash 0 / 2 ^ 24 % 256 ∧
    (t.set_reference_block reference_block).operations = t.operations ∧
    (t.set_reference_block reference_block).expiration = t.expiration ∧
    (t.set_reference_block reference_block).extensions = t.extensions := by
  have h : (t.set_reference_block reference_block).ref_block_num =
      endian_reverse_u32 (reference_block._hash 0) % 2 ^ 16 := by
    unfold transaction.set_reference_block
    simp only
    split <;> rfl
  refine ⟨h, by rw [h, endian_reverse_u32_low16], ?_, ?_, ?_⟩ <;>
    (unfold transaction.set_reference_block; simp only; split <;> rfl)

theorem byte_at_mod (x n i : Nat) (hi : i < n) : byte_at (x % 256 ^ n) i = byte_at x i := by
  unfold byte_at
  obtain ⟨d, rfl⟩ := Nat.exists_eq_add_of_lt hi
  have h1 : (256 : Nat) ^ (i + d + 1) = 256 ^ i * (256 * 256 ^ d) := by
    rw [pow_add, pow_add, pow_one]
    ring
  rw [h1, Nat.mod_mul_right_div_self, Nat.mod_mul_right_mod]

/-- C14. ID prefix: with the hash an arbitrary function of the canonical encoding, the
identifier of a transaction is the first 160 bits (the first 20 bytes, in memory order) of its
digest: each of its 20 bytes is the byte of the digest at the same position, as a number it is
the digest modulo `2^160`; consequently two transactions with equal digests have equal
identifiers. -/
theorem transaction_id_digest (pack : transaction → List Nat) (hash : List Nat → digest_type) :
    (∀ t : transaction, ∀ i, i < 20 →
      byte_at (t.id pack hash) i = byte_at (t.digest pack hash) i) ∧
    (∀ t : transaction, t.id pack hash = t.digest pack hash % 2 ^ 160) ∧
    (∀ t : transaction, t.id pack hash < 2 ^ 160) ∧
    (∀ t1 t2 : transaction, t1.digest pack hash = t2.digest pack hash →
      t1.id pack hash = t2.id pack hash) := by
  have hid : ∀ t : transaction, t.id pack hash = t.digest pack hash % 256 ^ 20 := by
    intro t
    simp [transaction.id, transaction.digest, memcpy, sizeof_transaction_id_type,
      sizeof_digest_type]
  refine ⟨fun t i hi => ?_, fun t => ?_, fun t => ?_, fun t1 t2 h => ?_⟩
  · rw [hid, byte_at_mod _ _ _ hi]
  · rw [hid]
    norm_num
  · rw [hid]
    exact lt_of_lt_of_eq (Nat.mod_lt _ (by positivity)) (by norm_num)
  · rw [hid, hid, h]

/-! ## The contract of `signed_by` -/

theorem flat_map_find_isSome_iff (k : public_key_type) (m : List (public_key_type × Bool)) :
    (flat_map_find k m).isSome = true ↔ k ∈ m.map Prod.fst := by
  induction m with
  | nil => simp [flat_map_find]
  | cons e rest ih =>
    obtain ⟨k1, v1⟩ := e
    simp only [flat_map_find, List.map_cons, List.mem_cons]
    split
    · simp_all
    · rename_i hne
      rw [ih]
      constructor
      · exact Or.inr
      · rintro (h | h)
        · exact absurd h hne
        · exact h

theorem mem_flat_map_set_of_ne (k : public_key_type) (v : Bool)
    (m : List (public_key_type × Bool)) (e : public_key_type × Bool) (he : e ∈ m)
    (hne : e.1 ≠ k) : e ∈ flat_map_set k v m := by
  induction m with
  | nil => simp at he
  | cons e1 rest ih =>
    obtain ⟨k1, v1⟩ := e1
    unfold flat_map_set
    split
    · exact List.mem_cons_of_mem _ he
    · split
      · rename_i hk
        rcases List.mem_cons.mp he with h | h
        · subst h
          exact absurd hk.symm hne
        · exact List.mem_cons_of_mem _ h
      · rcases List.mem_cons.mp he with h | h
        · simp [h]
        · exact List.mem_cons_of_mem _ (ih h)

/-- C20. The contract and frame of `signed_by`: it returns true if and only if `k` is a key of
`provided_signatures` or a member of `available_keys`. After a true return
`provided_signatures` maps `k` to used (true), every other key is mapped as before, the
entries under other keys are the same, and `approved_by`, `available_keys` and
`max_recursion` are unchanged. After a false return the whole state is unchanged. -/
theorem signed_by_contract (s : sign_state) (k : public_key_type) :
    ((s.signed_by k).1 = true ↔
      (k ∈ s.provided_signatures.map Prod.fst ∨ k ∈ s.available_keys)) ∧
    ((s.signed_by k).1 = true →
      flat_map_find k (s.signed_by k).2.provided_signatures = some true ∧
      (∀ k1, k1 ≠ k → flat_map_find k1 (s.signed_by k).2.provided_signatures =
        flat_map_find k1 s.provided_signatures) ∧
      (∀ e : public_key_type × Bool, e.1 ≠ k →
        (e ∈ (s.signed_by k).2.provided_signatures ↔ e ∈ s.provided_signatures)) ∧
      (s.signed_by k).2.approved_by = s.approved_by ∧
      (s.signed_by k).2.available_keys = s.available_keys ∧
      (s.signed_by k).2.max_recursion = s.max_recursion) ∧
    ((s.signed_by k).1 = false → (s.signed_by k).2 = s) := by
  have hiff : s.signable k ↔
      (k ∈ s.provided_signatures.map Prod.fst ∨ k ∈ s.available_keys) := by
    unfold sign_state.signable
    rw [flat_map_find_isSome_iff]
  by_cases h : s.signable k
  · rw [signed_by_true s k h]
    refine ⟨⟨fun _ => hiff.mp h, fun _ => rfl⟩, fun _ => ?_, fun hf => by cases hf⟩
    refine ⟨by simp [flat_map_find_set], fun k1 hk1 => by simp [flat_map_find_set, hk1],
      fun e he => ⟨fun hm => ?_, fun hm => mem_flat_map_set_of_ne k true _ e hm he⟩, rfl, rfl,
      rfl⟩
    rcases mem_flat_map_set k true _ e hm with h1 | h1
    · rw [h1] at he
      exact absurd rfl he
    · exact h1
  · rw [signed_by_false s k h]
    refine ⟨⟨fun hf => (by cases hf), fun hm => absurd (hiff.mpr hm) h⟩,
      fun hf => (by cases hf), fun _ => rfl⟩

/-! ## Key-only authorities -/

theorem signable_iff_mem_keys (s : sign_state) (k : public_key_type) :
    s.signable k ↔ k ∈ s.provided_signatures.map Prod.fst ++ s.available_keys := by
  unfold sign_state.signable
  rw [flat_map_find_isSome_iff, List.mem_append]

theorem check_authority_key_only (get_active : account_id_type → Option authority)
    (auth : authority) (s : sign_state) (fuel depth : Nat) (keys : List public_key_type)
    (hs : ∀ k, s.signable k ↔ k ∈ keys)
    (hacc : auth.account_auths = [])
    (hno : signed_weight keys auth.key_auths < 2 ^ 32) :
    (check_authority_fuel get_active (fuel + 1) (some auth) depth s).1 =
      decide (auth.weight_threshold ≤ signed_weight keys auth.key_auths) ∧
    (check_authority_fuel get_active (fuel + 1) (some auth) depth s).2.approved_by =
      s.approved_by := by
  obtain ⟨_, _, f3, _⟩ := check_keys_frame auth.weight_threshold auth.key_auths 0 s
  unfold check_authority_fuel
  rcases check_keys_sem keys auth.weight_threshold auth.key_auths 0 s hs (by omega) with
    ⟨h1, h2⟩ | ⟨h1, h2⟩
  · cases hc : check_keys auth.weight_threshold auth.key_auths 0 s with
    | mk r rest =>
      rw [hc] at h1 f3
      simp only at h1 f3
      subst h1
      refine ⟨?_, f3⟩
      simp
      omega
  · cases hc : check_keys auth.weight_threshold auth.key_auths 0 s with
    | mk r rest =>
      obtain ⟨tw, s1⟩ := rest
      rw [hc] at h1 h2 f3
      simp only at h1 h2 f3
      subst h1
      simp only [hacc, check_accounts]
      refine ⟨?_, f3⟩
      rw [h2, Nat.zero_add]

/-- C18. Key-only authorities equal the weighted-sum reference: for a present authority with
empty `account_auths` whose key weights total less than `2^32`, every sign-state and every
depth, `check_authority(au, depth)` returns true if and only if the weights of the keys of
`key_auths` that lie in `provided_signatures ∪ available_keys` sum to at least
`weight_threshold`; and `approved_by` is left unchanged. -/
theorem key_only_authority (get_active : account_id_type → Option authority)
    (auth : authority) (s : sign_state) (depth : Nat)
    (hacc : auth.account_auths = [])
    (hno : (auth.key_auths.map Prod.snd).sum < 2 ^ 32) :
    ((s.check_authority get_active (some auth) depth).1 = true ↔
      auth.weight_threshold ≤
        signed_weight (s.provided_signatures.map Prod.fst ++ s.available_keys)
          auth.key_auths) ∧
    (s.check_authority get_active (some auth) depth).2.approved_by = s.approved_by := by
  have hle := signed_weight_le_total
    (s.provided_signatures.map Prod.fst ++ s.available_keys) auth.key_auths
  obtain ⟨h1, h2⟩ := check_authority_key_only get_active auth s (s.max_recursion - depth) depth
    _ (signable_iff_mem_keys s) hacc (by omega)
  unfold sign_state.check_authority
  exact ⟨by rw [h1, decide_eq_true_eq], h2⟩

theorem key_only_authority_witness :
    (((sign_state.init example_config [1, 2] []).check_authority (fun _ => none)
        (some threshold_example) 0).1 = true ↔
      threshold_example.weight_threshold ≤
        signed_weight ((sign_state.init example_config [1, 2] []).provided_signatures.map
          Prod.fst ++ (sign_state.init example_config [1, 2] []).available_keys)
          threshold_example.key_auths) ∧
    ((sign_state.init example_config [1, 2] []).check_authority (fun _ => none)
        (some threshold_example) 0).2.approved_by =
      (sign_state.init example_config [1, 2] []).approved_by :=
  key_only_authority (fun _ => none) threshold_example
    (sign_state.init example_config [1, 2] []) 0 rfl (by decide)

/-! ## The failure kind of a required owner authority -/

/-- The loop over `required_owner` fails exactly when it reaches an id that is not in
`owner_approvals` and whose owner authority is not satisfied in the state reached. -/
theorem verify_owner_error_iff (get_active get_owner : account_id_type → Option authority)
    (owner_approvals l : List account_id_type) (s : sign_state) :
    (∃ e, verify_owner get_active get_owner owner_approvals l s = .error e) ↔
      ∃ pre id post s3, l = pre ++ id :: post ∧
        verify_owner get_active get_owner owner_approvals pre s = .ok s3 ∧
        id ∉ owner_approvals ∧ (s3.check_authority get_active (get_owner id) 0).1 = false := by
  induction l generalizing s with
  | nil =>
    constructor
    · rintro ⟨e, he⟩
      simp [verify_owner] at he
    · rintro ⟨pre, id, post, s3, hl, _⟩
      simp at hl
  | cons x rest ih =>
    by_cases hx : x ∈ owner_approvals
    · have hstep : ∀ l1, verify_owner get_active get_owner owner_approvals (x :: l1) s =
          verify_owner get_active get_owner owner_approvals l1 s := by
        intro l1
        simp [verify_owner, hx]
      rw [hstep, ih s]
      constructor
      · rintro ⟨pre, id, post, s3, hl, hv, hn, hc⟩
        exact ⟨x :: pre, id, post, s3, by simp [hl], by rw [hstep]; exact hv, hn, hc⟩
      · rintro ⟨pre, id, post, s3, hl, hv, hn, hc⟩
        cases pre with
        | nil =>
          simp only [List.nil_append, List.cons.injEq] at hl
          exact absurd (hl.1 ▸ hx) hn
        | cons y pre1 =>
          simp only [List.cons_append, List.cons.injEq] at hl
          obtain ⟨rfl, hl⟩ := hl
          exact ⟨pre1, id, post, s3, hl, by rw [hstep] at hv; exact hv, hn, hc⟩
    · cases hc0 : s.check_authority get_active (get_owner x) 0 with
      | mk b s1 =>
        cases b
        · constructor
          · intro _
            exact ⟨[], x, rest, s, rfl, rfl, hx, by rw [hc0]⟩
          · intro _
            exact ⟨.tx_missing_other_auth, by simp [verify_owner, hx, hc0]⟩
        · have hstep : ∀ l1, verify_owner get_active get_owner owner_approvals (x :: l1) s =
              verify_owner get_active get_owner owner_approvals l1 s1 := by
            intro l1
            simp [verify_owner, hx, hc0]
          rw [hstep, ih s1]
          constructor
          · rintro ⟨pre, id, post, s3, hl, hv, hn, hc⟩
            exact ⟨x :: pre, id, post, s3, by simp [hl], by rw [hstep]; exact hv, hn, hc⟩
          · rintro ⟨pre, id, post, s3, hl, hv, hn, hc⟩
            cases pre with
            | nil =>
              simp only [List.nil_append, List.cons.injEq] at hl
              obtain ⟨rfl, _⟩ := hl
              simp only [verify_owner, Except.ok.injEq] at hv
              subst hv
              rw [hc0] at hc
              cases hc
            | cons y pre1 =>
              simp only [List.cons_append, List.cons.injEq] at hl
              obtain ⟨rfl, hl⟩ := hl
              exact ⟨pre1, id, post, s3, hl, by rw [hstep] at hv; exact hv, hn, hc⟩

theorem verify_owner_absent (get_active get_owner : account_id_type → Option authority)
    (owner_approvals l : List account_id_type) (id : account_id_type) (hid : id ∈ l)
    (hn : id ∉ owner_approvals) (ho : get_owner id = none) (s : sign_state) :
    verify_owner get_active get_owner owner_approvals l s = .error .tx_missing_other_auth := by
  induction l generalizing s with
  | nil => simp at hid
  | cons x rest ih =>
    unfold verify_owner
    by_cases hx : x = id
    · subst hx
      simp [hn, ho, check_authority_none]
    · have hrest : id ∈ rest := by
        rcases List.mem_cons.mp hid with h | h
        · exact absurd h.symm hx
        · exact h
      split
      · exact ih hrest s
      · split
        · exact ih hrest _
        · rfl

theorem verify_authority_checks_owner (cfg : chain_config) (ops : List operation)
    (sigs : List public_key_type) (get_active get_owner : account_id_type → Option authority)
    (M : Nat) (allow_committe : Bool)
    (active_aprovals owner_approvals : List account_id_type) (s1 s2 : sign_state)
    (hgate : ¬(allow_committe = false ∧
      cfg.GRAPHENE_COMMITTEE_ACCOUNT ∈ (get_required_authorities ops).1))
    (h1 : verify_other get_active (get_required_authorities ops).2.2
      (verify_state cfg sigs M active_aprovals owner_approvals) = .ok s1)
    (h2 : verify_active get_active get_owner (get_required_authorities ops).1 s1 = .ok s2) :
    verify_authority_checks cfg ops sigs get_active get_owner M allow_committe active_aprovals
        owner_approvals =
      verify_owner get_active get_owner owner_approvals (get_required_authorities ops).2.1
        s2 := by
  have hg : ¬((!allow_committe) = true ∧
      cfg.GRAPHENE_COMMITTEE_ACCOUNT ∈ (get_required_authorities ops).1) := by
    simpa using hgate
  unfold verify_authority_checks
  simp only
  rw [if_neg hg, h1]
  simp only
  rw [h2]

theorem verify_authority_not_owner_auth (cfg : chain_config) (ops : List operation)
    (sigs : List public_key_type) (get_active get_owner : account_id_type → Option authority)
    (M : Nat) (allow_committe : Bool)
    (active_aprovals owner_approvals : List account_id_type) :
    verify_authority cfg ops sigs get_active get_owner M allow_committe active_aprovals
      owner_approvals ≠ .error .tx_missing_owner_auth := by
  intro h
  unfold verify_authority at h
  split at h
  · rename_i e he
    cases h
    rcases verify_authority_checks_error _ _ _ _ _ _ _ _ _ _ he with
      ⟨h1, _⟩ | ⟨_, h1 | ⟨_, _, h1⟩⟩ <;> cases h1
  · split at h <;> cases h

/-- C16. Required-owner failure kind. `verify_authority` never fails with
`tx missing owner auth`. On every input on which the committee gate, every ad-hoc authority
check and every required-active check pass, it fails with `tx missing other auth` exactly when
the loop over `required_owner` reaches an id that is not in `owner_approvals` and for which
`check_authority(get_owner(id))` is false. Membership of the id in `active_approvals` does not
help: a required-owner id outside `owner_approvals` with no owner authority fails this way
although it is in `active_approvals`. -/
theorem required_owner_failure (cfg : chain_config) (ops : List operation)
    (sigs : List public_key_type) (get_active get_owner : account_id_type → Option authority)
    (max_recursion_depth : Nat) (allow_committe : Bool)
    (active_aprovals owner_approvals : List account_id_type) :
    verify_authority cfg ops sigs get_active get_owner max_recursion_depth allow_committe
        active_aprovals owner_approvals ≠ .error .tx_missing_owner_auth ∧
    (∀ s1 s2,
      ¬(allow_committe = false ∧
        cfg.GRAPHENE_COMMITTEE_ACCOUNT ∈ (get_required_authorities ops).1) →
      verify_other get_active (get_required_authorities ops).2.2
        (verify_state cfg sigs max_recursion_depth active_aprovals owner_approvals) = .ok s1 →
      verify_active get_active get_owner (get_required_authorities ops).1 s1 = .ok s2 →
      (verify_authority cfg ops sigs get_active get_owner max_recursion_depth allow_committe
          active_aprovals owner_approvals = .error .tx_missing_other_auth ↔
        ∃ pre id post s3, (get_required_authorities ops).2.1 = pre ++ id :: post ∧
          verify_owner get_active get_owner owner_approvals pre s2 = .ok s3 ∧
          id ∉ owner_approvals ∧
          (s3.check_authority get_active (get_owner id) 0).1 = false) ∧
      (∀ id ∈ (get_required_authorities ops).2.1, id ∈ active_aprovals →
        id ∉ owner_approvals → get_owner id = none →
        verify_authority cfg ops sigs get_active get_owner max_recursion_depth allow_committe
          active_aprovals owner_approvals = .error .tx_missing_other_auth)) := by
  refine ⟨verify_authority_not_owner_auth cfg ops sigs get_active get_owner
    max_recursion_depth allow_committe active_aprovals owner_approvals, ?_⟩
  intro s1 s2 hgate h1 h2
  have hc := verify_authority_checks_owner cfg ops sigs get_active get_owner
    max_recursion_depth allow_committe active_aprovals owner_approvals s1 s2 hgate h1 h2
  obtain ⟨v1, v2⟩ := verify_authority_of_checks cfg ops sigs get_active get_owner
    max_recursion_depth allow_committe active_aprovals owner_approvals
  constructor
  · rw [← verify_owner_error_iff, ← hc]
    constructor
    · intro h
      cases hk : verify_authority_checks cfg ops sigs get_active get_owner max_recursion_depth
          allow_committe active_aprovals owner_approvals with
      | error e => exact ⟨e, rfl⟩
      | ok s =>
        rcases v2 s hk with h3 | h3 <;> rw [h3] at h <;> cases h
    · rintro ⟨e, he⟩
      have := verify_owner_error _ _ _ _ _ _ (hc ▸ he)
      subst this
      exact v1 _ he
  · intro id hid _ hn ho
    apply v1
    rw [hc]
    exact verify_owner_absent get_active get_owner owner_approvals _ id hid hn ho s2

/-- An instance of the required-owner failure: account 10 is required by owner authority, is in
`active_approvals` but not in `owner_approvals`, and has no owner authority; the loops before
it pass and `verify_authority` fails with `tx missing other auth`. -/
theorem required_owner_failure_witness :
    verify_authority example_config owner_required_ops [] (fun _ => none) (fun _ => none) 2
      false [10] [] = .error .tx_missing_other_auth :=
  ((required_owner_failure example_config owner_required_ops [] (fun _ => none)
    (fun _ => none) 2 false [10] []).2 _ _ (by decide) rfl rfl).2 10 (by decide) (by decide)
    (by decide) rfl

/-! ## Errors that leave the minimizer -/

theorem minimize_loop_propagates (cfg : chain_config) (ops : List operation)
    (get_active get_owner : account_id_type → Option authority) (max_recursion : Nat)
    (allow_committe : Bool) (k : public_key_type) (rest result : List public_key_type)
    (e : error)
    (hv : verify_authority cfg ops (flat_set_erase k result) get_active get_owner
      max_recursion allow_committe [] [] = .error e)
    (he : e.is_missing_auth = false) :
    minimize_loop cfg ops get_active get_owner max_recursion allow_committe (k :: rest)
      result = .error e := by
  unfold minimize_loop
  rw [hv]
  simp [he]

/-- C19. The minimizer does not always return. A probe of `verify_authority` that fails with
an error other than the three missing-authority kinds ends the loop with that error. And there
is a transaction with no existing signatures (`example_trx_three`, which does not require the
committee account), with available keys `{1, 2, 3}`, for which the starting set is
`{1, 2, 3}`, the probe without key 1 fails with a caught error, the probe without key 2 fails
with `Unnecessary signatures detected` (key 3 stays unused), and
`minimize_required_signatures` fails with that error instead of returning a key set. -/
theorem minimize_required_signatures_propagates :
    (∀ (cfg : chain_config) (ops : List operation)
      (get_active get_owner : account_id_type → Option authority) (max_recursion : Nat)
      (allow_committe : Bool) (k : public_key_type) (rest result : List public_key_type)
      (e : error),
      verify_authority cfg ops (flat_set_erase k result) get_active get_owner max_recursion
        allow_committe [] [] = .error e → e.is_missing_auth = false →
      minimize_loop cfg ops get_active get_owner max_recursion allow_committe (k :: rest)
        result = .error e) ∧
    example_trx_three.signatures = [] ∧
    example_config.GRAPHENE_COMMITTEE_ACCOUNT ∉
      (get_required_authorities example_trx_three.operations).1 ∧
    example_trx_three.get_required_signatures example_config (fun sig _ => sig) (fun _ => 0)
      [1, 2, 3] propagation_example_active (fun _ => none) 1 = .ok [1, 2, 3] ∧
    verify_authority example_config example_trx_three.operations (flat_set_erase 1 [1, 2, 3])
      propagation_example_active (fun _ => none) 1 false [] [] =
        .error (.tx_missing_active_auth 9) ∧
    verify_authority example_config example_trx_three.operations (flat_set_erase 2 [1, 2, 3])
      propagation_example_active (fun _ => none) 1 false [] [] =
        .error .unnecessary_signatures ∧
    example_trx_three.minimize_required_signatures example_config (fun sig _ => sig)
      (fun _ => 0) false [1, 2, 3] propagation_example_active (fun _ => none) 1 =
        .error .unnecessary_signatures := by
  refine ⟨fun cfg ops get_active get_owner max_recursion allow_committe k rest result e hv he =>
    minimize_loop_propagates cfg ops get_active get_owner max_recursion allow_committe k rest
      result e hv he, rfl, by decide, rfl, rfl, rfl, rfl⟩

/-! ## Account entries at the depth bound -/

/-- The account loop at `depth == max_recursion`, from a total below the threshold: entries of
approved accounts are added up; the first entry of an account that is not approved ends the
loop with false, whatever follows it. The state is not changed. -/
theorem check_accounts_at_cap (recurse : Option authority → sign_state → Bool × sign_state)
    (get_active : account_id_type → Option authority) (threshold depth : Nat)
    (a : account_id_type) (w : Nat) (post : List (account_id_type × Nat))
    (pre : List (account_id_type × Nat)) (tw : Nat) (s : sign_state)
    (hd : depth = s.max_recursion) (hpre : ∀ e ∈ pre, e.1 ∈ s.approved_by)
    (ha : a ∉ s.approved_by) (hlt : tw < threshold)
    (hno : tw + (pre.map Prod.snd).sum < 2 ^ 32) :
    check_accounts recurse get_active threshold depth (pre ++ (a, w) :: post) tw s =
      (decide (threshold ≤ tw + (pre.map Prod.snd).sum), s) := by
  induction pre generalizing tw with
  | nil =>
    simp only [List.nil_append, check_accounts, ha, not_false_eq_true, if_true, hd,
      List.map_nil, List.sum_nil, Nat.add_zero]
    simp [Nat.not_le.mpr hlt]
  | cons e pre1 ih =>
    obtain ⟨b, wb⟩ := e
    have hb : b ∈ s.approved_by := hpre (b, wb) (by simp)
    simp only [List.map_cons, List.sum_cons] at hno ⊢
    simp only [List.cons_append, check_accounts, hb, not_true_eq_false, if_false]
    rw [add_weight_eq tw wb (by omega)]
    split
    · rename_i hge
      simp
      omega
    · rename_i hlt1
      exact (ih (tw + wb) (fun e he => hpre e (by simp [he])) (by omega) (by omega)).trans
        (by rw [Nat.add_assoc])

/-- C17 (as amended). At `depth == max_recursion`, an `account_auths` entry whose account is
not in `approved_by` is not skipped: it ends `check_authority` with false (no recursion, no
weight added, the remaining entries are not examined). So for an authority with a positive
threshold whose entries `pre` for approved accounts precede the first unapproved entry,
`check_authority` returns true exactly when the signed keys together with `pre` reach
`weight_threshold` (their weights totalling less than `2^32`); the entries after the
unapproved one never count. `approved_by` is unchanged. -/
theorem return_at_depth_bound (get_active : account_id_type → Option authority)
    (auth : authority) (s : sign_state) (depth : Nat) (keys : List public_key_type)
    (pre post : List (account_id_type × Nat)) (a : account_id_type) (w : Nat)
    (hd : depth = s.max_recursion)
    (hs : ∀ k, s.signable k ↔ k ∈ keys)
    (hacc : auth.account_auths = pre ++ (a, w) :: post)
    (hpre : ∀ e ∈ pre, e.1 ∈ s.approved_by)
    (ha : a ∉ s.approved_by)
    (hpos : 0 < auth.weight_threshold)
    (hno : signed_weight keys auth.key_auths + (pre.map Prod.snd).sum < 2 ^ 32) :
    ((s.check_authority get_active (some auth) depth).1 = true ↔
      auth.weight_threshold ≤ signed_weight keys auth.key_auths + (pre.map Prod.snd).sum) ∧
    (s.check_authority get_active (some auth) depth).2.approved_by = s.approved_by := by
  obtain ⟨f1, _, f3, _⟩ := check_keys_frame auth.weight_threshold auth.key_auths 0 s
  unfold sign_state.check_authority check_authority_fuel
  rcases check_keys_sem keys auth.weight_threshold auth.key_auths 0 s hs (by omega) with
    ⟨h1, h2⟩ | ⟨h1, h2⟩
  · cases hc : check_keys auth.weight_threshold auth.key_auths 0 s with
    | mk r rest =>
      rw [hc] at h1 f3
      simp only at h1 f3
      subst h1
      refine ⟨?_, f3⟩
      simp only [true_iff]
      omega
  · have hlt : signed_weight keys auth.key_auths < auth.weight_threshold := by
      by_contra hge
      have := check_keys_reaches keys auth.weight_threshold auth.key_auths 0 s hs (by omega)
        (by omega) hpos
      rw [h1] at this
      cases this
    cases hc : check_keys auth.weight_threshold auth.key_auths 0 s with
    | mk r rest =>
      obtain ⟨tw, s1⟩ := rest
      rw [hc] at h1 h2 f1 f3
      simp only at h1 h2 f1 f3
      subst h1
      rw [Nat.zero_add] at h2
      subst h2
      simp only
      rw [hacc, check_accounts_at_cap _ get_active _ depth a w post pre _ s1
        (by rw [f1]; exact hd) (by rw [f3]; exact hpre) (by rw [f3]; exact ha) hlt hno]
      exact ⟨by simp, f3⟩

/-- C17 fails as stated: with `max_recursion = 0` and the temporary account 4 approved, the
entry `4 : 1` of `unapproved_first_authority` alone reaches the threshold 1, but the
unapproved entry `7 : 1` precedes it at `depth == max_recursion` and `check_authority`
returns false. -/
theorem skip_at_depth_bound_counterexample :
    (4 : account_id_type) ∈
      ({ sign_state.init example_config [] [] with max_recursion := 0 } : sign_state).approved_by ∧
    (7 : account_id_type) ∉
      ({ sign_state.init example_config [] [] with max_recursion := 0 } : sign_state).approved_by ∧
    ({ sign_state.init example_config [] [] with max_recursion := 0 }.check_authority
      (fun _ => none) (some unapproved_first_authority) 0).1 = false := by
  refine ⟨by decide, by decide, rfl⟩

theorem return_at_depth_bound_witness :
    (({ sign_state.init example_config [] [] with max_recursion := 0 }.check_authority
        (fun _ => none) (some approved_first_authority) 0).1 = true ↔
      approved_first_authority.weight_threshold ≤
        signed_weight [] approved_first_authority.key_auths + ([(4, 1)].map Prod.snd).sum) ∧
    ({ sign_state.init example_config [] [] with max_recursion := 0 }.check_authority
        (fun _ => none) (some approved_first_authority) 0).2.approved_by =
      ({ sign_state.init example_config [] [] with max_recursion := 0 } : sign_state).approved_by :=
  return_at_depth_bound (fun _ => none) approved_first_authority
    { sign_state.init example_config [] [] with max_recursion := 0 } 0 [] [(4, 1)] [] 7 1 rfl
    (by intro k; simp [sign_state.signable, sign_state.init, flat_map_find]) rfl (by decide)
    (by decide) (by decide) (by decide)

/-! ## The temporary account and the approvals are never lost -/

theorem approved_by_check_authority_fuel (get_active : account_id_type → Option authority)
    (fuel : Nat) (au : Option authority) (depth : Nat) (s : sign_state) (a : account_id_type)
    (h : a ∈ s.approved_by) :
    a ∈ (check_authority_fuel get_active fuel au depth s).2.approved_by :=
  check_authority_fuel_preserves (fun s1 => a ∈ s1.approved_by) (fun _ => True)
    (fun s1 k _ h1 => by rw [signed_by_eq]; split <;> exact h1)
    (fun s1 b h1 => (mem_flat_set_insert b a _).mpr (Or.inr h1)) get_active
    (fun _ _ _ _ _ => trivial) fuel au depth s (fun _ _ _ _ => trivial) h

/-- `approved_by` never shrinks. -/
theorem approved_by_reaches (get_active : account_id_type → Option authority)
    (s0 s : sign_state) (h : sign_state.reaches get_active s0 s) (a : account_id_type)
    (ha : a ∈ s0.approved_by) : a ∈ s.approved_by := by
  induction h with
  | start => exact ha
  | signed_by k _ ih =>
    rw [signed_by_eq]
    split <;> exact ih
  | check_authority au depth _ ih =>
    exact approved_by_check_authority_fuel get_active _ au depth _ a ih
  | check_authority_id id _ ih =>
    unfold sign_state.check_authority_id
    split
    · exact ih
    · exact approved_by_check_authority_fuel get_active _ _ 0 _ a ih
  | remove_unused_signatures _ ih => exact ih

theorem check_authority_id_approved (s : sign_state)
    (get_active : account_id_type → Option authority) (id : account_id_type)
    (h : id ∈ s.approved_by) : s.check_authority_id get_active id = (true, s) := by
  simp [sign_state.check_authority_id, h]

theorem verify_authority_temp_only (cfg : chain_config) (ops : List operation)
    (get_active get_owner : account_id_type → Option authority) (M : Nat)
    (allow_committe : Bool) (active_aprovals owner_approvals : List account_id_type)
    (hcfg : cfg.GRAPHENE_TEMP_ACCOUNT ≠ cfg.GRAPHENE_COMMITTEE_ACCOUNT)
    (hreq : get_required_authorities ops = ([cfg.GRAPHENE_TEMP_ACCOUNT], [], [])) :
    verify_authority cfg ops [] get_active get_owner M allow_committe active_aprovals
      owner_approvals = .ok () := by
  have htemp : cfg.GRAPHENE_TEMP_ACCOUNT ∈
      (verify_state cfg [] M active_aprovals owner_approvals).approved_by :=
    ((verify_state_fields cfg [] M active_aprovals owner_approvals).2.2.2 _).mpr (Or.inl rfl)
  have hg : ¬(allow_committe = false ∧
      cfg.GRAPHENE_COMMITTEE_ACCOUNT = cfg.GRAPHENE_TEMP_ACCOUNT) :=
    fun h => hcfg h.2.symm
  have hrem : (verify_state cfg [] M active_aprovals
      owner_approvals).remove_unused_signatures.1 = false := by
    rw [← Bool.not_eq_true, remove_unused_signatures_fst]
    rintro ⟨e, he, _⟩
    rw [(verify_state_fields cfg [] M active_aprovals owner_approvals).2.2.1] at he
    simp at he
  simp [verify_authority, verify_authority_checks, hreq, hg, verify_other, verify_active,
    check_authority_id_approved _ get_active _ htemp, verify_owner, hrem]

/-- C15. The temporary account is always approved. In every sign-state reachable from the
constructed state by calls of `signed_by`, `check_authority` and `remove_unused_signatures`,
`approved_by` contains the temporary account id; from the state prepared by `verify_authority`
it also contains every caller pre-approval; `approved_by` never shrinks. Hence
`check_authority(temporary account id)` returns true and leaves the state as it is (no key is
marked used) whatever `get_active` is (it is not consulted), and, the temporary account not
being the committee account, `verify_authority` on operations requiring only the temporary
account's active authority succeeds with an empty signer-key set. -/
theorem temporary_account_approved (cfg : chain_config)
    (get_active get_owner : account_id_type → Option authority)
    (hcfg : cfg.GRAPHENE_TEMP_ACCOUNT ≠ cfg.GRAPHENE_COMMITTEE_ACCOUNT) :
    (∀ sigs keys s, sign_state.reaches get_active (sign_state.init cfg sigs keys) s →
      cfg.GRAPHENE_TEMP_ACCOUNT ∈ s.approved_by ∧
      ∀ get_active1, s.check_authority_id get_active1 cfg.GRAPHENE_TEMP_ACCOUNT = (true, s)) ∧
    (∀ sigs M active_aprovals owner_approvals s,
      sign_state.reaches get_active
        (verify_state cfg sigs M active_aprovals owner_approvals) s →
      cfg.GRAPHENE_TEMP_ACCOUNT ∈ s.approved_by ∧
      (∀ a, a ∈ active_aprovals ∨ a ∈ owner_approvals → a ∈ s.approved_by) ∧
      ∀ get_active1, s.check_authority_id get_active1 cfg.GRAPHENE_TEMP_ACCOUNT = (true, s)) ∧
    (∀ s0 s, sign_state.reaches get_active s0 s → ∀ a ∈ s0.approved_by, a ∈ s.approved_by) ∧
    (∀ ops M allow_committe active_aprovals owner_approvals,
      get_required_authorities ops = ([cfg.GRAPHENE_TEMP_ACCOUNT], [], []) →
      verify_authority cfg ops [] get_active get_owner M allow_committe active_aprovals
        owner_approvals = .ok ()) := by
  refine ⟨fun sigs keys s h => ?_, fun sigs M aa oa s h => ?_,
    fun s0 s h a ha => approved_by_reaches get_active s0 s h a ha,
    fun ops M allow aa oa hreq => verify_authority_temp_only cfg ops get_active get_owner M
      allow aa oa hcfg hreq⟩
  · have ht : cfg.GRAPHENE_TEMP_ACCOUNT ∈ s.approved_by :=
      approved_by_reaches get_active _ s h _ (by simp [sign_state.init, flat_set_insert])
    exact ⟨ht, fun g => check_authority_id_approved s g _ ht⟩
  · have hf := (verify_state_fields cfg sigs M aa oa).2.2.2
    have ht : cfg.GRAPHENE_TEMP_ACCOUNT ∈ s.approved_by :=
      approved_by_reaches get_active _ s h _ ((hf _).mpr (Or.inl rfl))
    exact ⟨ht, fun a ha => approved_by_reaches get_active _ s h a ((hf a).mpr (Or.inr ha)),
      fun g => check_authority_id_approved s g _ ht⟩

theorem temporary_account_approved_witness :
    verify_authority example_config
      [{ required_active := [4], required_owner := [], other := [] }] []
      (fun _ => none) (fun _ => none) 2 false [] [] = .ok () :=
  (temporary_account_approved example_config (fun _ => none) (fun _ => none)
    (by decide)).2.2.2 [{ required_active := [4], required_owner := [], other := [] }] 2 false
    [] [] rfl

/-! ## Termination under the recursion bound -/

theorem check_accounts_steps_spec
    (recurse : Option authority → sign_state → Bool × sign_state)
    (recurse_steps : Option authority → sign_state → Option (Bool × sign_state × List Nat))
    (get_active : account_id_type → Option authority) (threshold depth M : Nat)
    (P : Nat → Prop)
    (hrec : ∀ au s, s.max_recursion = M → depth ≠ M →
      ∃ log1, recurse_steps au s = some ((recurse au s).1, (recurse au s).2, log1) ∧
        ∀ d ∈ log1, P d)
    (hmax : ∀ au s, (recurse au s).2.max_recursion = s.max_recursion)
    (l : List (account_id_type × Nat)) (tw : Nat) (s : sign_state) (log : List Nat)
    (hs : s.max_recursion = M) (hlog : ∀ d ∈ log, P d) :
    ∃ log1, check_accounts_steps recurse_steps get_active threshold depth l tw s log =
        some ((check_accounts recurse get_active threshold depth l tw s).1,
          (check_accounts recurse get_active threshold depth l tw s).2, log1) ∧
      ∀ d ∈ log1, P d := by
  induction l generalizing tw s log with
  | nil => exact ⟨log, by simp [check_accounts_steps, check_accounts], hlog⟩
  | cons e rest ih =>
    obtain ⟨a, w⟩ := e
    unfold check_accounts_steps check_accounts
    by_cases hap : a ∈ s.approved_by
    · simp only [hap, not_true_eq_false, if_false]
      split
      · exact ⟨log, rfl, hlog⟩
      · exact ih _ s log hs hlog
    · simp only [hap, not_false_eq_true, if_true]
      by_cases hd : depth = s.max_recursion
      · simp only [hd, if_true]
        exact ⟨log, rfl, hlog⟩
      · simp only [hd, if_false]
        obtain ⟨log1, hr, hl1⟩ := hrec (get_active a) s hs (by rw [← hs]; exact hd)
        have hm := hmax (get_active a) s
        have hlog2 : ∀ d ∈ log ++ log1, P d := by
          intro d hd1
          rcases List.mem_append.mp hd1 with h | h
          · exact hlog d h
          · exact hl1 d h
        rw [hr]
        cases hc : recurse (get_active a) s with
        | mk b s1 =>
          rw [hc] at hm
          simp only at hm
          cases b
          · simp only
            exact ih tw s1 _ (by rw [hm, hs]) hlog2
          · simp only
            split
            · exact ⟨log ++ log1, rfl, hlog2⟩
            · exact ih _ _ _ (by simp [hm, hs]) hlog2

/-- Entered at a depth `n` levels below `max_recursion`, the instrumented `check_authority`
does not run out of levels when given at least `n + 1` of them, gives the result of
`check_authority`, and is entered only at depths between `depth` and `max_recursion`. -/
theorem check_authority_steps_spec (get_active : account_id_type → Option authority)
    (n : Nat) (fuel : Nat) (au : Option authority) (depth : Nat) (s : sign_state)
    (hd : depth + n = s.max_recursion) (hf : n + 1 ≤ fuel) :
    ∃ log, check_authority_steps get_active fuel au depth s =
        some ((check_authority_fuel get_active (n + 1) au depth s).1,
          (check_authority_fuel get_active (n + 1) au depth s).2, log) ∧
      ∀ d ∈ log, depth ≤ d ∧ d ≤ s.max_recursion := by
  induction n generalizing fuel au depth s with
  | zero =>
    obtain ⟨f, rfl⟩ : ∃ f, fuel = f + 1 := ⟨fuel - 1, by omega⟩
    cases au with
    | none =>
      exact ⟨[depth], by simp [check_authority_steps, check_authority_fuel], by simp; omega⟩
    | some auth =>
      unfold check_authority_steps check_authority_fuel
      have hm := (check_keys_frame auth.weight_threshold auth.key_auths 0 s).1
      cases hc : check_keys auth.weight_threshold auth.key_auths 0 s with
      | mk r rest =>
        obtain ⟨tw, s1⟩ := rest
        rw [hc] at hm
        simp only at hm
        cases r with
        | some b => exact ⟨[depth], rfl, by simp; omega⟩
        | none =>
          simp only
          obtain ⟨log, h1, h2⟩ := check_accounts_steps_spec
            (fun au1 s2 => check_authority_fuel get_active 0 au1 (depth + 1) s2)
            (fun au1 s2 => check_authority_steps get_active f au1 (depth + 1) s2)
            get_active auth.weight_threshold depth s.max_recursion
            (fun d => depth ≤ d ∧ d ≤ s.max_recursion)
            (fun _ _ _ hne => absurd (by omega) hne)
            (fun au1 s2 => (check_authority_fuel_frame _ _ _ _ _).1)
            auth.account_auths tw s1 [depth] hm (by simp; omega)
          exact ⟨log, h1, h2⟩
  | succ n ih =>
    obtain ⟨f, rfl⟩ : ∃ f, fuel = f + 1 := ⟨fuel - 1, by omega⟩
    cases au with
    | none =>
      exact ⟨[depth], by simp [check_authority_steps, check_authority_fuel], by simp; omega⟩
    | some auth =>
      unfold check_authority_steps check_authority_fuel
      have hm := (check_keys_frame auth.weight_threshold auth.key_auths 0 s).1
      cases hc : check_keys auth.weight_threshold auth.key_auths 0 s with
      | mk r rest =>
        obtain ⟨tw, s1⟩ := rest
        rw [hc] at hm
        simp only at hm
        cases r with
        | some b => exact ⟨[depth], rfl, by simp; omega⟩
        | none =>
          simp only
          obtain ⟨log, h1, h2⟩ := check_accounts_steps_spec
            (fun au1 s2 => check_authority_fuel get_active (n + 1) au1 (depth + 1) s2)
            (fun au1 s2 => check_authority_steps get_active f au1 (depth + 1) s2)
            get_active auth.weight_threshold depth s.max_recursion
            (fun d => depth ≤ d ∧ d ≤ s.max_recursion)
            (fun au1 s2 hs2 _ => by
              obtain ⟨log1, e1, e2⟩ := ih f au1 (depth + 1) s2 (by omega) (by omega)
              exact ⟨log1, e1, fun d hd1 => ⟨by have := (e2 d hd1).1; omega,
                by have := (e2 d hd1).2; omega⟩⟩)
            (fun au1 s2 => (check_authority_fuel_frame _ _ _ _ _).1)
            auth.account_auths tw s1 [depth] hm (by simp; omega)
          exact ⟨log, h1, h2⟩

/-- C11. Termination under the recursion bound: for every pair of callbacks (cyclic authority
graphs included), every sign-state and every authority, `check_authority` started at depth 0
returns when run with `max_recursion + 1` levels or more (it never runs out of them), its
result is the one of `check_authority`, and it is entered only at depths not above
`max_recursion`. `verify_authority` is a finite sequence of such calls, one or two for each
accumulated requirement; on the account whose active authority names itself it returns
`tx missing active auth`. -/
theorem check_authority_terminates (get_active : account_id_type → Option authority) :
    (∀ (s : sign_state) (au : Option authority) (fuel : Nat), s.max_recursion + 1 ≤ fuel →
      ∃ log, check_authority_steps get_active fuel au 0 s =
          some ((s.check_authority get_active au 0).1, (s.check_authority get_active au 0).2,
            log) ∧
        ∀ d ∈ log, d ≤ s.max_recursion) ∧
    verify_authority example_config
      [{ required_active := [10], required_owner := [], other := [] }] []
      cyclic_active cyclic_active 2 false [] [] = .error (.tx_missing_active_auth 10) := by
  refine ⟨fun s au fuel hf => ?_, rfl⟩
  obtain ⟨log, h1, h2⟩ := check_authority_steps_spec get_active s.max_recursion fuel au 0 s
    (Nat.zero_add _) hf
  exact ⟨log, by simpa [sign_state.check_authority] using h1, fun d hd => (h2 d hd).2⟩

end Graphene
